import Mathlib

/-!
# Telemonitor — configuration store and systemd-service lifecycle, verified model

Shallow embedding of the configuration-reconciliation code in
`telemonitor/helpers.py` (class `TM_Config`) and of the systemd service
lifecycle in `telemonitor/extensions/systemd_service/__init__.py`.

JSON documents are modelled by `JValue`; Python `dict`s become ordered
association lists (Python 3.7+ dicts preserve insertion order; assignment to
an existing key keeps its position, assignment to a new key appends).
A Python exception (`KeyError`, `TypeError`, ...) is modelled by `Option`
returning `none`.
-/

set_option maxRecDepth 100000

namespace Telemonitor

/-- A JSON-compatible configuration value, as stored in `config.json`. -/
inductive JValue where
  | str (s : String)
  | int (n : Int)
  | bool (b : Bool)
  | list (xs : List JValue)
  | dict (entries : List (String × JValue))
deriving Repr


/-- A Python dict of JSON values: an insertion-ordered association list. -/
abbrev Dict := List (String × JValue)

/-- `d[k]` / `d.get(k)`: value of the first binding of `k`, if any. -/
def lookup : Dict → String → Option JValue
  | [], _ => none
  | (k₁, v) :: rest, k => if k₁ = k then some v else lookup rest k

/-- `d.get(k, dflt)`. -/
def getD (d : Dict) (k : String) (dflt : JValue) : JValue :=
  (lookup d k).getD dflt

/-- `d[k] = v`: replace the binding in place if `k` is present (keeping its
position), otherwise append it at the end — Python dict assignment. -/
def setKey : Dict → String → JValue → Dict
  | [], k, v => [(k, v)]
  | (k₁, v₁) :: rest, k, v =>
    if k₁ = k then (k₁, v) :: rest else (k₁, v₁) :: setKey rest k v

/-- `del d[k]`: drop the first binding of `k`. -/
def eraseKey : Dict → String → Dict
  | [], _ => []
  | (k₁, v₁) :: rest, k =>
    if k₁ = k then rest else (k₁, v₁) :: eraseKey rest k

/-- The keys of a dict, in order. -/
def keys (d : Dict) : List String := d.map Prod.fst

/-- Is this value a Python `dict` (`type(v) == dict`)? -/
def isDict : JValue → Bool
  | .dict _ => true
  | _ => false

/-- The Python membership test `k in w`.  For a `str` it is the substring
test, for a `list` it compares the string `k` with each element by `==`
(equal only to an equal string — comparison with values of other types is
`False`, not an error), for a `dict` it is key lookup; on an `int` or `bool`
the test raises `TypeError` (`none`). -/
def pyContains : JValue → String → Option Bool
  | .str s, k => some (decide (List.IsInfix k.data s.data))
  | .list xs, k =>
    some (xs.any fun x => match x with | .str s₂ => s₂ == k | _ => false)
  | .dict d, k => some (lookup d k).isSome
  | _, _ => none

/-- `k in w` succeeded and returned `True`. -/
def memTest (w : JValue) (k : String) : Bool :=
  match pyContains w k with
  | some true => true
  | _ => false

/-- The inner call `add_new_keys(d, w)` of `config_check` when the user value
`w` is *not* a dict.  The loop over `d.items()` completes without raising iff
every default entry has a non-dict value whose key the membership test
`key in w` accepts as present: a dict-valued entry raises either on the
membership test or on the subsequent subscript/assignment on `w`, a missing
key raises on `w.update(...)` (`AttributeError`), and an `int`/`bool` `w`
raises on the membership test itself (unless `d` is empty, in which case the
loop body never runs).  On completion `w` is left unchanged and the call
returns `True`. -/
def ankScalar (d : Dict) (w : JValue) : Bool :=
  d.all fun e => !(isDict e.2) && memTest w e.1

/-- The inner call `remove_deprecated(w, user)` of `config_check` when the
default value `w` is *not* a dict.  The loop iterates the snapshot of
`user.items()`: a nested dict value raises `TypeError` on `w[k]`, a scalar
key is tested with `k in w` (raising on an `int`/`bool` `w`), and keys the
test rejects are deleted with the flag set to `True`.  A raise discards the
document (`none`), as everywhere in this value-level model. -/
def rdScalar (w : JValue) : Dict → Dict → Bool → Option (Dict × Bool)
  | [], user, flag => some (user, flag)
  | (k, v) :: rest, user, flag =>
    match v with
    | .dict _ => none
    | _ =>
      match pyContains w k with
      | none => none
      | some true => rdScalar w rest user flag
      | some false => rdScalar w rest (eraseKey user k) true

/-- `DEF_CFG` from `telemonitor/helpers.py` (with `MAX_LOGS = 30`). -/
def DEF_CFG : Dict :=
  [("config_version", .int 2),
   ("log_files_max", .int 30),
   ("bot", .dict
     [("token", .str ""),
      ("whitelisted_users", .list []),
      ("state_notifications", .bool true),
      ("enable_file_transfer", .bool true)]),
   ("systemd_service", .dict [("version", .int (-1))])]

/-- Inner function `special_update_check` of `TM_Config.config_check`:
if the root lacks `config_version`, rebind `bot` to a new nested dict built
from the legacy top-level keys (`api_key`, `whitelisted_users`, and the two
boolean flags with their `DEF_CFG["bot"]` defaults), and report `True`.
Returns the updated document together with the `is_updated` flag. -/
def special_update_check (config : Dict) : Dict × Bool :=
  if (lookup config "config_version").isNone then
    (setKey config "bot" (.dict
      [("token", getD config "api_key" (.str "")),
       ("whitelisted_users", getD config "whitelisted_users" (.list [])),
       ("state_notifications", getD config "state_notifications" (.bool true)),
       ("enable_file_transfer", getD config "enable_file_transfer" (.bool true))]),
     true)
  else (config, false)

/-- Inner function `add_new_keys` of `TM_Config.config_check`, with the
threaded `up_to_date` accumulator made explicit (it starts as `True` and is
*reassigned* — not AND/OR-combined — by each branch that touches it, exactly
as in the Python source).  The user document is threaded because Python
mutates it in place.  `none` models a raised exception: recursing with a
default sub-dict into a user value that is not a dict raises in Python
(`TypeError`/`AttributeError`), which we model as failure. -/
def add_new_keys_aux : Dict → Dict → Bool → Option (Dict × Bool)
  | [], user, up => some (user, up)
  | (k, v) :: rest, user, up =>
    match v with
    | .dict d =>
      match lookup user k with
      | none => add_new_keys_aux rest (setKey user k (.dict d)) false
      | some (.dict ud) =>
        match add_new_keys_aux d ud true with
        | some (ud₁, r) => add_new_keys_aux rest (setKey user k (.dict ud₁)) r
        | none => none
      | some w =>
        if ankScalar d w then add_new_keys_aux rest user true else none
    | _ =>
      if (lookup user k).isSome then add_new_keys_aux rest user up
      else add_new_keys_aux rest (setKey user k v) false
termination_by d _ _ => sizeOf d
decreasing_by all_goals simp_wf <;> omega

/-- `add_new_keys(default_config, user_config)` — result document plus the
returned `up_to_date` flag. -/
def add_new_keys (default_config user_config : Dict) : Option (Dict × Bool) :=
  add_new_keys_aux default_config user_config true

/-- Inner function `remove_deprecated` of `TM_Config.config_check`.
The first list argument is the snapshot `list(user_config.items())` taken
before the loop; the second threads the live (mutated) document.  A nested
user value recurses through `default_config[k]`, which raises `KeyError`
(modelled as `none`) when `k` is absent from the default, and raises when
`default_config[k]` is not a dict.  The `has_deprecated_values` flag is
*reassigned* by each nested recursion (last assignment wins), as in the
source. -/
def remove_deprecated_aux : Dict → Dict → Dict → Bool → Option (Dict × Bool)
  | _, [], user, flag => some (user, flag)
  | dflt, (k, v) :: rest, user, flag =>
    match v with
    | .dict vd =>
      match lookup dflt k with
      | some (.dict dd) =>
        match remove_deprecated_aux dd vd vd false with
        | some (vd₁, flag₁) =>
          remove_deprecated_aux dflt rest (setKey user k (.dict vd₁)) flag₁
        | none => none
      | some w =>
        match rdScalar w vd vd false with
        | some (vd₁, flag₁) =>
          remove_deprecated_aux dflt rest (setKey user k (.dict vd₁)) flag₁
        | none => none
      | none => none
    | _ =>
      if (lookup dflt k).isSome then remove_deprecated_aux dflt rest user flag
      else remove_deprecated_aux dflt rest (eraseKey user k) true
termination_by _ snap _ _ => sizeOf snap
decreasing_by all_goals simp_wf <;> omega

/-- `remove_deprecated(default_config, user_config)`. -/
def remove_deprecated (default_config user_config : Dict) : Option (Dict × Bool) :=
  remove_deprecated_aux default_config user_config user_config false

/-- `TM_Config.config_check`, generalised over the default schema that the
source fixes to `DEF_CFG` (its two inner helpers already take the default as
a parameter).  Runs `special_update_check`, then `remove_deprecated`, then
`add_new_keys`, and returns the document with the tuple
`(up-to-date, has-deprecated-keys, was-merged-to-newer-version)`. -/
def reconcileWith (dflt : Dict) (config : Dict) : Option (Dict × (Bool × Bool × Bool)) :=
  let p := special_update_check config
  match remove_deprecated dflt p.1 with
  | none => none
  | some (c₂, any_deprecated) =>
    match add_new_keys dflt c₂ with
    | none => none
    | some (c₃, any_new) => some (c₃, (any_new, any_deprecated, p.2))

/-- `TM_Config.config_check(config)` exactly as in the source: the default
schema is `DEF_CFG`. -/
def config_check (config : Dict) : Option (Dict × (Bool × Bool × Bool)) :=
  reconcileWith DEF_CFG config

/-- Well-formedness of a document as a Python dict tree: at every level no
key occurs twice.  Every document `json.load` can produce satisfies this. -/
def wfD : Dict → Bool
  | [] => true
  | (k, v) :: rest =>
    !(keys rest).contains k
    && (match v with
        | .dict d => wfD d
        | _ => true)
    && wfD rest
termination_by d => sizeOf d
decreasing_by all_goals simp_wf <;> omega

/-- Well-formedness of a single value: a nested dict must be well-formed. -/
def wfVal : JValue → Bool
  | .dict es => wfD es
  | _ => true

/-- Every nested sub-document of the user document has, at the same key, a
nested sub-document in the default schema (recursively).  This is exactly
the condition under which the remove phase reaches no failing
`default_config[k]` lookup. -/
def nestedCompat : Dict → Dict → Bool
  | _, [] => true
  | dflt, (k, v) :: rest =>
    match v with
    | .dict vd =>
      match lookup dflt k with
      | some (.dict dd) => nestedCompat dd vd && nestedCompat dflt rest
      | _ => false
    | _ => nestedCompat dflt rest
termination_by _ u => sizeOf u
decreasing_by all_goals simp_wf <;> omega

/-- Functional description of what the remove phase computes: drop every
non-dict binding whose key is absent from the default, recurse into nested
sub-documents, keep everything else unchanged.  (The fall-through arm for a
nested key with no dict default is unreachable when `nestedCompat` holds.) -/
def cleanSpec : Dict → Dict → Dict
  | _, [] => []
  | dflt, (k, v) :: rest =>
    match v with
    | .dict vd =>
      match lookup dflt k with
      | some (.dict dd) => (k, .dict (cleanSpec dd vd)) :: cleanSpec dflt rest
      | _ => (k, v) :: cleanSpec dflt rest
    | _ =>
      if (lookup dflt k).isSome then (k, v) :: cleanSpec dflt rest
      else cleanSpec dflt rest
termination_by _ u => sizeOf u
decreasing_by all_goals simp_wf <;> omega

/-- The dual compatibility direction: every key with a dict value in the
default schema is, when present in the user document, bound to a dict there
(recursively).  When this holds the add phase never reaches the
scalar-fallback loop (`ankScalar`), so each nested default sub-document is
either copied wholesale or merged into a nested user dict. -/
def dictCompat : Dict → Dict → Bool
  | [], _ => true
  | (k, v) :: rest, user =>
    match v with
    | .dict dd =>
      (match lookup user k with
       | some (.dict ud) => dictCompat dd ud
       | some _ => false
       | none => true)
      && dictCompat rest user
    | _ => dictCompat rest user
termination_by d _ => sizeOf d
decreasing_by all_goals simp_wf <;> omega

/-- Value at a path of nested keys: `lookupPath d [k1, ..., kn]` follows
nested dicts through `k1 ... k(n-1)` and returns the value bound to `kn`;
the empty path denotes the document itself. -/
def lookupPath : Dict → List String → Option JValue
  | d, [] => some (.dict d)
  | d, [k] => lookup d k
  | d, k :: rest =>
    match lookup d k with
    | some (.dict dd) => lookupPath dd rest
    | _ => none

/-! ### Fuel-indexed twins

The recursive functions above are defined by well-founded recursion, which
does not reduce inside the kernel.  For evaluating closed instances we give
fuel-indexed structurally-recursive twins and prove (below) that they agree
with the originals whenever the fuel exceeds the size of the decreasing
argument. -/

/-- Fuel-indexed twin of `add_new_keys_aux`. -/
def ankFuel : Nat → Dict → Dict → Bool → Option (Dict × Bool)
  | 0, _, _, _ => none
  | _ + 1, [], user, up => some (user, up)
  | n + 1, (k, v) :: rest, user, up =>
    match v with
    | .dict d =>
      match lookup user k with
      | none => ankFuel n rest (setKey user k (.dict d)) false
      | some (.dict ud) =>
        match ankFuel n d ud true with
        | some (ud₁, r) => ankFuel n rest (setKey user k (.dict ud₁)) r
        | none => none
      | some w =>
        if ankScalar d w then ankFuel n rest user true else none
    | _ =>
      if (lookup user k).isSome then ankFuel n rest user up
      else ankFuel n rest (setKey user k v) false

/-- Fuel-indexed twin of `remove_deprecated_aux`. -/
def rdFuel : Nat → Dict → Dict → Dict → Bool → Option (Dict × Bool)
  | 0, _, _, _, _ => none
  | _ + 1, _, [], user, flag => some (user, flag)
  | n + 1, dflt, (k, v) :: rest, user, flag =>
    match v with
    | .dict vd =>
      match lookup dflt k with
      | some (.dict dd) =>
        match rdFuel n dd vd vd false with
        | some (vd₁, flag₁) => rdFuel n dflt rest (setKey user k (.dict vd₁)) flag₁
        | none => none
      | some w =>
        match rdScalar w vd vd false with
        | some (vd₁, flag₁) => rdFuel n dflt rest (setKey user k (.dict vd₁)) flag₁
        | none => none
      | none => none
    | _ =>
      if (lookup dflt k).isSome then rdFuel n dflt rest user flag
      else rdFuel n dflt rest (eraseKey user k) true

/-- Fuel-indexed twin of `wfD` (`false` on fuel exhaustion). -/
def wfDFuel : Nat → Dict → Bool
  | 0, _ => false
  | _ + 1, [] => true
  | n + 1, (k, v) :: rest =>
    !(keys rest).contains k
    && (match v with
        | .dict d => wfDFuel n d
        | _ => true)
    && wfDFuel n rest

/-- Fuel-indexed twin of `nestedCompat` (`false` on fuel exhaustion). -/
def nestedCompatFuel : Nat → Dict → Dict → Bool
  | 0, _, _ => false
  | _ + 1, _, [] => true
  | n + 1, dflt, (k, v) :: rest =>
    match v with
    | .dict vd =>
      match lookup dflt k with
      | some (.dict dd) => nestedCompatFuel n dd vd && nestedCompatFuel n dflt rest
      | _ => false
    | _ => nestedCompatFuel n dflt rest

/-- Fuel-indexed twin of `cleanSpec` (`[]` on fuel exhaustion). -/
def cleanSpecFuel : Nat → Dict → Dict → Dict
  | 0, _, _ => []
  | _ + 1, _, [] => []
  | n + 1, dflt, (k, v) :: rest =>
    match v with
    | .dict vd =>
      match lookup dflt k with
      | some (.dict dd) => (k, .dict (cleanSpecFuel n dd vd)) :: cleanSpecFuel n dflt rest
      | _ => (k, v) :: cleanSpecFuel n dflt rest
    | _ =>
      if (lookup dflt k).isSome then (k, v) :: cleanSpecFuel n dflt rest
      else cleanSpecFuel n dflt rest

/-- Fuel-indexed twin of `dictCompat` (`false` on fuel exhaustion). -/
def dictCompatFuel : Nat → Dict → Dict → Bool
  | 0, _, _ => false
  | _ + 1, [], _ => true
  | n + 1, (k, v) :: rest, user =>
    match v with
    | .dict dd =>
      (match lookup user k with
       | some (.dict ud) => dictCompatFuel n dd ud
       | some _ => false
       | none => true)
      && dictCompatFuel n rest user
    | _ => dictCompatFuel n rest user

/-- Fuel-indexed twin of the whole `reconcileWith` pipeline. -/
def ccFuel (n₁ n₂ : Nat) (dflt config : Dict) : Option (Dict × (Bool × Bool × Bool)) :=
  match special_update_check config with
  | (c₁, special_check) =>
    match rdFuel n₁ dflt c₁ c₁ false with
    | none => none
    | some (c₂, any_deprecated) =>
      match ankFuel n₂ dflt c₂ true with
      | none => none
      | some (c₃, any_new) => some (c₃, (any_new, any_deprecated, special_check))

/-! ## The cached read path of `TM_Config` (`get` / `is_modified`) -/

/-- In-memory class state of `TM_Config`: the cached parsed document
(`__config`, initially `{}`) and the recorded modification time
(`__last_mod_time`, initially `None`). -/
structure CacheState where
  config : Dict
  lastModTime : Option Nat
deriving Repr

/-- The backing `config.json` as `TM_Config` observes it: parsed content and
current modification time (`os.path.getmtime(PATH_CFG)`). -/
structure BackingFile where
  content : Dict
  mtime : Nat
deriving Repr

/-- `TM_Config.is_modified`: true on the first request (`__last_mod_time is
None`) and whenever the file modification time strictly exceeds the recorded
one. -/
def is_modified (s : CacheState) (f : BackingFile) : Bool :=
  match s.lastModTime with
  | none => true
  | some t => f.mtime > t

/-- `TM_Config.get`: if `is_modified`, re-read and re-parse the backing file
and record its modification time; otherwise return the cached document. -/
def TM_Config.get (s : CacheState) (f : BackingFile) : CacheState × Dict :=
  if is_modified s f then (⟨f.content, some f.mtime⟩, f.content)
  else (s, s.config)

/-! ## The systemd service lifecycle
(`telemonitor/extensions/systemd_service/__init__.py`) -/

/-- `__version` of the systemd-service extension. -/
def service_version : Int := 1

/-- State the service manager acts on: the unit file at
`/lib/systemd/system/telemonitor-bot.service` (present with some content, or
absent) and the persisted configuration document.  `TM_Config.get()` inside
`__update_cfg_values` is modelled as reading the current document and
`TM_Config.write` as replacing it. -/
structure ServiceState where
  unitFile : Option String
  cfg : Dict
deriving Repr

/-- The `mode` argument of `__update_cfg_values`. -/
inductive CfgMode where
  | install
  | upgrade
  | remove
deriving Repr, DecidableEq

/-- `__update_cfg_values(mode)` acting on the current document:
`install` rebinds `systemd_service` to a fresh `{"version": __version}`;
`upgrade` mutates `version` inside the existing `systemd_service` dict
(raising — `none` — if that key is missing or not a dict);
`remove` rebinds `systemd_service` to `DEF_CFG["systemd_service"]`,
i.e. `{"version": -1}`. -/
def update_cfg_values : CfgMode → Dict → Option Dict
  | .install, cfg =>
    some (setKey cfg "systemd_service" (.dict [("version", .int service_version)]))
  | .upgrade, cfg =>
    match lookup cfg "systemd_service" with
    | some (.dict ss) =>
      some (setKey cfg "systemd_service" (.dict (setKey ss "version" (.int service_version))))
    | _ => none
  | .remove, cfg =>
    some (setKey cfg "systemd_service" (.dict [("version", .int (-1))]))

/-- `text.replace('<SHELL_SCRIPT_PATH>', path.abspath(...))` — the rendered
unit file content. -/
def renderUnit (template scriptPath : String) : String :=
  template.replace "<SHELL_SCRIPT_PATH>" scriptPath

/-- Filesystem behaviour during one `service_install` attempt.
`open(final_path, "wt")` creates/truncates the final file *before* the
template text is read and substituted, so a later failure leaves a file
behind (`failAfterOpen part` records what made it to disk — possibly the
empty string).  When one of the two `open` calls raises, the `except` block
prints the error but the `finally` block then raises `NameError` (it closes
file objects that were never bound), so the exception escapes
`service_install`: modelled as `Except.error ()`. -/
inductive InstallIO where
  | ok
  | templateOpenFails
  | finalOpenFails
  | failAfterOpen (partWritten : String)
deriving Repr, DecidableEq

/-- `service_install()`: no-op returning `False` when the unit file already
exists; otherwise render the template into the unit file and, on success
only, run `__update_cfg_values('install')` and return `True`. -/
def service_install (template scriptPath : String) (io : InstallIO) (s : ServiceState) :
    ServiceState × Except Unit Bool :=
  if s.unitFile.isSome then (s, .ok false)
  else
    match io with
    | .templateOpenFails => (s, .error ())
    | .finalOpenFails => (s, .error ())
    | .failAfterOpen part => ({ s with unitFile := some part }, .ok false)
    | .ok =>
      match update_cfg_values .install s.cfg with
      | some cfg₁ => ({ unitFile := some (renderUnit template scriptPath), cfg := cfg₁ }, .ok true)
      | none => (s, .error ())

/-- `service_remove()`: no-op returning `False` when no unit file exists;
otherwise delete it (`os.remove` can raise — `deleteFails`; then nothing else
happens and `False` is returned) and on success run
`__update_cfg_values('remove')` and return `True`. -/
def service_remove (deleteFails : Bool) (s : ServiceState) : ServiceState × Bool :=
  if s.unitFile.isSome then
    if deleteFails then (s, false)
    else
      match update_cfg_values .remove s.cfg with
      | some cfg₁ => ({ unitFile := none, cfg := cfg₁ }, true)
      | none => (s, false)
  else (s, false)

/-! ## Object identity and the immutability of `DEF_CFG` (claim C4)

Python passes dicts by reference: `user_config[k] = v` in `add_new_keys`
stores the *very object* `DEF_CFG[k]` into the user document, and
`__update_cfg_values('remove')` stores the object `DEF_CFG['systemd_service']`
into the cached config.  A later in-place mutation through such a reference
(`cfg['systemd_service']["version"] = __version` in mode `'upgrade'`, or the
`del`/assignment statements of `config_check`) would mutate `DEF_CFG` itself.
To settle whether that ever happens we re-run the same code over trees whose
dict nodes carry a `shared` tag meaning "this node is the `DEF_CFG`
sub-object at its schema path"; every in-place mutation performed at or
below a shared node raises a global `touched` flag.  Non-dict values
(strings, numbers, booleans, lists) are never mutated in place by any of the
modelled operations — the code only reads them (no list element is ever
assigned, appended or deleted anywhere in the program) — so sharing of those
is irrelevant and they are kept as plain values. -/

/-- A config value as an object tree: `td shared entries` is a dict object
whose `shared` tag records that it is the `DEF_CFG` sub-object at its
schema path. -/
inductive TVal where
  | sc (v : JValue)
  | td (shared : Bool) (entries : List (String × TVal))
deriving Repr

/-- A dict object with per-node sharing tags. -/
abbrev TDict := List (String × TVal)

/-- `d[k]` on tagged trees. -/
def lookupT : TDict → String → Option TVal
  | [], _ => none
  | (k₁, v) :: rest, k => if k₁ = k then some v else lookupT rest k

/-- `d[k] = v` on tagged trees (replace in place, else append). -/
def setKeyT : TDict → String → TVal → TDict
  | [], k, v => [(k, v)]
  | (k₁, v₁) :: rest, k, v =>
    if k₁ = k then (k₁, v) :: rest else (k₁, v₁) :: setKeyT rest k v

/-- `del d[k]` on tagged trees. -/
def eraseKeyT : TDict → String → TDict
  | [], _ => []
  | (k₁, v₁) :: rest, k =>
    if k₁ = k then rest else (k₁, v₁) :: eraseKeyT rest k

/-- `d.get(k, dflt)` on tagged trees. -/
def getT (u : TDict) (k : String) (dflt : TVal) : TVal :=
  (lookupT u k).getD dflt

/-- Forget the sharing tags: the plain value of a tagged tree. -/
def stripD : TDict → Dict
  | [] => []
  | (k, .sc v) :: rest => (k, v) :: stripD rest
  | (k, .td _ sub) :: rest => (k, .dict (stripD sub)) :: stripD rest
termination_by u => sizeOf u
decreasing_by all_goals simp_wf <;> omega

/-- Plain value of a single tagged value. -/
def stripV : TVal → JValue
  | .sc v => v
  | .td _ sub => .dict (stripD sub)

/-- Tag a plain document as a freshly parsed tree: no node is shared
(`json.load` allocates new objects throughout). -/
def embedD : Dict → TDict
  | [] => []
  | (k, .dict es) :: rest => (k, .td false (embedD es)) :: embedD rest
  | (k, v) :: rest => (k, .sc v) :: embedD rest
termination_by d => sizeOf d
decreasing_by all_goals simp_wf <;> omega

/-- No node of the tree is shared. -/
def noSharedD : TDict → Bool
  | [] => true
  | (_, .sc _) :: rest => noSharedD rest
  | (_, .td b sub) :: rest => !b && noSharedD sub && noSharedD rest
termination_by u => sizeOf u
decreasing_by all_goals simp_wf <;> omega

/-- Structural sanity of a tagged tree: dict objects are represented by `td`
nodes, never smuggled inside an `sc` leaf.  Every tree the modelled
operations build satisfies this. -/
def wfT : TDict → Bool
  | [] => true
  | (_, .sc v) :: rest => !(isDict v) && wfT rest
  | (_, .td _ sub) :: rest => wfT sub && wfT rest
termination_by u => sizeOf u
decreasing_by all_goals simp_wf <;> omega

/-- Structural sanity of a single tagged value. -/
def wfTV : TVal → Bool
  | .sc v => !(isDict v)
  | .td _ sub => wfT sub

/-- Result of one tagged loop: the updated tree, the Python flag it
returns, whether any in-place mutation went through a shared node, and
whether the loop raised (the tree then holds the mutations made before the
raise, which persist in Python). -/
structure TRes where
  tree : TDict
  flag : Bool
  touched : Bool
  err : Bool
deriving Repr

/-- Tagged `special_update_check`: same code as `special_update_check`, over
tagged trees.  It only assigns at the root (`config.update({"bot": ...})`),
and the root — `cls.__config`, always freshly parsed — is never a shared
node, so no `touched` output is needed.  The new `bot` dict is a fresh
object populated with values *read* from the document. -/
def tspecial (config : TDict) : TDict × Bool :=
  if (lookupT config "config_version").isNone then
    (setKeyT config "bot" (.td false
      [("token", getT config "api_key" (.sc (.str ""))),
       ("whitelisted_users", getT config "whitelisted_users" (.sc (.list []))),
       ("state_notifications", getT config "state_notifications" (.sc (.bool true))),
       ("enable_file_transfer", getT config "enable_file_transfer" (.sc (.bool true)))]),
     true)
  else (config, false)

/-- Tagged `add_new_keys` (same control flow as `add_new_keys_aux`).
Copying a missing dict default stores the default *object*: a `shared`
node.  Recursing into an existing dict passes the node's own tag OR'd into
`inSh`; every mutation of the current dict records `inSh` in `touched`. -/
def tank : Dict → TDict → Bool → Bool → TRes
  | [], user, up, _ => ⟨user, up, false, false⟩
  | (k, v) :: rest, user, up, inSh =>
    match v with
    | .dict d =>
      match lookupT user k with
      | none =>
        let r := tank rest (setKeyT user k (.td true (embedD d))) false inSh
        ⟨r.tree, r.flag, inSh || r.touched, r.err⟩
      | some (.td b ud) =>
        let c := tank d ud true (inSh || b)
        if c.err then ⟨setKeyT user k (.td b c.tree), c.flag, c.touched, true⟩
        else
          let r := tank rest (setKeyT user k (.td b c.tree)) c.flag inSh
          ⟨r.tree, r.flag, c.touched || r.touched, r.err⟩
      | some (.sc w) =>
        if ankScalar d w then tank rest user true inSh
        else ⟨user, up, false, true⟩
    | _ =>
      if (lookupT user k).isSome then tank rest user up inSh
      else
        let r := tank rest (setKeyT user k (.sc v)) false inSh
        ⟨r.tree, r.flag, inSh || r.touched, r.err⟩
termination_by d _ _ _ => sizeOf d
decreasing_by all_goals simp_wf <;> omega

/-- Tagged scalar-fallback loop of `remove_deprecated` (`rdScalar`):
deletions through a shared node set `touched`. -/
def trdScalar (w : JValue) : TDict → TDict → Bool → Bool → TRes
  | [], user, flag, _ => ⟨user, flag, false, false⟩
  | (k, v) :: rest, user, flag, inSh =>
    match v with
    | .td _ _ => ⟨user, flag, false, true⟩
    | .sc _ =>
      match pyContains w k with
      | none => ⟨user, flag, false, true⟩
      | some true => trdScalar w rest user flag inSh
      | some false =>
        let r := trdScalar w rest (eraseKeyT user k) true inSh
        ⟨r.tree, r.flag, inSh || r.touched, r.err⟩

/-- Tagged `remove_deprecated` (same control flow as
`remove_deprecated_aux`): the snapshot is iterated while the live tree is
mutated; recursion into a dict child ORs the child's tag into `inSh`, and
deletions record `inSh` in `touched`. -/
def trd : Dict → TDict → TDict → Bool → Bool → TRes
  | _, [], user, flag, _ => ⟨user, flag, false, false⟩
  | dflt, (k, v) :: rest, user, flag, inSh =>
    match v with
    | .td b vd =>
      match lookup dflt k with
      | some (.dict dd) =>
        let c := trd dd vd vd false (inSh || b)
        if c.err then ⟨setKeyT user k (.td b c.tree), c.flag, c.touched, true⟩
        else
          let r := trd dflt rest (setKeyT user k (.td b c.tree)) c.flag inSh
          ⟨r.tree, r.flag, c.touched || r.touched, r.err⟩
      | some w =>
        let c := trdScalar w vd vd false (inSh || b)
        if c.err then ⟨setKeyT user k (.td b c.tree), c.flag, c.touched, true⟩
        else
          let r := trd dflt rest (setKeyT user k (.td b c.tree)) c.flag inSh
          ⟨r.tree, r.flag, c.touched || r.touched, r.err⟩
      | none => ⟨user, flag, false, true⟩
    | .sc _ =>
      if (lookup dflt k).isSome then trd dflt rest user flag inSh
      else
        let r := trd dflt rest (eraseKeyT user k) true inSh
        ⟨r.tree, r.flag, inSh || r.touched, r.err⟩
termination_by _ snap _ _ _ => sizeOf snap
decreasing_by all_goals simp_wf <;> omega

/-- Result of the tagged `config_check`. -/
structure CCRes where
  tree : TDict
  up : Bool
  dep : Bool
  sp : Bool
  touched : Bool
  err : Bool
deriving Repr

/-- Tagged `config_check`: `special_update_check`, then `remove_deprecated`,
then `add_new_keys`, on the cached document object. -/
def tconfig_check (config : TDict) : CCRes :=
  let p := tspecial config
  let r := trd DEF_CFG p.1 p.1 false false
  if r.err then ⟨r.tree, true, r.flag, p.2, r.touched, true⟩
  else
    let a := tank DEF_CFG r.tree true false
    ⟨a.tree, a.flag, r.flag, p.2, r.touched || a.touched, a.err⟩

/-- The full runtime state the quantified operations act on: the cached
config object (`cls.__config`, with sharing tags), the recorded
modification time, the backing file (content and modification counter), the
unit-file presence flag, the `touched` accumulator (an in-place write went
through a `DEF_CFG` object), and `dead` (an uncaught exception ended the
program; later operations never run). -/
structure AliasState where
  cache : TDict
  lastMod : Option Nat
  fileDoc : Dict
  fileM : Nat
  unitF : Bool
  touched : Bool
  dead : Bool
deriving Repr

/-- `TM_Config.is_modified` on the modelled state. -/
def isModifiedA (s : AliasState) : Bool :=
  match s.lastMod with
  | none => true
  | some t => decide (s.fileM > t)

/-- `TM_Config.get()`: re-parse the file (fresh unshared objects) when
modified, else keep the cached object. -/
def getStepA (s : AliasState) : AliasState :=
  if isModifiedA s then { s with cache := embedD s.fileDoc, lastMod := some s.fileM }
  else s

/-- `TM_Config.write(cfg)` on the cache: serialise the cached object into
the file; the modification time advances by `adv` — possibly `0`, matching
the granularity of `os.path.getmtime` (`write` never updates
`__last_mod_time`). -/
def writeCacheA (s : AliasState) (adv : Nat) : AliasState :=
  { s with fileDoc := stripD s.cache, fileM := s.fileM + adv }

/-- `__update_cfg_values('install')`: `get()` then rebind
`cfg['systemd_service']` to a fresh dict and write. -/
def updInstallA (s : AliasState) (adv : Nat) : AliasState :=
  let s₁ := getStepA s
  writeCacheA { s₁ with
    cache := setKeyT s₁.cache "systemd_service"
      (.td false [("version", .sc (.int service_version))]) } adv

/-- `__update_cfg_values('remove')`: `get()` then rebind
`cfg['systemd_service']` to the `DEF_CFG['systemd_service']` *object* — a
shared node — and write. -/
def updRemoveA (s : AliasState) (adv : Nat) : AliasState :=
  let s₁ := getStepA s
  writeCacheA { s₁ with
    cache := setKeyT s₁.cache "systemd_service"
      (.td true (embedD [("version", .int (-1))])) } adv

/-- `__update_cfg_values('upgrade')`: `get()` then mutate `version` *inside*
the existing `systemd_service` dict object in place — the one write that
goes through whatever object the cache happens to hold there (`touched` if
it is shared); raises (`dead`) when the key is missing or not a dict. -/
def updUpgradeA (s : AliasState) (adv : Nat) : AliasState :=
  let s₁ := getStepA s
  match lookupT s₁.cache "systemd_service" with
  | some (.td b ss) =>
    writeCacheA { s₁ with
      cache := setKeyT s₁.cache "systemd_service"
        (.td b (setKeyT ss "version" (.sc (.int service_version)))),
      touched := s₁.touched || b } adv
  | _ => { s₁ with dead := true }

/-- `service_install()` on the modelled state: no-op when the unit file
exists; a failing `open` leaves the program dead (the `finally` block raises
`NameError` on the unbound file variable); a failure after the truncating
open leaves a partial unit file; on success the unit file is written and
`__update_cfg_values('install')` runs.  Returns the `result` flag. -/
def installA (s : AliasState) (io : InstallIO) (adv : Nat) : AliasState × Bool :=
  if s.unitF then (s, false)
  else
    match io with
    | .templateOpenFails => ({ s with dead := true }, false)
    | .finalOpenFails => ({ s with dead := true }, false)
    | .failAfterOpen _ => ({ s with unitF := true }, false)
    | .ok => (updInstallA { s with unitF := true } adv, true)

/-- `service_remove()` on the modelled state: no-op when no unit file
exists; a failing `os.remove` is caught and nothing else happens; on success
the unit file is deleted and `__update_cfg_values('remove')` runs. -/
def removeA (s : AliasState) (delFails : Bool) (adv : Nat) : AliasState × Bool :=
  if s.unitF then
    if delFails then (s, false)
    else (updRemoveA { s with unitF := false } adv, true)
  else (s, false)

/-- `config["systemd_service"]["version"]` as read by `service_upgrade`,
followed by the comparison `installed_version < __version`: `none` when a
lookup raises `KeyError` or the comparison raises `TypeError` (a Python
`bool` compares as `0`/`1`). -/
def readVersionA (u : TDict) : Option Int :=
  match lookupT u "systemd_service" with
  | some (.td _ ss) =>
    match lookupT ss "version" with
    | some (.sc (.int v)) => some v
    | some (.sc (.bool bv)) => some (if bv then 1 else 0)
    | _ => none
  | _ => none

/-- `service_upgrade()` on the modelled state: read the installed version
from `get()`; if it is below the built-in version and the user confirms,
run `service_remove`, then `service_install`, and only if both succeeded
`__update_cfg_values('upgrade')`. -/
def upgradeA (s : AliasState) (choice delFails : Bool) (io : InstallIO)
    (advR advI advU : Nat) : AliasState :=
  if s.unitF then
    let s₁ := getStepA s
    match readVersionA s₁.cache with
    | none => { s₁ with dead := true }
    | some v =>
      if v < service_version ∧ choice = true then
        let p := removeA s₁ delFails advR
        if p.2 then
          let q := installA p.1 io advI
          if q.2 then updUpgradeA q.1 advU else q.1
        else p.1
      else s₁
  else s

/-- Launch-time reconciliation (`TM_Config.__init__` with an existing
file): `cfg = self.get()`, `config_check(cfg)` mutating the cached object
in place, and `self.write(cfg)` when any flag calls for it; an uncaught
`KeyError`/`TypeError` from `config_check` kills the program with the
partial mutations retained in the cache. -/
def reconcileA (s : AliasState) (adv : Nat) : AliasState :=
  let s₁ := getStepA s
  let r := tconfig_check s₁.cache
  let s₂ := { s₁ with cache := r.tree, touched := s₁.touched || r.touched }
  if r.err then { s₂ with dead := true }
  else if !r.up || r.dep || r.sp then writeCacheA s₂ adv else s₂

/-- One quantified operation: the `TM_Config` operations (reconcile, get,
write — the latter also covering an external modification of the backing
file) and the systemd-service operations, each with its failure parameters
and file-time advances. -/
inductive AOp where
  | get
  | write (d : Dict) (adv : Nat)
  | reconcile (adv : Nat)
  | install (io : InstallIO) (adv : Nat)
  | remove (delFails : Bool) (adv : Nat)
  | upgrade (choice delFails : Bool) (io : InstallIO) (advR advI advU : Nat)

/-- Execute one operation (nothing runs after the program died). -/
def stepA (s : AliasState) (op : AOp) : AliasState :=
  if s.dead then s
  else
    match op with
    | .get => getStepA s
    | .write d adv => { s with fileDoc := d, fileM := s.fileM + adv }
    | .reconcile adv => reconcileA s adv
    | .install io adv => (installA s io adv).1
    | .remove f adv => (removeA s f adv).1
    | .upgrade c f io a₁ a₂ a₃ => upgradeA s c f io a₁ a₂ a₃

/-- Execute a sequence of operations. -/
def runA (s : AliasState) : List AOp → AliasState
  | [] => s
  | op :: ops => runA (stepA s op) ops

/-- Initial state: nothing cached yet (`__config = {}`,
`__last_mod_time = None`), arbitrary backing file and unit-file status. -/
def initA (d₀ : Dict) (u₀ : Bool) : AliasState :=
  ⟨[], none, d₀, 0, u₀, false, false⟩

/-- The default sub-document a key descends into (empty when the key has no
dict default). -/
def childD (dflt : Dict) (k : String) : Dict :=
  match lookup dflt k with
  | some (.dict dd) => dd
  | _ => []

/-- The sharing invariant: every `shared` node sits at a schema path and is
exactly the `DEF_CFG` subtree found there. -/
def OkD : Dict → TDict → Prop
  | _, [] => True
  | dflt, (k, v) :: rest =>
    (match v with
     | .sc _ => True
     | .td b sub =>
       (b = true → ∃ dd, lookup dflt k = some (.dict dd) ∧ stripD sub = dd)
       ∧ OkD (childD dflt k) sub)
    ∧ OkD dflt rest
termination_by _ u => sizeOf u
decreasing_by all_goals simp_wf <;> omega

/-- The sharing invariant for a single entry. -/
def OkE (dflt : Dict) (k : String) : TVal → Prop
  | .sc _ => True
  | .td b sub =>
    (b = true → ∃ dd, lookup dflt k = some (.dict dd) ∧ stripD sub = dd)
    ∧ OkD (childD dflt k) sub

/-- The state invariant of the aliasing model: no write has gone through a
`DEF_CFG` object, the cache is structurally sane, and its shared nodes
satisfy the sharing invariant against `DEF_CFG`. -/
def InvA (s : AliasState) : Prop :=
  s.touched = false ∧ wfT s.cache = true ∧ OkD DEF_CFG s.cache

/-! ## Theorems -/

theorem config_check_eq_reconcileWith (config : Dict) :
    config_check config = reconcileWith DEF_CFG config := rfl

/-! ### The fuel-indexed twins agree with the originals -/

theorem ankFuel_eq : ∀ (n : Nat) (d u : Dict) (acc : Bool), sizeOf d < n →
    ankFuel n d u acc = add_new_keys_aux d u acc := by
  intro n
  induction n with
  | zero => intro d u acc h; omega
  | succ n ih =>
    intro d u acc h
    cases d with
    | nil => simp [ankFuel, add_new_keys_aux]
    | cons hd rest =>
      obtain ⟨k, v⟩ := hd
      have hrest : sizeOf rest < n := by
        simp at h
        omega
      cases v with
      | dict entries =>
        have hent : sizeOf entries < n := by
          simp at h
          omega
        cases hlk : lookup u k with
        | none =>
          simp only [ankFuel, add_new_keys_aux, hlk]
          exact ih rest _ false hrest
        | some w =>
          cases w with
          | dict ud =>
            simp only [ankFuel, add_new_keys_aux, hlk]
            rw [ih entries ud true hent]
            cases hrec : add_new_keys_aux entries ud true with
            | none => rfl
            | some p =>
              obtain ⟨ud₁, r⟩ := p
              exact ih rest _ r hrest
          | str s =>
            simp only [ankFuel, add_new_keys_aux, hlk]
            split <;> [exact ih rest u true hrest; rfl]
          | int m =>
            simp only [ankFuel, add_new_keys_aux, hlk]
            split <;> [exact ih rest u true hrest; rfl]
          | bool bb =>
            simp only [ankFuel, add_new_keys_aux, hlk]
            split <;> [exact ih rest u true hrest; rfl]
          | list xs =>
            simp only [ankFuel, add_new_keys_aux, hlk]
            split <;> [exact ih rest u true hrest; rfl]
      | str s =>
        cases hlk : (lookup u k).isSome <;> simp only [ankFuel, add_new_keys_aux, hlk] <;>
          simp only [Bool.false_eq_true, if_false, if_true] <;>
          [exact ih rest _ false hrest; exact ih rest u acc hrest]
      | int m =>
        cases hlk : (lookup u k).isSome <;> simp only [ankFuel, add_new_keys_aux, hlk] <;>
          simp only [Bool.false_eq_true, if_false, if_true] <;>
          [exact ih rest _ false hrest; exact ih rest u acc hrest]
      | bool bb =>
        cases hlk : (lookup u k).isSome <;> simp only [ankFuel, add_new_keys_aux, hlk] <;>
          simp only [Bool.false_eq_true, if_false, if_true] <;>
          [exact ih rest _ false hrest; exact ih rest u acc hrest]
      | list xs =>
        cases hlk : (lookup u k).isSome <;> simp only [ankFuel, add_new_keys_aux, hlk] <;>
          simp only [Bool.false_eq_true, if_false, if_true] <;>
          [exact ih rest _ false hrest; exact ih rest u acc hrest]

theorem rdFuel_eq : ∀ (n : Nat) (dflt snap user : Dict) (acc : Bool), sizeOf snap < n →
    rdFuel n dflt snap user acc = remove_deprecated_aux dflt snap user acc := by
  intro n
  induction n with
  | zero => intro dflt snap user acc h; omega
  | succ n ih =>
    intro dflt snap user acc h
    cases snap with
    | nil => simp [rdFuel, remove_deprecated_aux]
    | cons hd rest =>
      obtain ⟨k, v⟩ := hd
      have hrest : sizeOf rest < n := by
        simp at h
        omega
      cases v with
      | dict vd =>
        have hvd : sizeOf vd < n := by
          simp at h
          omega
        cases hlk : lookup dflt k with
        | none => simp [rdFuel, remove_deprecated_aux, hlk]
        | some w =>
          cases w with
          | dict dd =>
            simp only [rdFuel, remove_deprecated_aux, hlk]
            rw [ih dd vd vd false hvd]
            cases hrec : remove_deprecated_aux dd vd vd false with
            | none => rfl
            | some p =>
              obtain ⟨vd₁, flag₁⟩ := p
              exact ih dflt rest _ flag₁ hrest
          | str s =>
            simp only [rdFuel, remove_deprecated_aux, hlk]
            cases hrec : rdScalar (.str s) vd vd false with
            | none => rfl
            | some p =>
              obtain ⟨vd₁, flag₁⟩ := p
              exact ih dflt rest _ flag₁ hrest
          | int m =>
            simp only [rdFuel, remove_deprecated_aux, hlk]
            cases hrec : rdScalar (.int m) vd vd false with
            | none => rfl
            | some p =>
              obtain ⟨vd₁, flag₁⟩ := p
              exact ih dflt rest _ flag₁ hrest
          | bool bb =>
            simp only [rdFuel, remove_deprecated_aux, hlk]
            cases hrec : rdScalar (.bool bb) vd vd false with
            | none => rfl
            | some p =>
              obtain ⟨vd₁, flag₁⟩ := p
              exact ih dflt rest _ flag₁ hrest
          | list xs =>
            simp only [rdFuel, remove_deprecated_aux, hlk]
            cases hrec : rdScalar (.list xs) vd vd false with
            | none => rfl
            | some p =>
              obtain ⟨vd₁, flag₁⟩ := p
              exact ih dflt rest _ flag₁ hrest
      | str s =>
        cases hlk : (lookup dflt k).isSome <;> simp only [rdFuel, remove_deprecated_aux, hlk] <;>
          simp only [Bool.false_eq_true, if_false, if_true] <;>
          [exact ih dflt rest _ true hrest; exact ih dflt rest user acc hrest]
      | int m =>
        cases hlk : (lookup dflt k).isSome <;> simp only [rdFuel, remove_deprecated_aux, hlk] <;>
          simp only [Bool.false_eq_true, if_false, if_true] <;>
          [exact ih dflt rest _ true hrest; exact ih dflt rest user acc hrest]
      | bool bb =>
        cases hlk : (lookup dflt k).isSome <;> simp only [rdFuel, remove_deprecated_aux, hlk] <;>
          simp only [Bool.false_eq_true, if_false, if_true] <;>
          [exact ih dflt rest _ true hrest; exact ih dflt rest user acc hrest]
      | list xs =>
        cases hlk : (lookup dflt k).isSome <;> simp only [rdFuel, remove_deprecated_aux, hlk] <;>
          simp only [Bool.false_eq_true, if_false, if_true] <;>
          [exact ih dflt rest _ true hrest; exact ih dflt rest user acc hrest]

theorem wfDFuel_eq : ∀ (n : Nat) (d : Dict), sizeOf d < n → wfDFuel n d = wfD d := by
  intro n
  induction n with
  | zero => intro d h; omega
  | succ n ih =>
    intro d h
    cases d with
    | nil =>
      unfold wfD
      simp [wfDFuel]
    | cons hd rest =>
      obtain ⟨k, v⟩ := hd
      have hrest : sizeOf rest < n := by
        simp at h
        omega
      unfold wfD
      cases v with
      | dict entries =>
        have hent : sizeOf entries < n := by
          simp at h
          omega
        simp only [wfDFuel, ih rest hrest, ih entries hent]
      | str s => simp only [wfDFuel, ih rest hrest]
      | int m => simp only [wfDFuel, ih rest hrest]
      | bool bb => simp only [wfDFuel, ih rest hrest]
      | list xs => simp only [wfDFuel, ih rest hrest]

theorem nestedCompatFuel_eq : ∀ (n : Nat) (dflt u : Dict), sizeOf u < n →
    nestedCompatFuel n dflt u = nestedCompat dflt u := by
  intro n
  induction n with
  | zero => intro dflt u h; omega
  | succ n ih =>
    intro dflt u h
    cases u with
    | nil =>
      unfold nestedCompat
      simp [nestedCompatFuel]
    | cons hd rest =>
      obtain ⟨k, v⟩ := hd
      have hrest : sizeOf rest < n := by
        simp at h
        omega
      unfold nestedCompat
      cases v with
      | dict vd =>
        have hvd : sizeOf vd < n := by
          simp at h
          omega
        cases hlk : lookup dflt k with
        | none => simp [nestedCompatFuel, hlk]
        | some w =>
          cases w with
          | dict dd => simp only [nestedCompatFuel, hlk, ih dd vd hvd, ih dflt rest hrest]
          | str s => simp [nestedCompatFuel, hlk]
          | int m => simp [nestedCompatFuel, hlk]
          | bool bb => simp [nestedCompatFuel, hlk]
          | list xs => simp [nestedCompatFuel, hlk]
      | str s => simp only [nestedCompatFuel, ih dflt rest hrest]
      | int m => simp only [nestedCompatFuel, ih dflt rest hrest]
      | bool bb => simp only [nestedCompatFuel, ih dflt rest hrest]
      | list xs => simp only [nestedCompatFuel, ih dflt rest hrest]

theorem cleanSpecFuel_eq : ∀ (n : Nat) (dflt u : Dict), sizeOf u < n →
    cleanSpecFuel n dflt u = cleanSpec dflt u := by
  intro n
  induction n with
  | zero => intro dflt u h; omega
  | succ n ih =>
    intro dflt u h
    cases u with
    | nil =>
      unfold cleanSpec
      simp [cleanSpecFuel]
    | cons hd rest =>
      obtain ⟨k, v⟩ := hd
      have hrest : sizeOf rest < n := by
        simp at h
        omega
      unfold cleanSpec
      cases v with
      | dict vd =>
        have hvd : sizeOf vd < n := by
          simp at h
          omega
        cases hlk : lookup dflt k with
        | none => simp [cleanSpecFuel, hlk, ih dflt rest hrest]
        | some w =>
          cases w with
          | dict dd => simp only [cleanSpecFuel, hlk, ih dd vd hvd, ih dflt rest hrest]
          | str s => simp [cleanSpecFuel, hlk, ih dflt rest hrest]
          | int m => simp [cleanSpecFuel, hlk, ih dflt rest hrest]
          | bool bb => simp [cleanSpecFuel, hlk, ih dflt rest hrest]
          | list xs => simp [cleanSpecFuel, hlk, ih dflt rest hrest]
      | str s => simp only [cleanSpecFuel, ih dflt rest hrest]
      | int m => simp only [cleanSpecFuel, ih dflt rest hrest]
      | bool bb => simp only [cleanSpecFuel, ih dflt rest hrest]
      | list xs => simp only [cleanSpecFuel, ih dflt rest hrest]

theorem dictCompatFuel_eq : ∀ (n : Nat) (d u : Dict), sizeOf d < n →
    dictCompatFuel n d u = dictCompat d u := by
  intro n
  induction n with
  | zero => intro d u h; omega
  | succ n ih =>
    intro d u h
    cases d with
    | nil =>
      unfold dictCompat
      simp [dictCompatFuel]
    | cons hd rest =>
      obtain ⟨k, v⟩ := hd
      have hrest : sizeOf rest < n := by
        simp at h
        omega
      unfold dictCompat
      cases v with
      | dict dd =>
        have hdd : sizeOf dd < n := by
          simp at h
          omega
        cases hlk : lookup u k with
        | none => simp only [dictCompatFuel, hlk, ih rest u hrest]
        | some w =>
          cases w with
          | dict ud => simp only [dictCompatFuel, hlk, ih dd ud hdd, ih rest u hrest]
          | str s => simp [dictCompatFuel, hlk, ih rest u hrest]
          | int m => simp [dictCompatFuel, hlk, ih rest u hrest]
          | bool bb => simp [dictCompatFuel, hlk, ih rest u hrest]
          | list xs => simp [dictCompatFuel, hlk, ih rest u hrest]
      | str s => simp only [dictCompatFuel, ih rest u hrest]
      | int m => simp only [dictCompatFuel, ih rest u hrest]
      | bool bb => simp only [dictCompatFuel, ih rest u hrest]
      | list xs => simp only [dictCompatFuel, ih rest u hrest]

/-- Evaluate a closed `add_new_keys` instance through the fuel twin. -/
theorem add_new_keys_eval (d u : Dict) (r : Option (Dict × Bool)) (n : Nat)
    (hn : sizeOf d < n) (h : ankFuel n d u true = r) : add_new_keys d u = r := by
  rw [add_new_keys, ← ankFuel_eq n d u true hn, h]

/-- Evaluate a closed `remove_deprecated` instance through the fuel twin. -/
theorem remove_deprecated_eval (d u : Dict) (r : Option (Dict × Bool)) (n : Nat)
    (hn : sizeOf u < n) (h : rdFuel n d u u false = r) : remove_deprecated d u = r := by
  rw [remove_deprecated, ← rdFuel_eq n d u u false hn, h]

/-- Evaluate a closed `wfD` instance through the fuel twin. -/
theorem wfD_eval (d : Dict) (b : Bool) (n : Nat)
    (hn : sizeOf d < n) (h : wfDFuel n d = b) : wfD d = b := by
  rw [← wfDFuel_eq n d hn, h]

/-- Evaluate a closed `nestedCompat` instance through the fuel twin. -/
theorem nestedCompat_eval (dflt u : Dict) (b : Bool) (n : Nat)
    (hn : sizeOf u < n) (h : nestedCompatFuel n dflt u = b) : nestedCompat dflt u = b := by
  rw [← nestedCompatFuel_eq n dflt u hn, h]

/-- Evaluate a closed `cleanSpec` instance through the fuel twin. -/
theorem cleanSpec_eval (dflt u : Dict) (r : Dict) (n : Nat)
    (hn : sizeOf u < n) (h : cleanSpecFuel n dflt u = r) : cleanSpec dflt u = r := by
  rw [← cleanSpecFuel_eq n dflt u hn, h]

/-- Evaluate a closed `dictCompat` instance through the fuel twin. -/
theorem dictCompat_eval (d u : Dict) (b : Bool) (n : Nat)
    (hn : sizeOf d < n) (h : dictCompatFuel n d u = b) : dictCompat d u = b := by
  rw [← dictCompatFuel_eq n d u hn, h]

theorem ccFuel_eq (n₁ n₂ : Nat) (dflt config : Dict)
    (h₁ : sizeOf (special_update_check config).1 < n₁) (h₂ : sizeOf dflt < n₂) :
    ccFuel n₁ n₂ dflt config = reconcileWith dflt config := by
  rcases hsp : special_update_check config with ⟨c₁, sp⟩
  rw [hsp] at h₁
  simp only at h₁
  simp only [ccFuel, reconcileWith, hsp]
  rw [show remove_deprecated dflt c₁ = remove_deprecated_aux dflt c₁ c₁ false from rfl]
  rw [← rdFuel_eq n₁ dflt c₁ c₁ false h₁]
  cases hrd : rdFuel n₁ dflt c₁ c₁ false with
  | none => rfl
  | some p =>
    obtain ⟨c₂, ad⟩ := p
    simp only
    rw [show add_new_keys dflt c₂ = add_new_keys_aux dflt c₂ true from rfl]
    rw [← ankFuel_eq n₂ dflt c₂ true h₂]

/-- Evaluate a closed `reconcileWith` instance through the fuel twin. -/
theorem reconcileWith_eval (dflt config : Dict) (r : Option (Dict × (Bool × Bool × Bool)))
    (n₁ n₂ : Nat) (h₁ : sizeOf (special_update_check config).1 < n₁) (h₂ : sizeOf dflt < n₂)
    (h : ccFuel n₁ n₂ dflt config = r) : reconcileWith dflt config = r := by
  rw [← ccFuel_eq n₁ n₂ dflt config h₁ h₂, h]

/-- Evaluate a closed `config_check` instance through the fuel twin. -/
theorem config_check_eval (config : Dict) (r : Option (Dict × (Bool × Bool × Bool)))
    (n₁ n₂ : Nat) (h₁ : sizeOf (special_update_check config).1 < n₁) (h₂ : sizeOf DEF_CFG < n₂)
    (h : ccFuel n₁ n₂ DEF_CFG config = r) : config_check config = r :=
  reconcileWith_eval DEF_CFG config r n₁ n₂ h₁ h₂ h

/-! ### Basic dictionary lemmas -/

theorem lookup_eq_none_iff (d : Dict) (k : String) :
    lookup d k = none ↔ k ∉ keys d := by
  induction d with
  | nil => simp [lookup, keys]
  | cons hd tl ih =>
    obtain ⟨k₁, v₁⟩ := hd
    by_cases h : k₁ = k
    · subst h
      simp [lookup, keys]
    · simp [lookup, keys, h, Ne.symm h, ih]

theorem lookup_setKey_self (d : Dict) (k : String) (v : JValue) :
    lookup (setKey d k v) k = some v := by
  induction d with
  | nil => simp [setKey, lookup]
  | cons hd tl ih =>
    obtain ⟨k₁, v₁⟩ := hd
    by_cases h : k₁ = k <;> simp [setKey, lookup, h, ih]

theorem lookup_setKey_ne (d : Dict) (k k₂ : String) (v : JValue) (h : k ≠ k₂) :
    lookup (setKey d k v) k₂ = lookup d k₂ := by
  induction d with
  | nil => simp [setKey, lookup, h]
  | cons hd tl ih =>
    obtain ⟨k₁, v₁⟩ := hd
    by_cases h₁ : k₁ = k
    · subst h₁
      simp [setKey, lookup, h]
    · by_cases h₂ : k₁ = k₂ <;> simp [setKey, lookup, h₁, h₂, ih, Ne.symm h]

theorem lookup_eraseKey_ne (d : Dict) (k k₂ : String) (h : k ≠ k₂) :
    lookup (eraseKey d k) k₂ = lookup d k₂ := by
  induction d with
  | nil => simp [eraseKey, lookup]
  | cons hd tl ih =>
    obtain ⟨k₁, v₁⟩ := hd
    by_cases h₁ : k₁ = k
    · subst h₁
      simp [eraseKey, lookup, h]
    · by_cases h₂ : k₁ = k₂ <;> simp [eraseKey, lookup, h₁, h₂, ih, Ne.symm h]

/-- A value that matches no `JValue.dict` pattern is not a dict. -/
theorem isDict_false_of (w : JValue) (hnd : ∀ dd, w = JValue.dict dd → False) :
    isDict w = false := by
  cases w with
  | dict es => exact absurd rfl (hnd es)
  | str s => rfl
  | int n => rfl
  | bool b => rfl
  | list xs => rfl

/-- Unfolding `add_new_keys_aux` at a dict-valued default key bound to a
non-dict user value whose scalar-fallback loop completes. -/
theorem add_new_keys_aux_cons_sd_ok (k : String) (entries rest user : Dict)
    (up : Bool) (w : JValue) (hnd : isDict w = false) (hlk : lookup user k = some w)
    (hsc : ankScalar entries w = true) :
    add_new_keys_aux ((k, .dict entries) :: rest) user up
      = add_new_keys_aux rest user true := by
  cases w with
  | dict ud => simp [isDict] at hnd
  | str s => simp [add_new_keys_aux, hlk, hsc]
  | int n => simp [add_new_keys_aux, hlk, hsc]
  | bool b => simp [add_new_keys_aux, hlk, hsc]
  | list xs => simp [add_new_keys_aux, hlk, hsc]

/-- Unfolding `add_new_keys_aux` at a dict-valued default key bound to a
non-dict user value whose scalar-fallback loop raises. -/
theorem add_new_keys_aux_cons_sd_err (k : String) (entries rest user : Dict)
    (up : Bool) (w : JValue) (hnd : isDict w = false) (hlk : lookup user k = some w)
    (hsc : ankScalar entries w = false) :
    add_new_keys_aux ((k, .dict entries) :: rest) user up = none := by
  cases w with
  | dict ud => simp [isDict] at hnd
  | str s => simp [add_new_keys_aux, hlk, hsc]
  | int n => simp [add_new_keys_aux, hlk, hsc]
  | bool b => simp [add_new_keys_aux, hlk, hsc]
  | list xs => simp [add_new_keys_aux, hlk, hsc]

/-- Unfolding `remove_deprecated_aux` at a dict-valued user entry whose
default is a non-dict value and whose scalar loop completes. -/
theorem remove_deprecated_aux_cons_sd_ok (dflt : Dict) (k : String)
    (vd rest user : Dict) (flag : Bool) (w : JValue) (hnd : isDict w = false)
    (hlk : lookup dflt k = some w) (vd₁ : Dict) (flag₁ : Bool)
    (hrec : rdScalar w vd vd false = some (vd₁, flag₁)) :
    remove_deprecated_aux dflt ((k, .dict vd) :: rest) user flag
      = remove_deprecated_aux dflt rest (setKey user k (.dict vd₁)) flag₁ := by
  cases w with
  | dict ud => simp [isDict] at hnd
  | str s => simp [remove_deprecated_aux, hlk, hrec]
  | int n => simp [remove_deprecated_aux, hlk, hrec]
  | bool b => simp [remove_deprecated_aux, hlk, hrec]
  | list xs => simp [remove_deprecated_aux, hlk, hrec]

/-- Unfolding `remove_deprecated_aux` at a dict-valued user entry whose
default is a non-dict value and whose scalar loop raises. -/
theorem remove_deprecated_aux_cons_sd_err (dflt : Dict) (k : String)
    (vd rest user : Dict) (flag : Bool) (w : JValue) (hnd : isDict w = false)
    (hlk : lookup dflt k = some w) (hrec : rdScalar w vd vd false = none) :
    remove_deprecated_aux dflt ((k, .dict vd) :: rest) user flag = none := by
  cases w with
  | dict ud => simp [isDict] at hnd
  | str s => simp [remove_deprecated_aux, hlk, hrec]
  | int n => simp [remove_deprecated_aux, hlk, hrec]
  | bool b => simp [remove_deprecated_aux, hlk, hrec]
  | list xs => simp [remove_deprecated_aux, hlk, hrec]

/-- Unfolding `remove_deprecated_aux` at a dict-valued user entry whose key
is absent from the default: `KeyError`. -/
theorem remove_deprecated_aux_cons_nf (dflt : Dict) (k : String)
    (vd rest user : Dict) (flag : Bool) (hlk : lookup dflt k = none) :
    remove_deprecated_aux dflt ((k, .dict vd) :: rest) user flag = none := by
  simp [remove_deprecated_aux, hlk]

/-! ### Keys outside the default (resp. the snapshot) are untouched -/

/-- `add_new_keys` only writes at the keys of the default schema: every
other root binding of the user document is unchanged. -/
theorem add_new_keys_aux_outside (d u : Dict) (acc : Bool) :
    ∀ u₁ b k, add_new_keys_aux d u acc = some (u₁, b) → k ∉ keys d →
      lookup u₁ k = lookup u k := by
  induction d, u, acc using add_new_keys_aux.induct with
  | case1 user up =>
    intro u₁ b k h hk
    simp only [add_new_keys_aux, Option.some_inj, Prod.mk.injEq] at h
    rw [h.1]
  | case2 k₀ rest user up entries hlk ih =>
    intro u₁ b k h hk
    simp only [keys, List.map_cons, List.mem_cons, not_or] at hk
    simp only [add_new_keys_aux, hlk] at h
    rw [ih u₁ b k h (by simpa [keys] using hk.2), lookup_setKey_ne _ _ _ _ (Ne.symm hk.1)]
  | case3 k₀ rest user up entries ud hlk ud₁ r hrec ih2 ih1 =>
    intro u₁ b k h hk
    simp only [keys, List.map_cons, List.mem_cons, not_or] at hk
    simp only [add_new_keys_aux, hlk, hrec] at h
    rw [ih1 u₁ b k h (by simpa [keys] using hk.2), lookup_setKey_ne _ _ _ _ (Ne.symm hk.1)]
  | case4 k₀ rest user up entries ud hlk hrec ih =>
    intro u₁ b k h hk
    simp only [add_new_keys_aux, hlk, hrec] at h
    simp at h
  | case5 k₀ rest user up entries w hnd hlk hsc ih =>
    intro u₁ b k h hk
    simp only [keys, List.map_cons, List.mem_cons, not_or] at hk
    rw [add_new_keys_aux_cons_sd_ok k₀ entries rest user up w (isDict_false_of w hnd) hlk hsc] at h
    exact ih u₁ b k h (by simpa [keys] using hk.2)
  | case6 k₀ rest user up entries w hnd hlk hsc =>
    intro u₁ b k h hk
    rw [add_new_keys_aux_cons_sd_err k₀ entries rest user up w (isDict_false_of w hnd) hlk
      (by simpa using hsc)] at h
    simp at h
  | case7 k₀ v rest user up hlk hnd ih =>
    intro u₁ b k h hk
    simp only [keys, List.map_cons, List.mem_cons, not_or] at hk
    have hred : add_new_keys_aux ((k₀, v) :: rest) user up = add_new_keys_aux rest user up := by
      cases v with
      | dict entries => exact absurd rfl (hnd entries)
      | str s => simp [add_new_keys_aux, hlk]
      | int n => simp [add_new_keys_aux, hlk]
      | bool bb => simp [add_new_keys_aux, hlk]
      | list xs => simp [add_new_keys_aux, hlk]
    rw [hred] at h
    exact ih u₁ b k h (by simpa [keys] using hk.2)
  | case8 k₀ v rest user up hlk hnd ih =>
    intro u₁ b k h hk
    simp only [keys, List.map_cons, List.mem_cons, not_or] at hk
    have hred : add_new_keys_aux ((k₀, v) :: rest) user up
        = add_new_keys_aux rest (setKey user k₀ v) false := by
      cases v with
      | dict entries => exact absurd rfl (hnd entries)
      | str s => simp [add_new_keys_aux, hlk]
      | int n => simp [add_new_keys_aux, hlk]
      | bool bb => simp [add_new_keys_aux, hlk]
      | list xs => simp [add_new_keys_aux, hlk]
    rw [hred] at h
    rw [ih u₁ b k h (by simpa [keys] using hk.2), lookup_setKey_ne _ _ _ _ (Ne.symm hk.1)]

/-- `remove_deprecated` only writes at the keys of the snapshot it iterates
over: every other root binding of the live document is unchanged. -/
theorem remove_deprecated_aux_outside (dflt snap u : Dict) (acc : Bool) :
    ∀ u₁ b k, remove_deprecated_aux dflt snap u acc = some (u₁, b) → k ∉ keys snap →
      lookup u₁ k = lookup u k := by
  induction dflt, snap, u, acc using remove_deprecated_aux.induct with
  | case1 dflt user flag =>
    intro u₁ b k h hk
    simp only [remove_deprecated_aux, Option.some_inj, Prod.mk.injEq] at h
    rw [h.1]
  | case2 dflt k₀ rest user flag entries dd hlk ud₁ r hrec ih2 ih1 =>
    intro u₁ b k h hk
    simp only [keys, List.map_cons, List.mem_cons, not_or] at hk
    simp only [remove_deprecated_aux, hlk, hrec] at h
    rw [ih1 u₁ b k h (by simpa [keys] using hk.2), lookup_setKey_ne _ _ _ _ (Ne.symm hk.1)]
  | case3 dflt k₀ rest user flag entries dd hlk hrec ih =>
    intro u₁ b k h hk
    simp only [remove_deprecated_aux, hlk, hrec] at h
    simp at h
  | case4 dflt k₀ rest user flag entries w hnd hlk ud₁ r hrec ih =>
    intro u₁ b k h hk
    simp only [keys, List.map_cons, List.mem_cons, not_or] at hk
    rw [remove_deprecated_aux_cons_sd_ok dflt k₀ entries rest user flag w
      (isDict_false_of w hnd) hlk ud₁ r hrec] at h
    rw [ih u₁ b k h (by simpa [keys] using hk.2), lookup_setKey_ne _ _ _ _ (Ne.symm hk.1)]
  | case5 dflt k₀ rest user flag entries w hnd hlk hrec =>
    intro u₁ b k h hk
    rw [remove_deprecated_aux_cons_sd_err dflt k₀ entries rest user flag w
      (isDict_false_of w hnd) hlk hrec] at h
    simp at h
  | case6 dflt k₀ rest user flag entries hlk =>
    intro u₁ b k h hk
    rw [remove_deprecated_aux_cons_nf dflt k₀ entries rest user flag hlk] at h
    simp at h
  | case7 dflt k₀ v rest user flag hlk hnd ih =>
    intro u₁ b k h hk
    simp only [keys, List.map_cons, List.mem_cons, not_or] at hk
    have hred : remove_deprecated_aux dflt ((k₀, v) :: rest) user flag
        = remove_deprecated_aux dflt rest user flag := by
      cases v with
      | dict entries => exact absurd rfl (hnd entries)
      | str s => simp [remove_deprecated_aux, hlk]
      | int n => simp [remove_deprecated_aux, hlk]
      | bool bb => simp [remove_deprecated_aux, hlk]
      | list xs => simp [remove_deprecated_aux, hlk]
    rw [hred] at h
    exact ih u₁ b k h (by simpa [keys] using hk.2)
  | case8 dflt k₀ v rest user flag hlk hnd ih =>
    intro u₁ b k h hk
    simp only [keys, List.map_cons, List.mem_cons, not_or] at hk
    have hred : remove_deprecated_aux dflt ((k₀, v) :: rest) user flag
        = remove_deprecated_aux dflt rest (eraseKey user k₀) true := by
      cases v with
      | dict entries => exact absurd rfl (hnd entries)
      | str s => simp [remove_deprecated_aux, hlk]
      | int n => simp [remove_deprecated_aux, hlk]
      | bool bb => simp [remove_deprecated_aux, hlk]
      | list xs => simp [remove_deprecated_aux, hlk]
    rw [hred] at h
    rw [ih u₁ b k h (by simpa [keys] using hk.2), lookup_eraseKey_ne _ _ _ (Ne.symm hk.1)]

/-! ### Well-formedness lemmas -/

theorem wfD_cons_key {k : String} {v : JValue} {rest : Dict}
    (h : wfD ((k, v) :: rest) = true) : k ∉ keys rest := by
  unfold wfD at h
  simp only [Bool.and_eq_true] at h
  simpa using h.1.1

theorem wfD_cons_val_dict {k : String} {es : Dict} {rest : Dict}
    (h : wfD ((k, .dict es) :: rest) = true) : wfD es = true := by
  unfold wfD at h
  simp only [Bool.and_eq_true] at h
  exact h.1.2

theorem wfD_cons_rest {k : String} {v : JValue} {rest : Dict}
    (h : wfD ((k, v) :: rest) = true) : wfD rest = true := by
  unfold wfD at h
  simp only [Bool.and_eq_true] at h
  exact h.2

theorem wf_lookup_dict {u : Dict} {k : String} {es : Dict}
    (hwf : wfD u = true) (h : lookup u k = some (.dict es)) : wfD es = true := by
  induction u with
  | nil => simp [lookup] at h
  | cons hd tl ih =>
    obtain ⟨k₁, v₁⟩ := hd
    by_cases hk : k₁ = k
    · subst hk
      simp [lookup] at h
      subst h
      exact wfD_cons_val_dict hwf
    · simp only [lookup, if_neg hk] at h
      exact ih (wfD_cons_rest hwf) h

theorem setKey_self_of_lookup {u : Dict} {k : String} {v : JValue}
    (h : lookup u k = some v) : setKey u k v = u := by
  induction u with
  | nil => simp [lookup] at h
  | cons hd tl ih =>
    obtain ⟨k₁, v₁⟩ := hd
    by_cases hk : k₁ = k
    · subst hk
      simp [lookup] at h
      simp [setKey, h]
    · simp only [lookup, if_neg hk] at h
      simp [setKey, hk, ih h]

/-! ### Well-formedness of lists with a distinguished middle element -/

theorem wfVal_of_cons {k : String} {v : JValue} {rest : Dict}
    (h : wfD ((k, v) :: rest) = true) : wfVal v = true := by
  unfold wfD at h
  simp only [Bool.and_eq_true] at h
  cases v with
  | dict es => exact h.1.2
  | str s => rfl
  | int n => rfl
  | bool b => rfl
  | list xs => rfl

theorem wfD_cons_of {k : String} {v : JValue} {d : Dict}
    (hk : k ∉ keys d) (hv : wfVal v = true) (hd : wfD d = true) :
    wfD ((k, v) :: d) = true := by
  unfold wfD
  simp only [Bool.and_eq_true]
  refine ⟨⟨by simpa using hk, ?_⟩, hd⟩
  cases v with
  | dict es => exact hv
  | str s => rfl
  | int n => rfl
  | bool b => rfl
  | list xs => rfl

theorem keys_append (xs ys : Dict) : keys (xs ++ ys) = keys xs ++ keys ys := by
  simp [keys]

theorem wfD_mid {pre : Dict} {k : String} {v : JValue} {rest : Dict}
    (h : wfD (pre ++ (k, v) :: rest) = true) :
    k ∉ keys pre ∧ k ∉ keys rest ∧ wfVal v = true := by
  induction pre with
  | nil =>
    simp only [List.nil_append] at h
    exact ⟨by simp [keys], wfD_cons_key h, wfVal_of_cons h⟩
  | cons hd tl ih =>
    obtain ⟨k₁, v₁⟩ := hd
    rw [List.cons_append] at h
    have hk₁ := wfD_cons_key h
    rw [keys_append] at hk₁
    simp only [keys, List.map_cons, List.mem_append, List.mem_cons, not_or] at hk₁
    obtain ⟨h₁, h₂, h₃⟩ := ih (wfD_cons_rest h)
    refine ⟨?_, h₂, h₃⟩
    simp only [keys, List.map_cons, List.mem_cons, not_or]
    exact ⟨fun he => hk₁.2.1 he.symm, by simpa [keys] using h₁⟩

theorem wfD_mid_replace {pre : Dict} {k : String} {v w : JValue} {rest : Dict}
    (h : wfD (pre ++ (k, v) :: rest) = true) (hw : wfVal w = true) :
    wfD (pre ++ (k, w) :: rest) = true := by
  induction pre with
  | nil =>
    simp only [List.nil_append] at h ⊢
    exact wfD_cons_of (wfD_cons_key h) hw (wfD_cons_rest h)
  | cons hd tl ih =>
    obtain ⟨k₁, v₁⟩ := hd
    rw [List.cons_append] at h ⊢
    have hk₁ := wfD_cons_key h
    refine wfD_cons_of ?_ (wfVal_of_cons h) (ih (wfD_cons_rest h))
    rw [keys_append] at hk₁ ⊢
    simpa [keys] using (by simpa [keys] using hk₁ : _)

theorem wfD_mid_remove {pre : Dict} {k : String} {v : JValue} {rest : Dict}
    (h : wfD (pre ++ (k, v) :: rest) = true) : wfD (pre ++ rest) = true := by
  induction pre with
  | nil =>
    simp only [List.nil_append] at h ⊢
    exact wfD_cons_rest h
  | cons hd tl ih =>
    obtain ⟨k₁, v₁⟩ := hd
    rw [List.cons_append] at h ⊢
    have hk₁ := wfD_cons_key h
    refine wfD_cons_of ?_ (wfVal_of_cons h) (ih (wfD_cons_rest h))
    rw [keys_append] at hk₁ ⊢
    simp only [keys, List.map_cons, List.mem_append, List.mem_cons, not_or] at hk₁ ⊢
    exact ⟨hk₁.1, hk₁.2.2⟩

theorem setKey_append_notin {pre : Dict} {k : String} (hk : k ∉ keys pre)
    (v w : JValue) (rest : Dict) :
    setKey (pre ++ (k, v) :: rest) k w = pre ++ (k, w) :: rest := by
  induction pre with
  | nil => simp [setKey]
  | cons hd tl ih =>
    obtain ⟨k₁, v₁⟩ := hd
    simp only [keys, List.map_cons, List.mem_cons, not_or] at hk
    rw [List.cons_append, List.cons_append, setKey]
    rw [if_neg (fun he => hk.1 he.symm)]
    rw [ih (by simpa [keys] using hk.2)]

theorem eraseKey_append_notin {pre : Dict} {k : String} (hk : k ∉ keys pre)
    (v : JValue) (rest : Dict) :
    eraseKey (pre ++ (k, v) :: rest) k = pre ++ rest := by
  induction pre with
  | nil => simp [eraseKey]
  | cons hd tl ih =>
    obtain ⟨k₁, v₁⟩ := hd
    simp only [keys, List.map_cons, List.mem_cons, not_or] at hk
    rw [List.cons_append, List.cons_append, eraseKey]
    rw [if_neg (fun he => hk.1 he.symm)]
    rw [ih (by simpa [keys] using hk.2)]

/-! ### Properties of `cleanSpec` and `nestedCompat` -/

theorem cleanSpec_cons_dict {dflt : Dict} {k : String} {dd : Dict} (vd rest : Dict)
    (hlk : lookup dflt k = some (.dict dd)) :
    cleanSpec dflt ((k, .dict vd) :: rest) = (k, .dict (cleanSpec dd vd)) :: cleanSpec dflt rest := by
  simp only [cleanSpec, hlk]

theorem cleanSpec_cons_dict_junk {dflt : Dict} {k : String} (vd rest : Dict)
    (hnd : ∀ dd : Dict, lookup dflt k = some (.dict dd) → False) :
    cleanSpec dflt ((k, .dict vd) :: rest) = (k, .dict vd) :: cleanSpec dflt rest := by
  cases hlk : lookup dflt k with
  | none => simp only [cleanSpec, hlk]
  | some w =>
    cases w with
    | dict dd => exact (hnd dd hlk).elim
    | str s => simp only [cleanSpec, hlk]
    | int n => simp only [cleanSpec, hlk]
    | bool b => simp only [cleanSpec, hlk]
    | list xs => simp only [cleanSpec, hlk]

theorem cleanSpec_cons_keep {dflt : Dict} {k : String} (v : JValue) (rest : Dict)
    (hnd : isDict v = false) (hlk : (lookup dflt k).isSome = true) :
    cleanSpec dflt ((k, v) :: rest) = (k, v) :: cleanSpec dflt rest := by
  cases v with
  | dict es => simp [isDict] at hnd
  | str s => simp only [cleanSpec, hlk, if_true]
  | int n => simp only [cleanSpec, hlk, if_true]
  | bool b => simp only [cleanSpec, hlk, if_true]
  | list xs => simp only [cleanSpec, hlk, if_true]

theorem cleanSpec_cons_drop {dflt : Dict} {k : String} (v : JValue) (rest : Dict)
    (hnd : isDict v = false) (hlk : lookup dflt k = none) :
    cleanSpec dflt ((k, v) :: rest) = cleanSpec dflt rest := by
  cases v with
  | dict es => simp [isDict] at hnd
  | str s => simp [cleanSpec, hlk]
  | int n => simp [cleanSpec, hlk]
  | bool b => simp [cleanSpec, hlk]
  | list xs => simp [cleanSpec, hlk]

theorem cleanSpec_keys_sub (dflt u : Dict) :
    ∀ k, k ∈ keys (cleanSpec dflt u) → k ∈ keys u := by
  induction dflt, u using cleanSpec.induct with
  | case1 dflt =>
    intro k h
    simp only [cleanSpec] at h
    simp [keys] at h
  | case2 dflt k₀ rest vd dd hlk ih2 ih1 =>
    intro k h
    rw [cleanSpec_cons_dict vd rest hlk] at h
    simp only [keys, List.map_cons, List.mem_cons] at h ⊢
    rcases h with h | h
    · exact Or.inl h
    · exact Or.inr (ih1 k h)
  | case3 dflt k₀ rest vd hnd ih =>
    intro k h
    rw [cleanSpec_cons_dict_junk vd rest hnd] at h
    simp only [keys, List.map_cons, List.mem_cons] at h ⊢
    rcases h with h | h
    · exact Or.inl h
    · exact Or.inr (ih k h)
  | case4 dflt k₀ v rest hlk hnd ih =>
    intro k h
    rw [cleanSpec_cons_keep v rest (by cases v <;> first | rfl | exact absurd rfl (hnd _)) hlk] at h
    simp only [keys, List.map_cons, List.mem_cons] at h ⊢
    rcases h with h | h
    · exact Or.inl h
    · exact Or.inr (ih k h)
  | case5 dflt k₀ v rest hlk hnd ih =>
    intro k h
    rw [cleanSpec_cons_drop v rest (by cases v <;> first | rfl | exact absurd rfl (hnd _))
      (by simpa using hlk)] at h
    simp only [keys, List.map_cons, List.mem_cons]
    exact Or.inr (ih k h)

theorem cleanSpec_lookup_none {dflt u : Dict} {k : String}
    (h : lookup u k = none) : lookup (cleanSpec dflt u) k = none := by
  rw [lookup_eq_none_iff] at h ⊢
  intro hmem
  exact h (cleanSpec_keys_sub dflt u k hmem)

theorem cleanSpec_wf (dflt : Dict) {u : Dict} (hwf : wfD u = true) :
    wfD (cleanSpec dflt u) = true := by
  induction dflt, u using cleanSpec.induct with
  | case1 dflt => simpa [cleanSpec] using hwf
  | case2 dflt k₀ rest vd dd hlk ih2 ih1 =>
    rw [cleanSpec_cons_dict vd rest hlk]
    refine wfD_cons_of ?_ (ih2 (wfD_cons_val_dict hwf)) (ih1 (wfD_cons_rest hwf))
    intro hmem
    exact wfD_cons_key hwf (cleanSpec_keys_sub dflt rest k₀ hmem)
  | case3 dflt k₀ rest vd hnd ih =>
    rw [cleanSpec_cons_dict_junk vd rest hnd]
    refine wfD_cons_of ?_ (wfVal_of_cons hwf) (ih (wfD_cons_rest hwf))
    intro hmem
    exact wfD_cons_key hwf (cleanSpec_keys_sub dflt rest k₀ hmem)
  | case4 dflt k₀ v rest hlk hnd ih =>
    rw [cleanSpec_cons_keep v rest (by cases v <;> first | rfl | exact absurd rfl (hnd _)) hlk]
    refine wfD_cons_of ?_ (wfVal_of_cons hwf) (ih (wfD_cons_rest hwf))
    intro hmem
    exact wfD_cons_key hwf (cleanSpec_keys_sub dflt rest k₀ hmem)
  | case5 dflt k₀ v rest hlk hnd ih =>
    rw [cleanSpec_cons_drop v rest (by cases v <;> first | rfl | exact absurd rfl (hnd _))
      (by simpa using hlk)]
    exact ih (wfD_cons_rest hwf)

theorem nestedCompat_cons_dict {dflt : Dict} {k : String} {vd rest : Dict}
    (h : nestedCompat dflt ((k, .dict vd) :: rest) = true) :
    ∃ dd : Dict, lookup dflt k = some (.dict dd)
      ∧ nestedCompat dd vd = true ∧ nestedCompat dflt rest = true := by
  unfold nestedCompat at h
  cases hlk : lookup dflt k with
  | none => rw [hlk] at h; simp at h
  | some w =>
    cases w with
    | dict dd =>
      rw [hlk] at h
      simp only [Bool.and_eq_true] at h
      exact ⟨dd, rfl, h.1, h.2⟩
    | str s => rw [hlk] at h; simp at h
    | int n => rw [hlk] at h; simp at h
    | bool b => rw [hlk] at h; simp at h
    | list xs => rw [hlk] at h; simp at h

theorem nestedCompat_cons_scalar {dflt : Dict} {k : String} {v : JValue} {rest : Dict}
    (hnd : isDict v = false) (h : nestedCompat dflt ((k, v) :: rest) = true) :
    nestedCompat dflt rest = true := by
  unfold nestedCompat at h
  cases v with
  | dict es => simp [isDict] at hnd
  | str s => exact h
  | int n => exact h
  | bool b => exact h
  | list xs => exact h

/-! ### The remove phase computes `cleanSpec` whenever it completes -/

theorem remove_deprecated_aux_clean :
    ∀ (dflt snap user : Dict) (acc : Bool) (pre : Dict), user = pre ++ snap →
      wfD user = true → nestedCompat dflt snap = true →
      ∃ b, remove_deprecated_aux dflt snap user acc = some (pre ++ cleanSpec dflt snap, b) := by
  intro dflt snap user acc
  induction dflt, snap, user, acc using remove_deprecated_aux.induct with
  | case1 dflt user flag =>
    intro pre hpre hwf hc
    refine ⟨flag, ?_⟩
    simp only [remove_deprecated_aux, cleanSpec]
    rw [hpre]
  | case2 dflt k₀ rest user flag entries dd hlk ud₁ r hrec ih2 ih1 =>
    intro pre hpre hwf hc
    subst hpre
    obtain ⟨dd₂, hlk₂, hcvd, hcrest⟩ := nestedCompat_cons_dict hc
    rw [hlk] at hlk₂
    simp only [Option.some_inj, JValue.dict.injEq] at hlk₂
    subst hlk₂
    obtain ⟨hpk, hprest, hpv⟩ := wfD_mid hwf
    have hwfe : wfD entries = true := by simpa [wfVal] using hpv
    obtain ⟨b₁, hb₁⟩ := ih2 [] rfl hwfe hcvd
    rw [hrec] at hb₁
    simp only [List.nil_append, Option.some_inj, Prod.mk.injEq] at hb₁
    have hud : ud₁ = cleanSpec dd entries := hb₁.1
    simp only [remove_deprecated_aux, hlk, hrec]
    rw [setKey_append_notin hpk]
    subst hud
    have hwf₂ : wfD (pre ++ (k₀, .dict (cleanSpec dd entries)) :: rest) = true :=
      wfD_mid_replace hwf (by simpa [wfVal] using cleanSpec_wf dd hwfe)
    obtain ⟨b₂, hb₂⟩ := ih1 (pre ++ [(k₀, .dict (cleanSpec dd entries))])
      (by rw [setKey_append_notin hpk]; simp)
      (by rw [setKey_append_notin hpk]; exact hwf₂) hcrest
    rw [setKey_append_notin hpk] at hb₂
    refine ⟨b₂, ?_⟩
    rw [cleanSpec_cons_dict entries rest hlk]
    simpa using hb₂
  | case3 dflt k₀ rest user flag entries dd hlk hrec ih2 =>
    intro pre hpre hwf hc
    subst hpre
    obtain ⟨dd₂, hlk₂, hcvd, hcrest⟩ := nestedCompat_cons_dict hc
    rw [hlk] at hlk₂
    simp only [Option.some_inj, JValue.dict.injEq] at hlk₂
    subst hlk₂
    obtain ⟨hpk, hprest, hpv⟩ := wfD_mid hwf
    have hwfe : wfD entries = true := by simpa [wfVal] using hpv
    obtain ⟨b₁, hb₁⟩ := ih2 [] rfl hwfe hcvd
    rw [hrec] at hb₁
    simp at hb₁
  | case4 dflt k₀ rest user flag entries w hnd hlk ud₁ r hrec ih =>
    intro pre hpre hwf hc
    obtain ⟨dd₂, hlk₂, hcvd, hcrest⟩ := nestedCompat_cons_dict hc
    rw [hlk] at hlk₂
    simp only [Option.some_inj] at hlk₂
    exact (hnd dd₂ hlk₂).elim
  | case5 dflt k₀ rest user flag entries w hnd hlk hrec =>
    intro pre hpre hwf hc
    obtain ⟨dd₂, hlk₂, hcvd, hcrest⟩ := nestedCompat_cons_dict hc
    rw [hlk] at hlk₂
    simp only [Option.some_inj] at hlk₂
    exact (hnd dd₂ hlk₂).elim
  | case6 dflt k₀ rest user flag entries hlk =>
    intro pre hpre hwf hc
    obtain ⟨dd₂, hlk₂, hcvd, hcrest⟩ := nestedCompat_cons_dict hc
    rw [hlk] at hlk₂
    cases hlk₂
  | case7 dflt k₀ v rest user flag hlk hnd ih =>
    intro pre hpre hwf hc
    subst hpre
    have hscal : isDict v = false := by
      cases v <;> first | rfl | exact absurd rfl (hnd _)
    obtain ⟨hpk, hprest, hpv⟩ := wfD_mid hwf
    have hred : remove_deprecated_aux dflt ((k₀, v) :: rest) (pre ++ (k₀, v) :: rest) flag
        = remove_deprecated_aux dflt rest (pre ++ (k₀, v) :: rest) flag := by
      cases v with
      | dict entries => exact absurd rfl (hnd entries)
      | str s => simp [remove_deprecated_aux, hlk]
      | int n => simp [remove_deprecated_aux, hlk]
      | bool bb => simp [remove_deprecated_aux, hlk]
      | list xs => simp [remove_deprecated_aux, hlk]
    rw [hred]
    obtain ⟨b, hb⟩ := ih (pre ++ [(k₀, v)]) (by simp) hwf (nestedCompat_cons_scalar hscal hc)
    refine ⟨b, ?_⟩
    rw [cleanSpec_cons_keep v rest hscal hlk]
    simpa using hb
  | case8 dflt k₀ v rest user flag hlk hnd ih =>
    intro pre hpre hwf hc
    subst hpre
    have hscal : isDict v = false := by
      cases v <;> first | rfl | exact absurd rfl (hnd _)
    obtain ⟨hpk, hprest, hpv⟩ := wfD_mid hwf
    have hred : remove_deprecated_aux dflt ((k₀, v) :: rest) (pre ++ (k₀, v) :: rest) flag
        = remove_deprecated_aux dflt rest (eraseKey (pre ++ (k₀, v) :: rest) k₀) true := by
      cases v with
      | dict entries => exact absurd rfl (hnd entries)
      | str s => simp [remove_deprecated_aux, hlk]
      | int n => simp [remove_deprecated_aux, hlk]
      | bool bb => simp [remove_deprecated_aux, hlk]
      | list xs => simp [remove_deprecated_aux, hlk]
    rw [hred, eraseKey_append_notin hpk]
    obtain ⟨b, hb⟩ := ih pre (eraseKey_append_notin hpk v rest)
      (by rw [eraseKey_append_notin hpk]; exact wfD_mid_remove hwf)
      (nestedCompat_cons_scalar hscal hc)
    rw [eraseKey_append_notin hpk] at hb
    refine ⟨b, ?_⟩
    rw [cleanSpec_cons_drop v rest hscal (by simpa using hlk)]
    exact hb

theorem cleanSpec_lookup_keep {dflt : Dict} :
    ∀ {u : Dict} {k : String} {v : JValue}, lookup u k = some v → isDict v = false →
      (lookup dflt k).isSome = true → lookup (cleanSpec dflt u) k = some v := by
  intro u
  induction u with
  | nil => intro k v h; simp [lookup] at h
  | cons hd tl ih =>
    obtain ⟨k₁, v₁⟩ := hd
    intro k v h hnd hlk
    by_cases hk : k₁ = k
    · subst hk
      simp [lookup] at h
      subst h
      rw [cleanSpec_cons_keep _ tl hnd hlk, lookup, if_pos rfl]
    · simp only [lookup, if_neg hk] at h
      have htail : lookup (cleanSpec dflt tl) k = some v := ih h hnd hlk
      cases v₁ with
      | dict es =>
        cases hlk₁ : lookup dflt k₁ with
        | none =>
          rw [cleanSpec_cons_dict_junk es tl (fun dd hdd => by rw [hlk₁] at hdd; cases hdd)]
          rw [lookup, if_neg hk]
          exact htail
        | some w =>
          cases w with
          | dict dd =>
            rw [cleanSpec_cons_dict es tl hlk₁, lookup, if_neg hk]
            exact htail
          | str s =>
            rw [cleanSpec_cons_dict_junk es tl (fun dd hdd => by rw [hlk₁] at hdd; cases hdd)]
            rw [lookup, if_neg hk]
            exact htail
          | int n =>
            rw [cleanSpec_cons_dict_junk es tl (fun dd hdd => by rw [hlk₁] at hdd; cases hdd)]
            rw [lookup, if_neg hk]
            exact htail
          | bool bb =>
            rw [cleanSpec_cons_dict_junk es tl (fun dd hdd => by rw [hlk₁] at hdd; cases hdd)]
            rw [lookup, if_neg hk]
            exact htail
          | list xs =>
            rw [cleanSpec_cons_dict_junk es tl (fun dd hdd => by rw [hlk₁] at hdd; cases hdd)]
            rw [lookup, if_neg hk]
            exact htail
      | str s =>
        by_cases hlk₁ : (lookup dflt k₁).isSome = true
        · rw [cleanSpec_cons_keep (JValue.str s) tl rfl hlk₁, lookup, if_neg hk]
          exact htail
        · rw [cleanSpec_cons_drop (JValue.str s) tl rfl (by simpa using hlk₁)]
          exact htail
      | int n =>
        by_cases hlk₁ : (lookup dflt k₁).isSome = true
        · rw [cleanSpec_cons_keep (JValue.int n) tl rfl hlk₁, lookup, if_neg hk]
          exact htail
        · rw [cleanSpec_cons_drop (JValue.int n) tl rfl (by simpa using hlk₁)]
          exact htail
      | bool bb =>
        by_cases hlk₁ : (lookup dflt k₁).isSome = true
        · rw [cleanSpec_cons_keep (JValue.bool bb) tl rfl hlk₁, lookup, if_neg hk]
          exact htail
        · rw [cleanSpec_cons_drop (JValue.bool bb) tl rfl (by simpa using hlk₁)]
          exact htail
      | list xs =>
        by_cases hlk₁ : (lookup dflt k₁).isSome = true
        · rw [cleanSpec_cons_keep (JValue.list xs) tl rfl hlk₁, lookup, if_neg hk]
          exact htail
        · rw [cleanSpec_cons_drop (JValue.list xs) tl rfl (by simpa using hlk₁)]
          exact htail

theorem cleanSpec_lookup_drop {dflt : Dict} :
    ∀ {u : Dict} {k : String} {v : JValue}, wfD u = true → lookup u k = some v →
      isDict v = false → lookup dflt k = none → lookup (cleanSpec dflt u) k = none := by
  intro u
  induction u with
  | nil => intro k v _ h; simp [lookup] at h
  | cons hd tl ih =>
    obtain ⟨k₁, v₁⟩ := hd
    intro k v hwf h hnd hlk
    by_cases hk : k₁ = k
    · subst hk
      simp [lookup] at h
      subst h
      rw [cleanSpec_cons_drop _ tl hnd hlk]
      exact cleanSpec_lookup_none ((lookup_eq_none_iff tl k₁).mpr (wfD_cons_key hwf))
    · simp only [lookup, if_neg hk] at h
      have htail : lookup (cleanSpec dflt tl) k = none := ih (wfD_cons_rest hwf) h hnd hlk
      cases v₁ with
      | dict es =>
        cases hlk₁ : lookup dflt k₁ with
        | none =>
          rw [cleanSpec_cons_dict_junk es tl (fun dd hdd => by rw [hlk₁] at hdd; cases hdd)]
          rw [lookup, if_neg hk]
          exact htail
        | some w =>
          cases w with
          | dict dd =>
            rw [cleanSpec_cons_dict es tl hlk₁, lookup, if_neg hk]
            exact htail
          | str s =>
            rw [cleanSpec_cons_dict_junk es tl (fun dd hdd => by rw [hlk₁] at hdd; cases hdd)]
            rw [lookup, if_neg hk]
            exact htail
          | int n =>
            rw [cleanSpec_cons_dict_junk es tl (fun dd hdd => by rw [hlk₁] at hdd; cases hdd)]
            rw [lookup, if_neg hk]
            exact htail
          | bool bb =>
            rw [cleanSpec_cons_dict_junk es tl (fun dd hdd => by rw [hlk₁] at hdd; cases hdd)]
            rw [lookup, if_neg hk]
            exact htail
          | list xs =>
            rw [cleanSpec_cons_dict_junk es tl (fun dd hdd => by rw [hlk₁] at hdd; cases hdd)]
            rw [lookup, if_neg hk]
            exact htail
      | str s =>
        by_cases hlk₁ : (lookup dflt k₁).isSome = true
        · rw [cleanSpec_cons_keep (JValue.str s) tl rfl hlk₁, lookup, if_neg hk]
          exact htail
        · rw [cleanSpec_cons_drop (JValue.str s) tl rfl (by simpa using hlk₁)]
          exact htail
      | int n =>
        by_cases hlk₁ : (lookup dflt k₁).isSome = true
        · rw [cleanSpec_cons_keep (JValue.int n) tl rfl hlk₁, lookup, if_neg hk]
          exact htail
        · rw [cleanSpec_cons_drop (JValue.int n) tl rfl (by simpa using hlk₁)]
          exact htail
      | bool bb =>
        by_cases hlk₁ : (lookup dflt k₁).isSome = true
        · rw [cleanSpec_cons_keep (JValue.bool bb) tl rfl hlk₁, lookup, if_neg hk]
          exact htail
        · rw [cleanSpec_cons_drop (JValue.bool bb) tl rfl (by simpa using hlk₁)]
          exact htail
      | list xs =>
        by_cases hlk₁ : (lookup dflt k₁).isSome = true
        · rw [cleanSpec_cons_keep (JValue.list xs) tl rfl hlk₁, lookup, if_neg hk]
          exact htail
        · rw [cleanSpec_cons_drop (JValue.list xs) tl rfl (by simpa using hlk₁)]
          exact htail

theorem compat_lookup_dict {dflt : Dict} :
    ∀ {u : Dict} {k : String} {pd : Dict}, nestedCompat dflt u = true →
      lookup u k = some (.dict pd) →
      ∃ dd, lookup dflt k = some (.dict dd) ∧ nestedCompat dd pd = true := by
  intro u
  induction u with
  | nil => intro k pd _ h; simp [lookup] at h
  | cons hd tl ih =>
    obtain ⟨k₁, v₁⟩ := hd
    intro k pd hc h
    by_cases hk : k₁ = k
    · subst hk
      simp [lookup] at h
      subst h
      obtain ⟨dd, hdd, hcd, _⟩ := nestedCompat_cons_dict hc
      exact ⟨dd, hdd, hcd⟩
    · simp only [lookup, if_neg hk] at h
      cases v₁ with
      | dict es =>
        obtain ⟨_, _, _, hrest⟩ := nestedCompat_cons_dict hc
        exact ih hrest h
      | str s => exact ih (nestedCompat_cons_scalar (show isDict (JValue.str s) = false from rfl) hc) h
      | int n => exact ih (nestedCompat_cons_scalar (show isDict (JValue.int n) = false from rfl) hc) h
      | bool bb => exact ih (nestedCompat_cons_scalar (show isDict (JValue.bool bb) = false from rfl) hc) h
      | list xs => exact ih (nestedCompat_cons_scalar (show isDict (JValue.list xs) = false from rfl) hc) h

theorem cleanSpec_lookup_dict {dflt : Dict} :
    ∀ {u : Dict} {k : String} {pd dd : Dict}, lookup u k = some (.dict pd) →
      lookup dflt k = some (.dict dd) →
      lookup (cleanSpec dflt u) k = some (.dict (cleanSpec dd pd)) := by
  intro u
  induction u with
  | nil => intro k pd dd h; simp [lookup] at h
  | cons hd tl ih =>
    obtain ⟨k₁, v₁⟩ := hd
    intro k pd dd h hlk
    by_cases hk : k₁ = k
    · subst hk
      simp [lookup] at h
      subst h
      rw [cleanSpec_cons_dict pd tl hlk, lookup, if_pos rfl]
    · simp only [lookup, if_neg hk] at h
      have htail := ih h hlk
      cases v₁ with
      | dict es =>
        cases hlk₁ : lookup dflt k₁ with
        | none =>
          rw [cleanSpec_cons_dict_junk es tl (fun dd₂ hdd => by rw [hlk₁] at hdd; cases hdd)]
          rw [lookup, if_neg hk]
          exact htail
        | some w =>
          cases w with
          | dict dd₂ =>
            rw [cleanSpec_cons_dict es tl hlk₁, lookup, if_neg hk]
            exact htail
          | str s =>
            rw [cleanSpec_cons_dict_junk es tl (fun dd₂ hdd => by rw [hlk₁] at hdd; cases hdd)]
            rw [lookup, if_neg hk]
            exact htail
          | int n =>
            rw [cleanSpec_cons_dict_junk es tl (fun dd₂ hdd => by rw [hlk₁] at hdd; cases hdd)]
            rw [lookup, if_neg hk]
            exact htail
          | bool bb =>
            rw [cleanSpec_cons_dict_junk es tl (fun dd₂ hdd => by rw [hlk₁] at hdd; cases hdd)]
            rw [lookup, if_neg hk]
            exact htail
          | list xs =>
            rw [cleanSpec_cons_dict_junk es tl (fun dd₂ hdd => by rw [hlk₁] at hdd; cases hdd)]
            rw [lookup, if_neg hk]
            exact htail
      | str s =>
        by_cases hlk₁ : (lookup dflt k₁).isSome = true
        · rw [cleanSpec_cons_keep (JValue.str s) tl rfl hlk₁, lookup, if_neg hk]
          exact htail
        · rw [cleanSpec_cons_drop (JValue.str s) tl rfl (by simpa using hlk₁)]
          exact htail
      | int n =>
        by_cases hlk₁ : (lookup dflt k₁).isSome = true
        · rw [cleanSpec_cons_keep (JValue.int n) tl rfl hlk₁, lookup, if_neg hk]
          exact htail
        · rw [cleanSpec_cons_drop (JValue.int n) tl rfl (by simpa using hlk₁)]
          exact htail
      | bool bb =>
        by_cases hlk₁ : (lookup dflt k₁).isSome = true
        · rw [cleanSpec_cons_keep (JValue.bool bb) tl rfl hlk₁, lookup, if_neg hk]
          exact htail
        · rw [cleanSpec_cons_drop (JValue.bool bb) tl rfl (by simpa using hlk₁)]
          exact htail
      | list xs =>
        by_cases hlk₁ : (lookup dflt k₁).isSome = true
        · rw [cleanSpec_cons_keep (JValue.list xs) tl rfl hlk₁, lookup, if_neg hk]
          exact htail
        · rw [cleanSpec_cons_drop (JValue.list xs) tl rfl (by simpa using hlk₁)]
          exact htail

/-! ### Lemmas about `dictCompat` -/

theorem dictCompat_cons_dict_parts {k : String} {dd rest u : Dict}
    (h : dictCompat ((k, .dict dd) :: rest) u = true) :
    dictCompat rest u = true
    ∧ (∀ w, lookup u k = some w → isDict w = false → False)
    ∧ (∀ ud, lookup u k = some (.dict ud) → dictCompat dd ud = true) := by
  unfold dictCompat at h
  simp only [Bool.and_eq_true] at h
  obtain ⟨h₁, h₂⟩ := h
  refine ⟨h₂, fun w hw hnd => ?_, fun ud hud => ?_⟩
  · rw [hw] at h₁
    cases w with
    | dict pd => simp [isDict] at hnd
    | str s => simp at h₁
    | int n => simp at h₁
    | bool b => simp at h₁
    | list xs => simp at h₁
  · rw [hud] at h₁
    exact h₁

theorem dictCompat_cons_nd {k : String} {v : JValue} {rest u : Dict}
    (hnd : isDict v = false) (h : dictCompat ((k, v) :: rest) u = true) :
    dictCompat rest u = true := by
  unfold dictCompat at h
  cases v with
  | dict es => simp [isDict] at hnd
  | str s => exact h
  | int n => exact h
  | bool b => exact h
  | list xs => exact h

/-- Under `dictCompat`, a dict-default key is never bound to a non-dict user
value. -/
theorem dictCompat_lookup_excl :
    ∀ (dflt u : Dict) (k : String) (dd : Dict) (w : JValue),
      dictCompat dflt u = true → lookup dflt k = some (.dict dd) →
      lookup u k = some w → isDict w = false → False := by
  intro dflt
  induction dflt with
  | nil =>
    intro u k dd w _ hdl
    simp [lookup] at hdl
  | cons hd rest ih =>
    obtain ⟨k₀, v₀⟩ := hd
    intro u k dd w hdc hdl hw hnd
    by_cases hk : k₀ = k
    · subst hk
      simp [lookup] at hdl
      subst hdl
      exact (dictCompat_cons_dict_parts hdc).2.1 w hw hnd
    · simp only [lookup, if_neg hk] at hdl
      cases v₀ with
      | dict dd₀ => exact ih u k dd w (dictCompat_cons_dict_parts hdc).1 hdl hw hnd
      | str s => exact ih u k dd w (dictCompat_cons_nd (show isDict (JValue.str s) = false from rfl) hdc) hdl hw hnd
      | int n => exact ih u k dd w (dictCompat_cons_nd (show isDict (JValue.int n) = false from rfl) hdc) hdl hw hnd
      | bool b => exact ih u k dd w (dictCompat_cons_nd (show isDict (JValue.bool b) = false from rfl) hdc) hdl hw hnd
      | list xs => exact ih u k dd w (dictCompat_cons_nd (show isDict (JValue.list xs) = false from rfl) hdc) hdl hw hnd

/-- `dictCompat` descends into matching nested dicts. -/
theorem dictCompat_lookup_dict :
    ∀ (dflt u : Dict) (k : String) (dd ud : Dict),
      dictCompat dflt u = true → lookup dflt k = some (.dict dd) →
      lookup u k = some (.dict ud) → dictCompat dd ud = true := by
  intro dflt
  induction dflt with
  | nil =>
    intro u k dd ud _ hdl
    simp [lookup] at hdl
  | cons hd rest ih =>
    obtain ⟨k₀, v₀⟩ := hd
    intro u k dd ud hdc hdl hud
    by_cases hk : k₀ = k
    · subst hk
      simp [lookup] at hdl
      subst hdl
      exact (dictCompat_cons_dict_parts hdc).2.2 ud hud
    · simp only [lookup, if_neg hk] at hdl
      cases v₀ with
      | dict dd₀ => exact ih u k dd ud (dictCompat_cons_dict_parts hdc).1 hdl hud
      | str s => exact ih u k dd ud (dictCompat_cons_nd (show isDict (JValue.str s) = false from rfl) hdc) hdl hud
      | int n => exact ih u k dd ud (dictCompat_cons_nd (show isDict (JValue.int n) = false from rfl) hdc) hdl hud
      | bool b => exact ih u k dd ud (dictCompat_cons_nd (show isDict (JValue.bool b) = false from rfl) hdc) hdl hud
      | list xs => exact ih u k dd ud (dictCompat_cons_nd (show isDict (JValue.list xs) = false from rfl) hdc) hdl hud

/-! ### Per-key behaviour of the add phase -/

/-- Behaviour of `add_new_keys` at a key whose default value is a nested
dict: a missing user key receives the whole default subtree; a dict-valued
user key is recursively merged; a non-dict user value is left unchanged
whenever the phase completes (the scalar-fallback loop never writes). -/
theorem ank_dict_key (k : String) (dd₀ : Dict) :
    ∀ (d u : Dict) (acc : Bool), wfD d = true → lookup d k = some (.dict dd₀) →
    ∀ res b, add_new_keys_aux d u acc = some (res, b) →
      (lookup u k = none → lookup res k = some (.dict dd₀))
      ∧ (∀ md, lookup u k = some (.dict md) →
          ∃ rc r₂, add_new_keys_aux dd₀ md true = some (rc, r₂)
            ∧ lookup res k = some (.dict rc))
      ∧ (∀ w, lookup u k = some w → isDict w = false → lookup res k = some w) := by
  intro d u acc
  induction d, u, acc using add_new_keys_aux.induct with
  | case1 user up =>
    intro _ hq res b h
    simp [lookup] at hq
  | case2 k₀ rest user up entries hlk ih =>
    intro hwf hq res b h
    simp only [add_new_keys_aux, hlk] at h
    by_cases hk : k₀ = k
    · subst hk
      simp [lookup] at hq
      subst hq
      have hout := add_new_keys_aux_outside _ _ _ res b k₀ h
        (by simpa [keys] using wfD_cons_key hwf)
      rw [lookup_setKey_self] at hout
      refine ⟨fun _ => hout, fun md hmd => ?_, fun w hw _ => ?_⟩
      · rw [hlk] at hmd
        cases hmd
      · rw [hlk] at hw
        cases hw
    · simp only [lookup, if_neg hk] at hq
      have hrec := ih (wfD_cons_rest hwf) hq res b h
      rw [lookup_setKey_ne _ _ _ _ hk] at hrec
      exact hrec
  | case3 k₀ rest user up entries ud hlk ud₁ r hrec ih2 ih1 =>
    intro hwf hq res b h
    simp only [add_new_keys_aux, hlk, hrec] at h
    by_cases hk : k₀ = k
    · subst hk
      simp [lookup] at hq
      subst hq
      have hout := add_new_keys_aux_outside _ _ _ res b k₀ h
        (by simpa [keys] using wfD_cons_key hwf)
      rw [lookup_setKey_self] at hout
      refine ⟨fun hnone => ?_, fun md hmd => ?_, fun w hw hws => ?_⟩
      · rw [hnone] at hlk
        cases hlk
      · rw [hlk] at hmd
        simp only [Option.some_inj, JValue.dict.injEq] at hmd
        subst hmd
        exact ⟨ud₁, r, hrec, hout⟩
      · rw [hlk] at hw
        simp only [Option.some_inj] at hw
        subst hw
        simp [isDict] at hws
    · simp only [lookup, if_neg hk] at hq
      have hres := ih1 (wfD_cons_rest hwf) hq res b h
      rw [lookup_setKey_ne _ _ _ _ hk] at hres
      exact hres
  | case4 k₀ rest user up entries ud hlk hrec ih =>
    intro hwf hq res b h
    simp only [add_new_keys_aux, hlk, hrec] at h
    simp at h
  | case5 k₀ rest user up entries w hnd hlk hsc ih =>
    intro hwf hq res b h
    rw [add_new_keys_aux_cons_sd_ok k₀ entries rest user up w (isDict_false_of w hnd) hlk hsc] at h
    by_cases hk : k₀ = k
    · subst hk
      simp [lookup] at hq
      subst hq
      have hout := add_new_keys_aux_outside _ _ _ res b k₀ h
        (by simpa [keys] using wfD_cons_key hwf)
      refine ⟨fun hnone => ?_, fun md hmd => ?_, fun w₂ hw hws => ?_⟩
      · rw [hnone] at hlk
        cases hlk
      · rw [hlk] at hmd
        simp only [Option.some_inj] at hmd
        subst hmd
        exact absurd rfl (hnd md)
      · rw [hout, hw]
    · simp only [lookup, if_neg hk] at hq
      exact ih (wfD_cons_rest hwf) hq res b h
  | case6 k₀ rest user up entries w hnd hlk hsc =>
    intro hwf hq res b h
    rw [add_new_keys_aux_cons_sd_err k₀ entries rest user up w (isDict_false_of w hnd) hlk
      (by simpa using hsc)] at h
    cases h
  | case7 k₀ v rest user up hlk hnd ih =>
    intro hwf hq res b h
    by_cases hk : k₀ = k
    · subst hk
      simp [lookup] at hq
      exact absurd hq (hnd dd₀)
    · have hred : add_new_keys_aux ((k₀, v) :: rest) user up = add_new_keys_aux rest user up := by
        cases v with
        | dict entries => exact absurd rfl (hnd entries)
        | str s => simp [add_new_keys_aux, hlk]
        | int n => simp [add_new_keys_aux, hlk]
        | bool bb => simp [add_new_keys_aux, hlk]
        | list xs => simp [add_new_keys_aux, hlk]
      rw [hred] at h
      simp only [lookup, if_neg hk] at hq
      exact ih (wfD_cons_rest hwf) hq res b h
  | case8 k₀ v rest user up hlk hnd ih =>
    intro hwf hq res b h
    by_cases hk : k₀ = k
    · subst hk
      simp [lookup] at hq
      exact absurd hq (hnd dd₀)
    · have hred : add_new_keys_aux ((k₀, v) :: rest) user up
          = add_new_keys_aux rest (setKey user k₀ v) false := by
        cases v with
        | dict entries => exact absurd rfl (hnd entries)
        | str s => simp [add_new_keys_aux, hlk]
        | int n => simp [add_new_keys_aux, hlk]
        | bool bb => simp [add_new_keys_aux, hlk]
        | list xs => simp [add_new_keys_aux, hlk]
      rw [hred] at h
      simp only [lookup, if_neg hk] at hq
      have hres := ih (wfD_cons_rest hwf) hq res b h
      rw [lookup_setKey_ne _ _ _ _ hk] at hres
      exact hres

/-- Behaviour of `add_new_keys` at a key whose default value is not a dict:
a present user value is kept, a missing one receives the default value. -/
theorem ank_scalar_key (k : String) (v₀ : JValue) (hnd₀ : isDict v₀ = false) :
    ∀ (d u : Dict) (acc : Bool), wfD d = true → lookup d k = some v₀ →
    ∀ res b, add_new_keys_aux d u acc = some (res, b) →
      ((lookup u k).isSome = true → lookup res k = lookup u k)
      ∧ (lookup u k = none → lookup res k = some v₀) := by
  intro d u acc
  induction d, u, acc using add_new_keys_aux.induct with
  | case1 user up =>
    intro _ hq res b h
    simp [lookup] at hq
  | case2 k₀ rest user up entries hlk ih =>
    intro hwf hq res b h
    simp only [add_new_keys_aux, hlk] at h
    by_cases hk : k₀ = k
    · subst hk
      simp [lookup] at hq
      subst hq
      simp [isDict] at hnd₀
    · simp only [lookup, if_neg hk] at hq
      have hrec := ih (wfD_cons_rest hwf) hq res b h
      rw [lookup_setKey_ne _ _ _ _ hk] at hrec
      exact hrec
  | case3 k₀ rest user up entries ud hlk ud₁ r hrec ih2 ih1 =>
    intro hwf hq res b h
    simp only [add_new_keys_aux, hlk, hrec] at h
    by_cases hk : k₀ = k
    · subst hk
      simp [lookup] at hq
      subst hq
      simp [isDict] at hnd₀
    · simp only [lookup, if_neg hk] at hq
      have hres := ih1 (wfD_cons_rest hwf) hq res b h
      rw [lookup_setKey_ne _ _ _ _ hk] at hres
      exact hres
  | case4 k₀ rest user up entries ud hlk hrec ih =>
    intro hwf hq res b h
    simp only [add_new_keys_aux, hlk, hrec] at h
    simp at h
  | case5 k₀ rest user up entries w hnd hlk hsc ih =>
    intro hwf hq res b h
    rw [add_new_keys_aux_cons_sd_ok k₀ entries rest user up w (isDict_false_of w hnd) hlk hsc] at h
    by_cases hk : k₀ = k
    · subst hk
      simp [lookup] at hq
      subst hq
      simp [isDict] at hnd₀
    · simp only [lookup, if_neg hk] at hq
      exact ih (wfD_cons_rest hwf) hq res b h
  | case6 k₀ rest user up entries w hnd hlk hsc =>
    intro hwf hq res b h
    rw [add_new_keys_aux_cons_sd_err k₀ entries rest user up w (isDict_false_of w hnd) hlk
      (by simpa using hsc)] at h
    cases h
  | case7 k₀ v rest user up hlk hnd ih =>
    intro hwf hq res b h
    have hred : add_new_keys_aux ((k₀, v) :: rest) user up = add_new_keys_aux rest user up := by
      cases v with
      | dict entries => exact absurd rfl (hnd entries)
      | str s => simp [add_new_keys_aux, hlk]
      | int n => simp [add_new_keys_aux, hlk]
      | bool bb => simp [add_new_keys_aux, hlk]
      | list xs => simp [add_new_keys_aux, hlk]
    rw [hred] at h
    by_cases hk : k₀ = k
    · subst hk
      have hout := add_new_keys_aux_outside _ _ _ res b k₀ h
        (by simpa [keys] using wfD_cons_key hwf)
      refine ⟨fun _ => hout, fun hnone => ?_⟩
      rw [hnone] at hlk
      simp at hlk
    · simp only [lookup, if_neg hk] at hq
      exact ih (wfD_cons_rest hwf) hq res b h
  | case8 k₀ v rest user up hlk hnd ih =>
    intro hwf hq res b h
    have hred : add_new_keys_aux ((k₀, v) :: rest) user up
        = add_new_keys_aux rest (setKey user k₀ v) false := by
      cases v with
      | dict entries => exact absurd rfl (hnd entries)
      | str s => simp [add_new_keys_aux, hlk]
      | int n => simp [add_new_keys_aux, hlk]
      | bool bb => simp [add_new_keys_aux, hlk]
      | list xs => simp [add_new_keys_aux, hlk]
    rw [hred] at h
    by_cases hk : k₀ = k
    · subst hk
      simp [lookup] at hq
      subst hq
      have hout := add_new_keys_aux_outside _ _ _ res b k₀ h
        (by simpa [keys] using wfD_cons_key hwf)
      rw [lookup_setKey_self] at hout
      refine ⟨fun hsome => ?_, fun _ => hout⟩
      rw [Option.isSome_iff_exists] at hsome
      obtain ⟨w, hw⟩ := hsome
      rw [hw] at hlk
      simp at hlk
    · simp only [lookup, if_neg hk] at hq
      have hres := ih (wfD_cons_rest hwf) hq res b h
      rw [lookup_setKey_ne _ _ _ _ hk] at hres
      exact hres

/-! ### One level of a completed reconciliation run -/

/-- Per-key summary of `res = add_new_keys dflt (cleanSpec dflt prior)` (a
completed remove phase followed by a completed add phase): a dict-default
key holds the whole default subtree (prior absent), or a recursively
reconciled subtree (prior a dict), or the untouched prior non-dict value
(the scalar-fallback path of the add phase); a scalar-default key holds the
prior value or the default; a key absent from the default is absent from the
result. -/
theorem reconcile_level (dflt prior res : Dict)
    (hwfd : wfD dflt = true) (hwfp : wfD prior = true)
    (hc : nestedCompat dflt prior = true)
    (hank : ∃ b, add_new_keys_aux dflt (cleanSpec dflt prior) true = some (res, b))
    (k : String) :
    (∀ dd, lookup dflt k = some (.dict dd) →
       (lookup prior k = none ∧ lookup res k = some (.dict dd))
       ∨ (∃ pd rc r₂, lookup prior k = some (.dict pd)
            ∧ add_new_keys_aux dd (cleanSpec dd pd) true = some (rc, r₂)
            ∧ lookup res k = some (.dict rc))
       ∨ (∃ w, lookup prior k = some w ∧ isDict w = false ∧ lookup res k = some w))
    ∧ (∀ v₀, lookup dflt k = some v₀ → isDict v₀ = false →
       (lookup prior k = none ∧ lookup res k = some v₀)
       ∨ (∃ w, lookup prior k = some w ∧ isDict w = false ∧ lookup res k = some w))
    ∧ (lookup dflt k = none → lookup res k = none) := by
  obtain ⟨b, hankb⟩ := hank
  refine ⟨?_, ?_, ?_⟩
  · intro dd hdf
    have L := ank_dict_key k dd dflt (cleanSpec dflt prior) true hwfd hdf res b hankb
    cases hp : lookup prior k with
    | none => exact Or.inl ⟨rfl, L.1 (cleanSpec_lookup_none hp)⟩
    | some w =>
      cases w with
      | dict pd =>
        obtain ⟨rc, r₂, hrec, hres⟩ := L.2.1 (cleanSpec dd pd) (cleanSpec_lookup_dict hp hdf)
        exact Or.inr (Or.inl ⟨pd, rc, r₂, rfl, hrec, hres⟩)
      | str s =>
        exact Or.inr (Or.inr ⟨.str s, rfl, rfl,
          L.2.2 _ (cleanSpec_lookup_keep hp rfl (by rw [hdf]; rfl)) rfl⟩)
      | int n =>
        exact Or.inr (Or.inr ⟨.int n, rfl, rfl,
          L.2.2 _ (cleanSpec_lookup_keep hp rfl (by rw [hdf]; rfl)) rfl⟩)
      | bool bb =>
        exact Or.inr (Or.inr ⟨.bool bb, rfl, rfl,
          L.2.2 _ (cleanSpec_lookup_keep hp rfl (by rw [hdf]; rfl)) rfl⟩)
      | list xs =>
        exact Or.inr (Or.inr ⟨.list xs, rfl, rfl,
          L.2.2 _ (cleanSpec_lookup_keep hp rfl (by rw [hdf]; rfl)) rfl⟩)
  · intro v₀ hdf hnd
    have L := ank_scalar_key k v₀ hnd dflt (cleanSpec dflt prior) true hwfd hdf res b hankb
    cases hp : lookup prior k with
    | none => exact Or.inl ⟨rfl, L.2 (cleanSpec_lookup_none hp)⟩
    | some w =>
      cases w with
      | dict pd =>
        obtain ⟨dd, hdd, _⟩ := compat_lookup_dict hc hp
        rw [hdf] at hdd
        simp only [Option.some_inj] at hdd
        rw [hdd] at hnd
        simp [isDict] at hnd
      | str s =>
        have hmid : lookup (cleanSpec dflt prior) k = some (.str s) :=
          cleanSpec_lookup_keep hp rfl (by rw [hdf]; rfl)
        have hres := L.1 (by rw [hmid]; rfl)
        rw [hmid] at hres
        exact Or.inr ⟨.str s, rfl, rfl, hres⟩
      | int n =>
        have hmid : lookup (cleanSpec dflt prior) k = some (.int n) :=
          cleanSpec_lookup_keep hp rfl (by rw [hdf]; rfl)
        have hres := L.1 (by rw [hmid]; rfl)
        rw [hmid] at hres
        exact Or.inr ⟨.int n, rfl, rfl, hres⟩
      | bool bb =>
        have hmid : lookup (cleanSpec dflt prior) k = some (.bool bb) :=
          cleanSpec_lookup_keep hp rfl (by rw [hdf]; rfl)
        have hres := L.1 (by rw [hmid]; rfl)
        rw [hmid] at hres
        exact Or.inr ⟨.bool bb, rfl, rfl, hres⟩
      | list xs =>
        have hmid : lookup (cleanSpec dflt prior) k = some (.list xs) :=
          cleanSpec_lookup_keep hp rfl (by rw [hdf]; rfl)
        have hres := L.1 (by rw [hmid]; rfl)
        rw [hmid] at hres
        exact Or.inr ⟨.list xs, rfl, rfl, hres⟩
  · intro hdf
    have hmid : lookup (cleanSpec dflt prior) k = none := by
      cases hp : lookup prior k with
      | none => exact cleanSpec_lookup_none hp
      | some w =>
        cases w with
        | dict pd =>
          obtain ⟨dd, hdd, _⟩ := compat_lookup_dict hc hp
          rw [hdf] at hdd
          cases hdd
        | str s => exact cleanSpec_lookup_drop hwfp hp rfl hdf
        | int n => exact cleanSpec_lookup_drop hwfp hp rfl hdf
        | bool bb => exact cleanSpec_lookup_drop hwfp hp rfl hdf
        | list xs => exact cleanSpec_lookup_drop hwfp hp rfl hdf
    have hout := add_new_keys_aux_outside dflt (cleanSpec dflt prior) true res b k hankb
      ((lookup_eq_none_iff dflt k).mp hdf)
    rw [hout]
    exact hmid

theorem lookupPath_cons₂ (d : Dict) (k k₂ : String) (r : List String) :
    lookupPath d (k :: k₂ :: r)
      = (match lookup d k with
         | some (.dict dd) => lookupPath dd (k₂ :: r)
         | _ => none) := rfl

/-- Path invariant of a completed reconciliation run (`res` is the add phase
applied to the cleaned prior document): every default path is present in the
result, every result path exists in the default, and every non-dict result
value is the prior value or the default value at that path. -/
theorem reconPathInv :
    ∀ (p : List String) (dflt prior res : Dict),
      wfD dflt = true → wfD prior = true → nestedCompat dflt prior = true →
      dictCompat dflt prior = true →
      (∃ b, add_new_keys_aux dflt (cleanSpec dflt prior) true = some (res, b)) →
      ((lookupPath dflt p).isSome = true → (lookupPath res p).isSome = true)
      ∧ ((lookupPath res p).isSome = true → (lookupPath dflt p).isSome = true)
      ∧ (∀ v, lookupPath res p = some v → isDict v = false →
          lookupPath prior p = some v ∨ lookupPath dflt p = some v) := by
  intro p
  induction p with
  | nil =>
    intro dflt prior res _ _ _ _ _
    refine ⟨fun _ => rfl, fun _ => rfl, fun v hv hnd => ?_⟩
    simp only [lookupPath, Option.some_inj] at hv
    rw [← hv] at hnd
    simp [isDict] at hnd
  | cons k rest ih =>
    intro dflt prior res hwfd hwfp hc hdcp hank
    have LV := reconcile_level dflt prior res hwfd hwfp hc hank k
    cases rest with
    | nil =>
      show ((lookup dflt k).isSome = true → (lookup res k).isSome = true)
        ∧ ((lookup res k).isSome = true → (lookup dflt k).isSome = true)
        ∧ (∀ v, lookup res k = some v → isDict v = false →
            lookup prior k = some v ∨ lookup dflt k = some v)
      cases hdf : lookup dflt k with
      | some w =>
        cases w with
        | dict dd =>
          rcases LV.1 dd hdf with ⟨hp, hres⟩ | ⟨pd, rc, r₂, hp, hrec, hres⟩ | ⟨w₂, hp, hw₂, hres⟩
          · refine ⟨fun _ => by rw [hres]; rfl, fun _ => rfl, fun v hv hnd => ?_⟩
            rw [hres] at hv
            simp only [Option.some_inj] at hv
            rw [← hv] at hnd
            simp [isDict] at hnd
          · refine ⟨fun _ => by rw [hres]; rfl, fun _ => rfl, fun v hv hnd => ?_⟩
            rw [hres] at hv
            simp only [Option.some_inj] at hv
            rw [← hv] at hnd
            simp [isDict] at hnd
          · exact (dictCompat_lookup_excl dflt prior k dd w₂ hdcp hdf hp hw₂).elim
        | str s =>
          rcases LV.2.1 (.str s) hdf rfl with ⟨hp, hres⟩ | ⟨w, hp, hw, hres⟩
          · refine ⟨fun _ => by rw [hres]; rfl, fun _ => rfl, fun v hv _ => ?_⟩
            rw [hres] at hv
            simp only [Option.some_inj] at hv
            exact Or.inr (by rw [hv])
          · refine ⟨fun _ => by rw [hres]; rfl, fun _ => rfl, fun v hv _ => ?_⟩
            rw [hres] at hv
            simp only [Option.some_inj] at hv
            exact Or.inl (by rw [hp, hv])
        | int n =>
          rcases LV.2.1 (.int n) hdf rfl with ⟨hp, hres⟩ | ⟨w, hp, hw, hres⟩
          · refine ⟨fun _ => by rw [hres]; rfl, fun _ => rfl, fun v hv _ => ?_⟩
            rw [hres] at hv
            simp only [Option.some_inj] at hv
            exact Or.inr (by rw [hv])
          · refine ⟨fun _ => by rw [hres]; rfl, fun _ => rfl, fun v hv _ => ?_⟩
            rw [hres] at hv
            simp only [Option.some_inj] at hv
            exact Or.inl (by rw [hp, hv])
        | bool bb =>
          rcases LV.2.1 (.bool bb) hdf rfl with ⟨hp, hres⟩ | ⟨w, hp, hw, hres⟩
          · refine ⟨fun _ => by rw [hres]; rfl, fun _ => rfl, fun v hv _ => ?_⟩
            rw [hres] at hv
            simp only [Option.some_inj] at hv
            exact Or.inr (by rw [hv])
          · refine ⟨fun _ => by rw [hres]; rfl, fun _ => rfl, fun v hv _ => ?_⟩
            rw [hres] at hv
            simp only [Option.some_inj] at hv
            exact Or.inl (by rw [hp, hv])
        | list xs =>
          rcases LV.2.1 (.list xs) hdf rfl with ⟨hp, hres⟩ | ⟨w, hp, hw, hres⟩
          · refine ⟨fun _ => by rw [hres]; rfl, fun _ => rfl, fun v hv _ => ?_⟩
            rw [hres] at hv
            simp only [Option.some_inj] at hv
            exact Or.inr (by rw [hv])
          · refine ⟨fun _ => by rw [hres]; rfl, fun _ => rfl, fun v hv _ => ?_⟩
            rw [hres] at hv
            simp only [Option.some_inj] at hv
            exact Or.inl (by rw [hp, hv])
      | none =>
        have hres := LV.2.2 hdf
        exact ⟨fun hs => by simp at hs,
               fun hs => by rw [hres] at hs; simp at hs,
               fun v hv _ => by rw [hres] at hv; cases hv⟩
    | cons k₂ rest₂ =>
      cases hdf : lookup dflt k with
      | some w =>
        cases w with
        | dict dd =>
          have e₂ : lookupPath dflt (k :: k₂ :: rest₂) = lookupPath dd (k₂ :: rest₂) := by
            rw [lookupPath_cons₂, hdf]
          rcases LV.1 dd hdf with ⟨hp, hres⟩ | ⟨pd, rc, r₂, hp, hrec, hres⟩ | ⟨w₂, hp, hw₂, hres⟩
          · have e₁ : lookupPath res (k :: k₂ :: rest₂) = lookupPath dd (k₂ :: rest₂) := by
              rw [lookupPath_cons₂, hres]
            refine ⟨?_, ?_, ?_⟩
            · rw [e₁, e₂]
              exact id
            · rw [e₁, e₂]
              exact id
            · intro v hv _
              rw [e₁] at hv
              rw [e₂]
              exact Or.inr hv
          · have e₁ : lookupPath res (k :: k₂ :: rest₂) = lookupPath rc (k₂ :: rest₂) := by
              rw [lookupPath_cons₂, hres]
            have e₃ : lookupPath prior (k :: k₂ :: rest₂) = lookupPath pd (k₂ :: rest₂) := by
              rw [lookupPath_cons₂, hp]
            have hc₂ : nestedCompat dd pd = true := by
              obtain ⟨dd₂, hdd₂, hcc⟩ := compat_lookup_dict hc hp
              rw [hdf] at hdd₂
              simp only [Option.some_inj, JValue.dict.injEq] at hdd₂
              rw [hdd₂]
              exact hcc
            have IH := ih dd pd rc (wf_lookup_dict hwfd hdf) (wf_lookup_dict hwfp hp)
              hc₂ (dictCompat_lookup_dict dflt prior k dd pd hdcp hdf hp) ⟨r₂, hrec⟩
            refine ⟨?_, ?_, ?_⟩
            · rw [e₁, e₂]
              exact IH.1
            · rw [e₁, e₂]
              exact IH.2.1
            · intro v hv hnd
              rw [e₁] at hv
              rw [e₂, e₃]
              exact IH.2.2 v hv hnd
          · exact (dictCompat_lookup_excl dflt prior k dd w₂ hdcp hdf hp hw₂).elim
        | str s =>
          have e₂ : lookupPath dflt (k :: k₂ :: rest₂) = none := by
            rw [lookupPath_cons₂, hdf]
          have e₁ : lookupPath res (k :: k₂ :: rest₂) = none := by
            rcases LV.2.1 (.str s) hdf rfl with ⟨hp, hres⟩ | ⟨w, hp, hw, hres⟩
            · rw [lookupPath_cons₂, hres]
            · rw [lookupPath_cons₂, hres]
              cases w with
              | dict pd => simp [isDict] at hw
              | str s₂ => rfl
              | int n => rfl
              | bool bb => rfl
              | list xs => rfl
          exact ⟨fun hs => by rw [e₂] at hs; simp at hs,
                 fun hs => by rw [e₁] at hs; simp at hs,
                 fun v hv _ => by rw [e₁] at hv; cases hv⟩
        | int n =>
          have e₂ : lookupPath dflt (k :: k₂ :: rest₂) = none := by
            rw [lookupPath_cons₂, hdf]
          have e₁ : lookupPath res (k :: k₂ :: rest₂) = none := by
            rcases LV.2.1 (.int n) hdf rfl with ⟨hp, hres⟩ | ⟨w, hp, hw, hres⟩
            · rw [lookupPath_cons₂, hres]
            · rw [lookupPath_cons₂, hres]
              cases w with
              | dict pd => simp [isDict] at hw
              | str s₂ => rfl
              | int n₂ => rfl
              | bool bb => rfl
              | list xs => rfl
          exact ⟨fun hs => by rw [e₂] at hs; simp at hs,
                 fun hs => by rw [e₁] at hs; simp at hs,
                 fun v hv _ => by rw [e₁] at hv; cases hv⟩
        | bool bb =>
          have e₂ : lookupPath dflt (k :: k₂ :: rest₂) = none := by
            rw [lookupPath_cons₂, hdf]
          have e₁ : lookupPath res (k :: k₂ :: rest₂) = none := by
            rcases LV.2.1 (.bool bb) hdf rfl with ⟨hp, hres⟩ | ⟨w, hp, hw, hres⟩
            · rw [lookupPath_cons₂, hres]
            · rw [lookupPath_cons₂, hres]
              cases w with
              | dict pd => simp [isDict] at hw
              | str s₂ => rfl
              | int n₂ => rfl
              | bool bb₂ => rfl
              | list xs => rfl
          exact ⟨fun hs => by rw [e₂] at hs; simp at hs,
                 fun hs => by rw [e₁] at hs; simp at hs,
                 fun v hv _ => by rw [e₁] at hv; cases hv⟩
        | list xs =>
          have e₂ : lookupPath dflt (k :: k₂ :: rest₂) = none := by
            rw [lookupPath_cons₂, hdf]
          have e₁ : lookupPath res (k :: k₂ :: rest₂) = none := by
            rcases LV.2.1 (.list xs) hdf rfl with ⟨hp, hres⟩ | ⟨w, hp, hw, hres⟩
            · rw [lookupPath_cons₂, hres]
            · rw [lookupPath_cons₂, hres]
              cases w with
              | dict pd => simp [isDict] at hw
              | str s₂ => rfl
              | int n₂ => rfl
              | bool bb₂ => rfl
              | list xs₂ => rfl
          exact ⟨fun hs => by rw [e₂] at hs; simp at hs,
                 fun hs => by rw [e₁] at hs; simp at hs,
                 fun v hv _ => by rw [e₁] at hv; cases hv⟩
      | none =>
        have hres := LV.2.2 hdf
        have e₂ : lookupPath dflt (k :: k₂ :: rest₂) = none := by
          rw [lookupPath_cons₂, hdf]
        have e₁ : lookupPath res (k :: k₂ :: rest₂) = none := by
          rw [lookupPath_cons₂, hres]
        exact ⟨fun hs => by rw [e₂] at hs; simp at hs,
               fun hs => by rw [e₁] at hs; simp at hs,
               fun v hv _ => by rw [e₁] at hv; cases hv⟩

/-! ### The add-phase flag: a `false` result means a real addition -/

/-- If the add phase returns the document unchanged, the `up_to_date` flag
it returns is `true` (or the accumulator it started from).  Contrapositive:
a reported `up_to_date = false` implies the document really changed. -/
theorem add_new_keys_aux_unchanged_flag (d u : Dict) (acc : Bool) :
    wfD d = true → wfD u = true →
    ∀ u₁ b, add_new_keys_aux d u acc = some (u₁, b) → u₁ = u →
      b = acc ∨ b = true := by
  induction d, u, acc using add_new_keys_aux.induct with
  | case1 user up =>
    intro _ _ u₁ b h _
    simp only [add_new_keys_aux, Option.some_inj, Prod.mk.injEq] at h
    exact Or.inl h.2.symm
  | case2 k₀ rest user up entries hlk ih =>
    intro hd hu u₁ b h heq
    simp only [add_new_keys_aux, hlk] at h
    have hout := add_new_keys_aux_outside _ _ _ u₁ b k₀ h
      (by simpa [keys] using wfD_cons_key hd)
    rw [heq, lookup_setKey_self] at hout
    rw [hout] at hlk
    simp at hlk
  | case3 k₀ rest user up entries ud hlk ud₁ r hrec ih2 ih1 =>
    intro hd hu u₁ b h heq
    simp only [add_new_keys_aux, hlk, hrec] at h
    have hout := add_new_keys_aux_outside _ _ _ u₁ b k₀ h
      (by simpa [keys] using wfD_cons_key hd)
    rw [heq, hlk, lookup_setKey_self] at hout
    have hud : ud₁ = ud := by
      have h₂ := hout.symm
      simp only [Option.some_inj, JValue.dict.injEq] at h₂
      exact h₂
    subst hud
    have hset : setKey user k₀ (JValue.dict ud₁) = user := setKey_self_of_lookup hlk
    rw [hset] at ih1 h
    have hr : r = true := by
      rcases ih2 (wfD_cons_val_dict hd) (wf_lookup_dict hu hlk) ud₁ r hrec rfl with h₁ | h₁ <;>
        exact h₁
    subst hr
    rcases ih1 (wfD_cons_rest hd) hu u₁ b h heq with h₁ | h₁ <;> exact Or.inr h₁
  | case4 k₀ rest user up entries ud hlk hrec ih =>
    intro _ _ u₁ b h _
    simp only [add_new_keys_aux, hlk, hrec] at h
    simp at h
  | case5 k₀ rest user up entries w hnd hlk hsc ih =>
    intro hd hu u₁ b h heq
    rw [add_new_keys_aux_cons_sd_ok k₀ entries rest user up w (isDict_false_of w hnd) hlk hsc] at h
    rcases ih (wfD_cons_rest hd) hu u₁ b h heq with h₁ | h₁ <;> exact Or.inr h₁
  | case6 k₀ rest user up entries w hnd hlk hsc =>
    intro _ _ u₁ b h _
    rw [add_new_keys_aux_cons_sd_err k₀ entries rest user up w (isDict_false_of w hnd) hlk
      (by simpa using hsc)] at h
    cases h
  | case7 k₀ v rest user up hlk hnd ih =>
    intro hd hu u₁ b h heq
    have hred : add_new_keys_aux ((k₀, v) :: rest) user up = add_new_keys_aux rest user up := by
      cases v with
      | dict entries => exact absurd rfl (hnd entries)
      | str s => simp [add_new_keys_aux, hlk]
      | int n => simp [add_new_keys_aux, hlk]
      | bool bb => simp [add_new_keys_aux, hlk]
      | list xs => simp [add_new_keys_aux, hlk]
    rw [hred] at h
    exact ih (wfD_cons_rest hd) hu u₁ b h heq
  | case8 k₀ v rest user up hlk hnd ih =>
    intro hd hu u₁ b h heq
    have hred : add_new_keys_aux ((k₀, v) :: rest) user up
        = add_new_keys_aux rest (setKey user k₀ v) false := by
      cases v with
      | dict entries => exact absurd rfl (hnd entries)
      | str s => simp [add_new_keys_aux, hlk]
      | int n => simp [add_new_keys_aux, hlk]
      | bool bb => simp [add_new_keys_aux, hlk]
      | list xs => simp [add_new_keys_aux, hlk]
    rw [hred] at h
    have hout := add_new_keys_aux_outside _ _ _ u₁ b k₀ h
      (by simpa [keys] using wfD_cons_key hd)
    rw [heq, lookup_setKey_self] at hout
    rw [hout] at hlk
    simp at hlk

/-- One unfolding step of `add_new_keys_aux` at a non-dict default value. -/
theorem add_new_keys_aux_cons_scalar (k : String) (v : JValue) (hnd : isDict v = false)
    (rest user : Dict) (up : Bool) :
    add_new_keys_aux ((k, v) :: rest) user up
      = if (lookup user k).isSome then add_new_keys_aux rest user up
        else add_new_keys_aux rest (setKey user k v) false := by
  cases v with
  | dict es => simp [isDict] at hnd
  | str s => simp [add_new_keys_aux]
  | int n => simp [add_new_keys_aux]
  | bool b => simp [add_new_keys_aux]
  | list xs => simp [add_new_keys_aux]

/-! ## Claim C6 — the one-shot migration step -/

/-- **C6**: the migration step fires iff `config_version` is absent from the
document root; when it fires, the nested `bot` grouping afterwards holds the
legacy top-level values (`api_key` as the token, the `whitelisted_users`
list unchanged, the two boolean flags with their defaults applied when
missing); `config_check` feeds the migrated document into
`remove_deprecated`/`add_new_keys` (so migration runs first), and the third
component of its result is exactly the migration flag. -/
theorem claim_C6 (c : Dict) :
    ((special_update_check c).2 = true ↔ lookup c "config_version" = none)
    ∧ (lookup c "config_version" = none →
        lookup (special_update_check c).1 "bot" = some (.dict
          [("token", getD c "api_key" (.str "")),
           ("whitelisted_users", getD c "whitelisted_users" (.list [])),
           ("state_notifications", getD c "state_notifications" (.bool true)),
           ("enable_file_transfer", getD c "enable_file_transfer" (.bool true))]))
    ∧ (∀ d a b m, config_check c = some (d, (a, b, m)) → m = (special_update_check c).2)
    ∧ config_check c
        = (match remove_deprecated DEF_CFG (special_update_check c).1 with
           | none => none
           | some q =>
             match add_new_keys DEF_CFG q.1 with
             | none => none
             | some r => some (r.1, (r.2, q.2, (special_update_check c).2))) := by
  refine ⟨?_, ?_, ?_, ?_⟩
  · by_cases h : lookup c "config_version" = none <;>
      simp [special_update_check, h, Option.isNone_iff_eq_none]
  · intro h
    simp only [special_update_check, h, Option.isNone_none, if_true]
    exact lookup_setKey_self c "bot" _
  · intro d a b m h
    simp only [config_check, reconcileWith] at h
    rcases hrd : remove_deprecated DEF_CFG (special_update_check c).1 with _ | ⟨c₂, ad⟩
    · rw [hrd] at h
      simp at h
    · rw [hrd] at h
      dsimp only at h
      rcases hank : add_new_keys DEF_CFG c₂ with _ | ⟨c₃, an⟩
      · rw [hank] at h
        simp at h
      · rw [hank] at h
        simp only [Option.some_inj, Prod.mk.injEq] at h
        exact h.2.2.2.symm
  · simp only [config_check, reconcileWith]
    rcases hrd : remove_deprecated DEF_CFG (special_update_check c).1 with _ | ⟨c₂, ad⟩
    · simp
    · rcases hank : add_new_keys DEF_CFG c₂ with _ | ⟨c₃, an⟩ <;> simp [hank]

/-- Witness for C6 on a concrete legacy document: the flat `api_key` and
`whitelisted_users` values reappear inside the new `bot` grouping, with
defaults for the two missing boolean flags. -/
theorem claim_C6_witness :
    lookup [("api_key", JValue.str "tok"), ("whitelisted_users", .list [.int 7])]
        "config_version" = none
    ∧ lookup (special_update_check
          [("api_key", JValue.str "tok"), ("whitelisted_users", .list [.int 7])]).1 "bot"
        = some (.dict
            [("token", .str "tok"),
             ("whitelisted_users", .list [.int 7]),
             ("state_notifications", .bool true),
             ("enable_file_transfer", .bool true)]) := by
  constructor
  · rfl
  · exact ((claim_C6 [("api_key", JValue.str "tok"),
      ("whitelisted_users", .list [.int 7])]).2.1 rfl).trans rfl

/-! ## Claim C10 — the migration step never inserts the marker itself -/

/-- Core of C10: whatever document the add phase starts from, after it
completes the root carries `config_version`, and when the key was absent it
now carries the `DEF_CFG` value `2`. -/
theorem add_new_keys_version_marker (c₂ : Dict) (u₁ : Dict) (b : Bool)
    (h : add_new_keys_aux DEF_CFG c₂ true = some (u₁, b)) :
    (lookup c₂ "config_version" = none → lookup u₁ "config_version" = some (.int 2))
    ∧ (lookup u₁ "config_version").isSome = true := by
  rw [show (DEF_CFG : Dict) = ("config_version", JValue.int 2) ::
      [("log_files_max", JValue.int 30),
       ("bot", JValue.dict
         [("token", .str ""), ("whitelisted_users", .list []),
          ("state_notifications", .bool true), ("enable_file_transfer", .bool true)]),
       ("systemd_service", JValue.dict [("version", .int (-1))])] from rfl,
    add_new_keys_aux_cons_scalar "config_version" (JValue.int 2) rfl] at h
  by_cases hcv : (lookup c₂ "config_version").isSome
  · rw [if_pos hcv] at h
    have hout := add_new_keys_aux_outside _ _ _ u₁ b "config_version" h (by decide)
    refine ⟨fun hnone => ?_, ?_⟩
    · rw [hnone] at hcv
      simp at hcv
    · rw [hout]
      exact hcv
  · rw [if_neg hcv] at h
    have hout := add_new_keys_aux_outside _ _ _ u₁ b "config_version" h (by decide)
    rw [hout, lookup_setKey_self]
    exact ⟨fun _ => rfl, rfl⟩

/-- **C10**: `special_update_check` never inserts the `config_version`
marker itself — after it runs on a legacy document the marker is still
absent — yet every document produced by a completed `config_check` carries
the marker, and on legacy documents its value is the `DEF_CFG` value `2`,
copied in by the generic add phase. -/
theorem claim_C10 (c : Dict) :
    (lookup c "config_version" = none →
      lookup (special_update_check c).1 "config_version" = none)
    ∧ (∀ d flags, config_check c = some (d, flags) → (lookup d "config_version").isSome = true)
    ∧ (∀ d flags, lookup c "config_version" = none → config_check c = some (d, flags) →
        lookup d "config_version" = some (.int 2)) := by
  have hspec : lookup c "config_version" = none →
      lookup (special_update_check c).1 "config_version" = none := by
    intro h
    simp only [special_update_check, h, Option.isNone_none, if_true]
    rw [lookup_setKey_ne _ _ _ _ (by decide)]
    exact h
  refine ⟨hspec, ?_, ?_⟩
  · intro d flags h
    simp only [config_check, reconcileWith] at h
    rcases hrd : remove_deprecated DEF_CFG (special_update_check c).1 with _ | ⟨c₂, ad⟩
    · rw [hrd] at h
      simp at h
    · rw [hrd] at h
      dsimp only at h
      rcases hank : add_new_keys DEF_CFG c₂ with _ | ⟨c₃, an⟩
      · rw [hank] at h
        simp at h
      · rw [hank] at h
        simp only [Option.some_inj, Prod.mk.injEq] at h
        rw [← h.1]
        exact (add_new_keys_version_marker c₂ c₃ an hank).2
  · intro d flags hcv h
    simp only [config_check, reconcileWith] at h
    rcases hrd : remove_deprecated DEF_CFG (special_update_check c).1 with _ | ⟨c₂, ad⟩
    · rw [hrd] at h
      simp at h
    · rw [hrd] at h
      dsimp only at h
      rcases hank : add_new_keys DEF_CFG c₂ with _ | ⟨c₃, an⟩
      · rw [hank] at h
        simp at h
      · rw [hank] at h
        simp only [Option.some_inj, Prod.mk.injEq] at h
        have hp := hspec hcv
        have hc₂ : lookup c₂ "config_version" = none := by
          have := remove_deprecated_aux_outside DEF_CFG (special_update_check c).1
            (special_update_check c).1 false c₂ ad "config_version" hrd
            ((lookup_eq_none_iff _ _).mp hp)
          rw [this]
          exact hp
        rw [← h.1]
        exact (add_new_keys_version_marker c₂ c₃ an hank).1 hc₂

/-- Witness for C10: a completed `config_check` on the empty legacy document
yields a document carrying `config_version = 2`. -/
theorem claim_C10_witness :
    config_check []
      = some ([("bot", .dict
                 [("token", .str ""), ("whitelisted_users", .list []),
                  ("state_notifications", .bool true), ("enable_file_transfer", .bool true)]),
               ("config_version", .int 2), ("log_files_max", .int 30),
               ("systemd_service", .dict [("version", .int (-1))])], (false, false, true))
    ∧ lookup [("bot", JValue.dict
                 [("token", .str ""), ("whitelisted_users", .list []),
                  ("state_notifications", .bool true), ("enable_file_transfer", .bool true)]),
               ("config_version", .int 2), ("log_files_max", .int 30),
               ("systemd_service", .dict [("version", .int (-1))])] "config_version"
        = some (.int 2) := by
  have hcc : config_check []
      = some ([("bot", .dict
                 [("token", .str ""), ("whitelisted_users", .list []),
                  ("state_notifications", .bool true), ("enable_file_transfer", .bool true)]),
               ("config_version", .int 2), ("log_files_max", .int 30),
               ("systemd_service", .dict [("version", .int (-1))])], (false, false, true)) :=
    config_check_eval _ _ _ _ (Nat.lt_succ_self _) (Nat.lt_succ_self _) rfl
  exact ⟨hcc, (claim_C10 []).2.2 _ (false, false, true) rfl hcc⟩

/-! ## Claim C1 — the reconciliation invariant and the spec example -/

/-- **C1 counterexample**: on the spec's example pair the result does *not*
deep-equal the document stated in the spec.  Because the example user
document lacks `config_version`, the one-shot migration fires first and
rebinds `bot` from the legacy top-level keys (absent here), so the user's
`token = "abc"` and `list = [1, 2]` are lost: the reconciled document has
`bot.token = ""` (the spec claims `"abc"`) and `bot.list = []` (the spec
claims `[1, 2]`). -/
theorem claim_C1_cx :
    reconcileWith
        [("v", .int 2), ("bot", .dict [("token", .str ""), ("list", .list [])])]
        [("bot", .dict [("token", .str "abc"), ("list", .list [.int 1, .int 2]),
          ("old", .str "x")])]
      = some ([("bot", .dict [("token", .str ""), ("list", .list [])]), ("v", .int 2)],
          (false, true, true))
    ∧ lookupPath [("bot", .dict [("token", .str ""), ("list", .list [])]), ("v", .int 2)]
        ["bot", "token"] = some (.str "")
    ∧ some (JValue.str "") ≠ some (JValue.str "abc") := by
  refine ⟨reconcileWith_eval _ _ _ _ _ (Nat.lt_succ_self _) (Nat.lt_succ_self _) rfl, rfl, ?_⟩
  intro h
  rw [Option.some_inj] at h
  injection h with h₂
  exact absurd h₂ (by decide)

/-- **C1 (amended)**: for well-formed documents that already carry the
`config_version` marker (so the one-shot migration does not fire) and are
type-compatible with the schema in both directions (`nestedCompat`: every
nested user sub-document has a dict default; `dictCompat`: every dict
default present in the user document is a dict there — ruling out the
scalar-fallback loops, which complete via Python `in`-tests on `str`/`list`
values without adding the missing keys), whenever
`config_check`/`reconcileWith` completes the claimed invariant holds at
every path: every key present in the default schema at every depth is
present in the result, every key of the result exists in the default schema
at the same path (extras removed), and every non-dict result value is the
user's prior value or the default value.  On the spec's example pair the
migration fires and the stated output is wrong (see the counterexample). -/
theorem claim_C1 (dflt user res : Dict) (flags : Bool × Bool × Bool)
    (hwfd : wfD dflt = true) (hwfu : wfD user = true)
    (hmk : (lookup user "config_version").isSome = true)
    (hc : nestedCompat dflt user = true) (hdc : dictCompat dflt user = true)
    (hrun : reconcileWith dflt user = some (res, flags)) (p : List String) :
    ((lookupPath dflt p).isSome = true → (lookupPath res p).isSome = true)
    ∧ ((lookupPath res p).isSome = true → (lookupPath dflt p).isSome = true)
    ∧ (∀ v, lookupPath res p = some v → isDict v = false →
        lookupPath user p = some v ∨ lookupPath dflt p = some v) := by
  have hsp : special_update_check user = (user, false) := by
    cases h : lookup user "config_version" with
    | none => rw [h] at hmk; simp at hmk
    | some w => simp [special_update_check, h]
  simp only [reconcileWith, hsp] at hrun
  rcases hrd : remove_deprecated dflt user with _ | ⟨mid, b₁⟩
  · rw [hrd] at hrun
    simp at hrun
  · rw [hrd] at hrun
    dsimp only at hrun
    rcases hank : add_new_keys dflt mid with _ | ⟨res₂, b₂⟩
    · rw [hank] at hrun
      simp at hrun
    · rw [hank] at hrun
      simp only [Option.some_inj, Prod.mk.injEq] at hrun
      have hres₂ : res₂ = res := hrun.1
      subst hres₂
      obtain ⟨b₃, hclean⟩ :=
        remove_deprecated_aux_clean dflt user user false [] rfl hwfu hc
      have hmid : mid = cleanSpec dflt user := by
        rw [show remove_deprecated dflt user
            = remove_deprecated_aux dflt user user false from rfl] at hrd
        rw [hrd] at hclean
        simp only [List.nil_append, Option.some_inj, Prod.mk.injEq] at hclean
        exact hclean.1
      refine reconPathInv p dflt user _ hwfd hwfu hc hdc ⟨b₂, ?_⟩
      rw [← hmid]
      exact hank

/-- Witness for the amended C1: reconciling the canonical fully-populated
document is the identity, and e.g. the default path `bot.token` is present
in the result. -/
theorem claim_C1_witness :
    wfD DEF_CFG = true
    ∧ wfD [("config_version", JValue.int 2), ("log_files_max", .int 30),
        ("bot", .dict [("token", .str ""), ("whitelisted_users", .list []),
          ("state_notifications", .bool true), ("enable_file_transfer", .bool true)]),
        ("systemd_service", .dict [("version", .int (-1))])] = true
    ∧ nestedCompat DEF_CFG [("config_version", JValue.int 2), ("log_files_max", .int 30),
        ("bot", .dict [("token", .str ""), ("whitelisted_users", .list []),
          ("state_notifications", .bool true), ("enable_file_transfer", .bool true)]),
        ("systemd_service", .dict [("version", .int (-1))])] = true
    ∧ dictCompat DEF_CFG [("config_version", JValue.int 2), ("log_files_max", .int 30),
        ("bot", .dict [("token", .str ""), ("whitelisted_users", .list []),
          ("state_notifications", .bool true), ("enable_file_transfer", .bool true)]),
        ("systemd_service", .dict [("version", .int (-1))])] = true
    ∧ (lookup [("config_version", JValue.int 2), ("log_files_max", .int 30),
        ("bot", .dict [("token", .str ""), ("whitelisted_users", .list []),
          ("state_notifications", .bool true), ("enable_file_transfer", .bool true)]),
        ("systemd_service", .dict [("version", .int (-1))])] "config_version").isSome = true
    ∧ reconcileWith DEF_CFG
        [("config_version", JValue.int 2), ("log_files_max", .int 30),
         ("bot", .dict [("token", .str ""), ("whitelisted_users", .list []),
           ("state_notifications", .bool true), ("enable_file_transfer", .bool true)]),
         ("systemd_service", .dict [("version", .int (-1))])]
      = some ([("config_version", JValue.int 2), ("log_files_max", .int 30),
         ("bot", .dict [("token", .str ""), ("whitelisted_users", .list []),
           ("state_notifications", .bool true), ("enable_file_transfer", .bool true)]),
         ("systemd_service", .dict [("version", .int (-1))])], (true, false, false))
    ∧ ((lookupPath DEF_CFG ["bot", "token"]).isSome = true →
        (lookupPath [("config_version", JValue.int 2), ("log_files_max", .int 30),
          ("bot", .dict [("token", .str ""), ("whitelisted_users", .list []),
            ("state_notifications", .bool true), ("enable_file_transfer", .bool true)]),
          ("systemd_service", .dict [("version", .int (-1))])]
          ["bot", "token"]).isSome = true) := by
  have h₁ : wfD DEF_CFG = true := wfD_eval _ _ _ (Nat.lt_succ_self _) rfl
  have h₂ : wfD [("config_version", JValue.int 2), ("log_files_max", .int 30),
      ("bot", .dict [("token", .str ""), ("whitelisted_users", .list []),
        ("state_notifications", .bool true), ("enable_file_transfer", .bool true)]),
      ("systemd_service", .dict [("version", .int (-1))])] = true :=
    wfD_eval _ _ _ (Nat.lt_succ_self _) rfl
  have hcw : nestedCompat DEF_CFG
      [("config_version", JValue.int 2), ("log_files_max", .int 30),
       ("bot", .dict [("token", .str ""), ("whitelisted_users", .list []),
         ("state_notifications", .bool true), ("enable_file_transfer", .bool true)]),
       ("systemd_service", .dict [("version", .int (-1))])] = true :=
    nestedCompat_eval _ _ _ _ (Nat.lt_succ_self _) rfl
  have hdcw : dictCompat DEF_CFG
      [("config_version", JValue.int 2), ("log_files_max", .int 30),
       ("bot", .dict [("token", .str ""), ("whitelisted_users", .list []),
         ("state_notifications", .bool true), ("enable_file_transfer", .bool true)]),
       ("systemd_service", .dict [("version", .int (-1))])] = true :=
    dictCompat_eval _ _ _ _ (Nat.lt_succ_self _) rfl
  have h₄ : reconcileWith DEF_CFG
      [("config_version", JValue.int 2), ("log_files_max", .int 30),
       ("bot", .dict [("token", .str ""), ("whitelisted_users", .list []),
         ("state_notifications", .bool true), ("enable_file_transfer", .bool true)]),
       ("systemd_service", .dict [("version", .int (-1))])]
      = some ([("config_version", JValue.int 2), ("log_files_max", .int 30),
       ("bot", .dict [("token", .str ""), ("whitelisted_users", .list []),
         ("state_notifications", .bool true), ("enable_file_transfer", .bool true)]),
       ("systemd_service", .dict [("version", .int (-1))])], (true, false, false)) :=
    reconcileWith_eval _ _ _ _ _ (Nat.lt_succ_self _) (Nat.lt_succ_self _) rfl
  exact ⟨h₁, h₂, hcw, hdcw, rfl, h₄,
    (claim_C1 DEF_CFG _ _ (true, false, false) h₁ h₂ rfl hcw hdcw h₄ ["bot", "token"]).1⟩

/-! ## Claim C2 — the remove phase can fail -/

/-- **C2 counterexample**: the remove phase does *not* always complete: on a
user document with an extra nested sub-document (`junk`) absent from
`DEF_CFG`, the recursion evaluates `default_config["junk"]`, which raises
`KeyError` (modelled as `none`).  The spec reasoning that "phase 1 already
created it" is wrong: the add phase creates missing keys in the *user*
document, never in the default, and in the source the remove phase even runs
first. -/
theorem claim_C2_cx :
    remove_deprecated DEF_CFG
      [("config_version", JValue.int 2), ("junk", .dict [("a", .int 1)])] = none :=
  remove_deprecated_eval _ _ _ _ (Nat.lt_succ_self _) rfl

/-- **C2 (amended)**: the remove phase completes whenever every nested
sub-document of the user document has a dict-valued counterpart in the
default schema (`nestedCompat`); the claimed guarantee that the lookup never
fails is wrong in general (see the counterexample).  When it completes on a
well-formed document, the result is exactly `cleanSpec`: every extra non-dict
key is removed, every matching non-dict key is untouched, no key is added,
and every nested user sub-document recurses through the `default[k]` subtree
— which `nestedCompat` guarantees to exist — and comes back recursively
cleaned against it.  (The returned `removedAny` flag may still under-report
removals — it is the last-assigned value, not an OR.) -/
theorem claim_C2 (dflt u : Dict) (hwf : wfD u = true) (hc : nestedCompat dflt u = true) :
    (∃ b, remove_deprecated dflt u = some (cleanSpec dflt u, b))
    ∧ (∀ k v, lookup u k = some v → isDict v = false → (lookup dflt k).isSome = true →
        lookup (cleanSpec dflt u) k = some v)
    ∧ (∀ k v, lookup u k = some v → isDict v = false → lookup dflt k = none →
        lookup (cleanSpec dflt u) k = none)
    ∧ (∀ k, lookup u k = none → lookup (cleanSpec dflt u) k = none)
    ∧ (∀ k vd, lookup u k = some (.dict vd) →
        ∃ dd, lookup dflt k = some (.dict dd)
          ∧ lookup (cleanSpec dflt u) k = some (.dict (cleanSpec dd vd))) := by
  refine ⟨?_, ?_, ?_, ?_, ?_⟩
  · obtain ⟨b, hb⟩ := remove_deprecated_aux_clean dflt u u false [] rfl hwf hc
    exact ⟨b, by simpa [remove_deprecated] using hb⟩
  · intro k v h hnd hlk
    exact cleanSpec_lookup_keep h hnd hlk
  · intro k v h hnd hlk
    exact cleanSpec_lookup_drop hwf h hnd hlk
  · intro k h
    exact cleanSpec_lookup_none h
  · intro k vd h
    obtain ⟨dd, hdd, _⟩ := compat_lookup_dict hc h
    exact ⟨dd, hdd, cleanSpec_lookup_dict h hdd⟩

/-- Witness for the amended C2 on a concrete document: the extra scalar key
`old` is removed, matching keys stay, the nested `bot` sub-document recurses
through `DEF_CFG["bot"]` and comes back cleaned, and the run completes. -/
theorem claim_C2_witness :
    wfD [("config_version", JValue.int 2), ("old", .str "x"),
         ("bot", .dict [("token", .str "t")])] = true
    ∧ nestedCompat DEF_CFG
        [("config_version", JValue.int 2), ("old", .str "x"),
         ("bot", .dict [("token", .str "t")])] = true
    ∧ cleanSpec DEF_CFG
        [("config_version", JValue.int 2), ("old", .str "x"),
         ("bot", .dict [("token", .str "t")])]
      = [("config_version", JValue.int 2), ("bot", .dict [("token", .str "t")])]
    ∧ (∃ b, remove_deprecated DEF_CFG
        [("config_version", JValue.int 2), ("old", .str "x"),
         ("bot", .dict [("token", .str "t")])]
      = some (cleanSpec DEF_CFG
        [("config_version", JValue.int 2), ("old", .str "x"),
         ("bot", .dict [("token", .str "t")])], b))
    ∧ (∃ dd, lookup DEF_CFG "bot" = some (.dict dd)
        ∧ lookup (cleanSpec DEF_CFG
            [("config_version", JValue.int 2), ("old", .str "x"),
             ("bot", .dict [("token", .str "t")])]) "bot"
          = some (.dict (cleanSpec dd [("token", .str "t")]))) := by
  have hwf : wfD [("config_version", JValue.int 2), ("old", .str "x"),
      ("bot", .dict [("token", .str "t")])] = true :=
    wfD_eval _ _ _ (Nat.lt_succ_self _) rfl
  have hc : nestedCompat DEF_CFG
      [("config_version", JValue.int 2), ("old", .str "x"),
       ("bot", .dict [("token", .str "t")])] = true :=
    nestedCompat_eval _ _ _ _ (Nat.lt_succ_self _) rfl
  refine ⟨hwf, hc, cleanSpec_eval _ _ _ _ (Nat.lt_succ_self _) rfl, ?_, ?_⟩
  · exact (claim_C2 DEF_CFG _ hwf hc).1
  · exact (claim_C2 DEF_CFG _ hwf hc).2.2.2.2 "bot" [("token", .str "t")] rfl

/-! ## Claim C3 — the add-phase flag can mask additions -/

/-- **C3 counterexample**: `config_check` on a document that lacks only
`log_files_max` copies that key in (it appears in the result, last), yet the
first component of the returned triple is `true` ("document already up to
date"): the flag set to `False` when `log_files_max` was added is
overwritten by the `True` results of the later `bot` and `systemd_service`
recursions, so addedAny is not OR-aggregated as the claim states. -/
theorem claim_C3_cx :
    config_check
      [("config_version", .int 2),
       ("bot", .dict
         [("token", .str "x"), ("whitelisted_users", .list []),
          ("state_notifications", .bool true), ("enable_file_transfer", .bool true)]),
       ("systemd_service", .dict [("version", .int 1)])]
      = some ([("config_version", .int 2),
               ("bot", .dict
                 [("token", .str "x"), ("whitelisted_users", .list []),
                  ("state_notifications", .bool true), ("enable_file_transfer", .bool true)]),
               ("systemd_service", .dict [("version", .int 1)]),
               ("log_files_max", .int 30)], (true, false, false))
    ∧ lookup
        [("config_version", JValue.int 2),
         ("bot", .dict
           [("token", .str "x"), ("whitelisted_users", .list []),
            ("state_notifications", .bool true), ("enable_file_transfer", .bool true)]),
         ("systemd_service", .dict [("version", .int 1)])] "log_files_max" = none :=
  ⟨config_check_eval _ _ _ _ (Nat.lt_succ_self _) (Nat.lt_succ_self _) rfl, rfl⟩

/-- **C3 (amended)**: the sound direction holds — whenever the add phase
reports the document as *not* up to date (`False`), at least one key really
was copied in (the document changed); but the converse direction of the
claim is false, because the per-subtree flags are reassigned rather than
OR-aggregated (see the counterexample). -/
theorem claim_C3 (dflt u u₁ : Dict) (hd : wfD dflt = true) (hu : wfD u = true)
    (h : add_new_keys dflt u = some (u₁, false)) : u₁ ≠ u := by
  intro heq
  rcases add_new_keys_aux_unchanged_flag dflt u true hd hu u₁ false h heq with h₁ | h₁ <;>
    simp at h₁

/-- Witness for the amended C3: adding a missing key makes the result differ
from the input. -/
theorem claim_C3_witness :
    wfD [("a", JValue.int 1)] = true
    ∧ wfD ([] : Dict) = true
    ∧ add_new_keys [("a", JValue.int 1)] [] = some ([("a", JValue.int 1)], false)
    ∧ [("a", JValue.int 1)] ≠ ([] : Dict) := by
  have hw : wfD [("a", JValue.int 1)] = true :=
    wfD_eval _ _ _ (Nat.lt_succ_self _) rfl
  have hnil : wfD ([] : Dict) = true :=
    wfD_eval _ _ _ (Nat.lt_succ_self _) rfl
  have hank : add_new_keys [("a", JValue.int 1)] [] = some ([("a", JValue.int 1)], false) :=
    add_new_keys_eval _ _ _ _ (Nat.lt_succ_self _) rfl
  exact ⟨hw, hnil, hank, claim_C3 [("a", JValue.int 1)] [] [("a", JValue.int 1)] hw hnil hank⟩

/-! ## Claim C7 — cached read behaviour of `get` -/

/-- **C7**: `get` re-reads the backing file iff no snapshot has been recorded
yet (`__last_mod_time is None`) or the file modification time strictly
exceeds the recorded one; otherwise it returns the cached snapshot; after a
re-read the recorded time equals the current file modification time, so a
second `get` with no intervening external modification returns the cache. -/
theorem claim_C7 (s : CacheState) (f : BackingFile) :
    (is_modified s f = true ↔ s.lastModTime = none ∨ ∃ t, s.lastModTime = some t ∧ f.mtime > t)
    ∧ (is_modified s f = false → TM_Config.get s f = (s, s.config))
    ∧ (is_modified s f = true → TM_Config.get s f = (⟨f.content, some f.mtime⟩, f.content))
    ∧ TM_Config.get (TM_Config.get s f).1 f = ((TM_Config.get s f).1, (TM_Config.get s f).1.config) := by
  refine ⟨?_, ?_, ?_, ?_⟩
  · cases h : s.lastModTime with
    | none => simp [is_modified, h]
    | some t => simp [is_modified, h]
  · intro h
    simp [TM_Config.get, h]
  · intro h
    simp [TM_Config.get, h]
  · cases h : is_modified s f with
    | false => simp [TM_Config.get, h]
    | true =>
      have h₂ : is_modified (⟨f.content, some f.mtime⟩ : CacheState) f = false := by
        simp [is_modified]
      simp [TM_Config.get, h, h₂]

/-- Witness for C7 at a concrete state: first access (no recorded time)
re-reads the file and records its modification time. -/
theorem claim_C7_witness :
    is_modified ⟨[], none⟩ ⟨[("a", JValue.int 1)], 5⟩ = true
    ∧ TM_Config.get ⟨[], none⟩ ⟨[("a", JValue.int 1)], 5⟩
        = (⟨[("a", JValue.int 1)], some 5⟩, [("a", JValue.int 1)]) :=
  ⟨rfl, (claim_C7 ⟨[], none⟩ ⟨[("a", JValue.int 1)], 5⟩).2.2.1 rfl⟩

/-! ## Claim C8 — `service_remove` -/

/-- **C8**: with no unit file, `service_remove` is a no-op returning
`False`; with a unit file present it deletes it, resets the persisted
`systemd_service` record to its uninstalled default `{"version": -1}` and
returns `True`; if the deletion raises, neither the record nor the
configuration is touched and `False` is returned (the error having been
printed and logged). -/
theorem claim_C8 (s : ServiceState) (deleteFails : Bool) :
    (s.unitFile = none → service_remove deleteFails s = (s, false))
    ∧ (s.unitFile ≠ none → deleteFails = true → service_remove deleteFails s = (s, false))
    ∧ (s.unitFile ≠ none → deleteFails = false →
        service_remove deleteFails s
          = ({ unitFile := none,
               cfg := setKey s.cfg "systemd_service" (.dict [("version", .int (-1))]) }, true)) := by
  refine ⟨?_, ?_, ?_⟩
  · intro h
    simp [service_remove, h]
  · intro h hf
    cases hu : s.unitFile with
    | none => exact absurd hu h
    | some u => simp [service_remove, hu, hf]
  · intro h hf
    cases hu : s.unitFile with
    | none => exact absurd hu h
    | some u => simp [service_remove, hu, hf, update_cfg_values]

/-- Witness for C8: removing an installed service deletes the unit file and
resets the record to version `-1`. -/
theorem claim_C8_witness :
    service_remove false ⟨some "unit", [("systemd_service", .dict [("version", .int 1)])]⟩
      = (⟨none, [("systemd_service", .dict [("version", .int (-1))])]⟩, true) := by
  have h := (claim_C8 ⟨some "unit", [("systemd_service", .dict [("version", .int 1)])]⟩ false).2.2
    (by simp) rfl
  simpa [setKey] using h

/-! ## Claim C9 — idempotence of `service_install` -/

/-- **C9**: from the Absent state a successful `service_install` returns
`True` and writes the rendered unit file; an immediately following second
call (whatever the filesystem would have done) returns `False` and performs
no state change at all, so the unit file content after both calls is the
content after the first. -/
theorem claim_C9 (template scriptPath : String) (s : ServiceState) (io₂ : InstallIO)
    (h : s.unitFile = none) :
    (service_install template scriptPath .ok s).2 = .ok true
    ∧ (service_install template scriptPath .ok s).1.unitFile = some (renderUnit template scriptPath)
    ∧ service_install template scriptPath io₂ (service_install template scriptPath .ok s).1
        = ((service_install template scriptPath .ok s).1, .ok false) := by
  refine ⟨?_, ?_, ?_⟩ <;>
    simp [service_install, h, update_cfg_values]

/-- Witness for C9 at a concrete template, script path and empty initial
configuration. -/
theorem claim_C9_witness :
    (service_install "A=<SHELL_SCRIPT_PATH>" "/opt/t.sh" .ok ⟨none, []⟩).2 = .ok true
    ∧ (service_install "A=<SHELL_SCRIPT_PATH>" "/opt/t.sh" .ok ⟨none, []⟩).1.unitFile
        = some (renderUnit "A=<SHELL_SCRIPT_PATH>" "/opt/t.sh")
    ∧ service_install "A=<SHELL_SCRIPT_PATH>" "/opt/t.sh" .ok
          (service_install "A=<SHELL_SCRIPT_PATH>" "/opt/t.sh" .ok ⟨none, []⟩).1
        = ((service_install "A=<SHELL_SCRIPT_PATH>" "/opt/t.sh" .ok ⟨none, []⟩).1, .ok false) :=
  claim_C9 "A=<SHELL_SCRIPT_PATH>" "/opt/t.sh" ⟨none, []⟩ .ok rfl

/-! ## Claim C5 — failure behaviour of `service_install` -/

/-- **C5 counterexample**: `open(final_path, "wt")` truncates/creates the
unit file before the template is read, so a failure of the subsequent
read/substitute/write leaves a (partially written, here empty) unit file on
disk: the state after the failed install is *not* Absent, contradicting the
claim that no unit file exists after any rendering/write failure. -/
theorem claim_C5_cx :
    service_install "unit=<SHELL_SCRIPT_PATH>" "/opt/t.sh" (.failAfterOpen "")
        ⟨none, [("systemd_service", .dict [("version", .int (-1))])]⟩
      = (⟨some "", [("systemd_service", .dict [("version", .int (-1))])]⟩, .ok false)
    ∧ (some "" : Option String) ≠ none := by
  exact ⟨rfl, by simp⟩

/-- **C5 (amended)**: on every failure during template rendering or the
unit-file write, `service_install` does not report success and never touches
the persisted `ServiceRecord`; if one of the two `open` calls failed no unit
file exists afterwards, but if the failure happened after the truncating
open of the final path, a partially-written unit file remains on disk (the
state is not Absent). -/
theorem claim_C5 (template scriptPath : String) (io : InstallIO) (s : ServiceState)
    (h : s.unitFile = none) (hio : io ≠ .ok) :
    (service_install template scriptPath io s).2 ≠ .ok true
    ∧ (service_install template scriptPath io s).1.cfg = s.cfg
    ∧ (io = .templateOpenFails ∨ io = .finalOpenFails →
        (service_install template scriptPath io s).1.unitFile = none)
    ∧ (∀ part, io = .failAfterOpen part →
        (service_install template scriptPath io s).1.unitFile = some part) := by
  cases io with
  | ok => exact absurd rfl hio
  | templateOpenFails => refine ⟨?_, ?_, ?_, ?_⟩ <;> simp [service_install, h]
  | finalOpenFails => refine ⟨?_, ?_, ?_, ?_⟩ <;> simp [service_install, h]
  | failAfterOpen part => refine ⟨?_, ?_, ?_, ?_⟩ <;> simp [service_install, h]

/-- Witness for the amended C5 at a concrete failing install. -/
theorem claim_C5_witness :
    (service_install "u" "/p" (.failAfterOpen "par") ⟨none, []⟩).2 ≠ .ok true
    ∧ (service_install "u" "/p" (.failAfterOpen "par") ⟨none, []⟩).1.cfg = []
    ∧ (service_install "u" "/p" (.failAfterOpen "par") ⟨none, []⟩).1.unitFile = some "par" :=
  have h := claim_C5 "u" "/p" (.failAfterOpen "par") ⟨none, []⟩ rfl (by simp)
  ⟨h.1, h.2.1, h.2.2.2 "par" rfl⟩


/-! ### Tagged-tree toolkit (claim C4) -/

theorem lookup_stripD : ∀ (u : TDict) (k : String),
    lookup (stripD u) k = (lookupT u k).map stripV := by
  intro u
  induction u with
  | nil => intro k; simp [stripD, lookupT, lookup]
  | cons hd rest ih =>
    obtain ⟨k₁, v⟩ := hd
    intro k
    cases v with
    | sc w =>
      by_cases hk : k₁ = k <;> simp [stripD, lookupT, lookup, hk, ih, stripV]
    | td b sub =>
      by_cases hk : k₁ = k <;> simp [stripD, lookupT, lookup, hk, ih, stripV]

theorem keys_stripD : ∀ u : TDict, keys (stripD u) = u.map Prod.fst := by
  intro u
  induction u with
  | nil => simp [stripD, keys]
  | cons hd rest ih =>
    obtain ⟨k₁, v⟩ := hd
    cases v with
    | sc w => simp [stripD, keys] at ih ⊢; exact ih
    | td b sub => simp [stripD, keys] at ih ⊢; exact ih

theorem mem_stripD : ∀ (u : TDict) (k : String) (v : TVal),
    (k, v) ∈ u → (k, stripV v) ∈ stripD u := by
  intro u
  induction u with
  | nil => intro k v h; cases h
  | cons hd rest ih =>
    obtain ⟨k₁, v₁⟩ := hd
    intro k v h
    rcases List.mem_cons.mp h with h | h
    · rw [Prod.mk.injEq] at h
      obtain ⟨h₁, h₂⟩ := h
      subst h₁
      subst h₂
      cases v with
      | sc w => simp [stripD, stripV]
      | td b sub => simp [stripD, stripV]
    · have hmem := ih k v h
      cases v₁ with
      | sc w =>
        simp only [stripD, List.mem_cons]
        exact Or.inr hmem
      | td b sub =>
        simp only [stripD, List.mem_cons]
        exact Or.inr hmem

theorem strip_embedD : ∀ d : Dict, stripD (embedD d) = d := by
  intro d
  induction d using embedD.induct with
  | case1 => simp [embedD, stripD]
  | case2 k es rest ih2 ih1 => simp [embedD, stripD, ih2, ih1]
  | case3 k v rest hnd ih =>
    cases v with
    | dict es => exact absurd rfl (hnd es)
    | str s => simp [embedD, stripD, ih]
    | int n => simp [embedD, stripD, ih]
    | bool b => simp [embedD, stripD, ih]
    | list xs => simp [embedD, stripD, ih]

theorem noShared_embedD : ∀ d : Dict, noSharedD (embedD d) = true := by
  intro d
  induction d using embedD.induct with
  | case1 => simp [embedD, noSharedD]
  | case2 k es rest ih2 ih1 => simp [embedD, noSharedD, ih2, ih1]
  | case3 k v rest hnd ih =>
    cases v with
    | dict es => exact absurd rfl (hnd es)
    | str s => simp [embedD, noSharedD, ih]
    | int n => simp [embedD, noSharedD, ih]
    | bool b => simp [embedD, noSharedD, ih]
    | list xs => simp [embedD, noSharedD, ih]

theorem wfT_embedD : ∀ d : Dict, wfT (embedD d) = true := by
  intro d
  induction d using embedD.induct with
  | case1 => simp [embedD, wfT]
  | case2 k es rest ih2 ih1 => simp [embedD, wfT, ih2, ih1]
  | case3 k v rest hnd ih =>
    cases v with
    | dict es => exact absurd rfl (hnd es)
    | str s => simp [embedD, wfT, isDict, ih]
    | int n => simp [embedD, wfT, isDict, ih]
    | bool b => simp [embedD, wfT, isDict, ih]
    | list xs => simp [embedD, wfT, isDict, ih]

theorem lookupT_setKeyT_self : ∀ (u : TDict) (k : String) (v : TVal),
    lookupT (setKeyT u k v) k = some v := by
  intro u
  induction u with
  | nil => intro k v; simp [setKeyT, lookupT]
  | cons hd rest ih =>
    obtain ⟨k₁, v₁⟩ := hd
    intro k v
    by_cases hk : k₁ = k <;> simp [setKeyT, lookupT, hk, ih]

theorem setKeyT_self_of_lookupT : ∀ (u : TDict) (k : String) (v : TVal),
    lookupT u k = some v → setKeyT u k v = u := by
  intro u
  induction u with
  | nil => intro k v h; simp [lookupT] at h
  | cons hd rest ih =>
    obtain ⟨k₁, v₁⟩ := hd
    intro k v h
    by_cases hk : k₁ = k
    · subst hk
      simp [lookupT] at h
      simp [setKeyT, h]
    · simp only [lookupT, if_neg hk] at h
      simp [setKeyT, hk, ih k v h]

theorem wfTV_of_lookupT : ∀ (u : TDict) (k : String) (v : TVal),
    wfT u = true → lookupT u k = some v → wfTV v = true := by
  intro u
  induction u with
  | nil => intro k v _ h; simp [lookupT] at h
  | cons hd rest ih =>
    obtain ⟨k₁, v₁⟩ := hd
    intro k v hw h
    by_cases hk : k₁ = k
    · subst hk
      simp [lookupT] at h
      subst h
      cases v₁ with
      | sc w =>
        unfold wfT at hw
        simp only [Bool.and_eq_true] at hw
        simpa [wfTV] using hw.1
      | td b sub =>
        unfold wfT at hw
        simp only [Bool.and_eq_true] at hw
        simpa [wfTV] using hw.1
    · simp only [lookupT, if_neg hk] at h
      cases v₁ with
      | sc w =>
        unfold wfT at hw
        simp only [Bool.and_eq_true] at hw
        exact ih k v hw.2 h
      | td b sub =>
        unfold wfT at hw
        simp only [Bool.and_eq_true] at hw
        exact ih k v hw.2 h

theorem wfT_setKeyT : ∀ (u : TDict) (k : String) (v : TVal),
    wfT u = true → wfTV v = true → wfT (setKeyT u k v) = true := by
  intro u
  induction u with
  | nil =>
    intro k v _ hv
    cases v with
    | sc w => simp [setKeyT, wfT, wfTV] at hv ⊢; exact hv
    | td b sub => simp [setKeyT, wfT, wfTV] at hv ⊢; exact hv
  | cons hd rest ih =>
    obtain ⟨k₁, v₁⟩ := hd
    intro k v hw hv
    have hparts : wfTV v₁ = true ∧ wfT rest = true := by
      cases v₁ with
      | sc w =>
        unfold wfT at hw
        simp only [Bool.and_eq_true] at hw
        exact ⟨by simpa [wfTV] using hw.1, hw.2⟩
      | td b sub =>
        unfold wfT at hw
        simp only [Bool.and_eq_true] at hw
        exact ⟨by simpa [wfTV] using hw.1, hw.2⟩
    by_cases hk : k₁ = k
    · subst hk
      simp only [setKeyT, if_pos rfl]
      show wfT ((k₁, v) :: rest) = true
      cases v with
      | sc w =>
        unfold wfT
        simp only [Bool.and_eq_true]
        exact ⟨by simpa [wfTV] using hv, hparts.2⟩
      | td b sub =>
        unfold wfT
        simp only [Bool.and_eq_true]
        exact ⟨by simpa [wfTV] using hv, hparts.2⟩
    · simp only [setKeyT, if_neg hk]
      show wfT ((k₁, v₁) :: setKeyT rest k v) = true
      cases v₁ with
      | sc w =>
        unfold wfT
        simp only [Bool.and_eq_true]
        exact ⟨by simpa [wfTV] using hparts.1, ih k v hparts.2 hv⟩
      | td b sub =>
        unfold wfT
        simp only [Bool.and_eq_true]
        exact ⟨by simpa [wfTV] using hparts.1, ih k v hparts.2 hv⟩

theorem wfT_eraseKeyT : ∀ (u : TDict) (k : String),
    wfT u = true → wfT (eraseKeyT u k) = true := by
  intro u
  induction u with
  | nil => intro k h; simpa [eraseKeyT] using h
  | cons hd rest ih =>
    obtain ⟨k₁, v₁⟩ := hd
    intro k hw
    have hparts : wfTV v₁ = true ∧ wfT rest = true := by
      cases v₁ with
      | sc w =>
        unfold wfT at hw
        simp only [Bool.and_eq_true] at hw
        exact ⟨by simpa [wfTV] using hw.1, hw.2⟩
      | td b sub =>
        unfold wfT at hw
        simp only [Bool.and_eq_true] at hw
        exact ⟨by simpa [wfTV] using hw.1, hw.2⟩
    by_cases hk : k₁ = k
    · subst hk
      simp only [eraseKeyT, if_pos rfl]
      exact hparts.2
    · simp only [eraseKeyT, if_neg hk]
      show wfT ((k₁, v₁) :: eraseKeyT rest k) = true
      cases v₁ with
      | sc w =>
        unfold wfT
        simp only [Bool.and_eq_true]
        exact ⟨by simpa [wfTV] using hparts.1, ih k hparts.2⟩
      | td b sub =>
        unfold wfT
        simp only [Bool.and_eq_true]
        exact ⟨by simpa [wfTV] using hparts.1, ih k hparts.2⟩


theorem OkD_nil (dflt : Dict) : OkD dflt [] := by
  unfold OkD
  trivial

theorem OkE_sc (dflt : Dict) (k : String) (w : JValue) : OkE dflt k (.sc w) := by
  unfold OkE
  trivial

theorem OkD_cons (dflt : Dict) (k : String) (v : TVal) (rest : TDict) :
    OkD dflt ((k, v) :: rest) ↔ OkE dflt k v ∧ OkD dflt rest := by
  constructor
  · intro h
    unfold OkD at h
    cases v with
    | sc w => exact ⟨OkE_sc dflt k w, h.2⟩
    | td b sub => exact ⟨h.1, h.2⟩
  · intro h
    unfold OkD
    cases v with
    | sc w => exact ⟨trivial, h.2⟩
    | td b sub => exact ⟨h.1, h.2⟩

theorem OkE_of_lookupT : ∀ (u : TDict) (dflt : Dict) (k : String) (v : TVal),
    OkD dflt u → lookupT u k = some v → OkE dflt k v := by
  intro u
  induction u with
  | nil => intro dflt k v _ h; simp [lookupT] at h
  | cons hd rest ih =>
    obtain ⟨k₁, v₁⟩ := hd
    intro dflt k v hok h
    rw [OkD_cons] at hok
    by_cases hk : k₁ = k
    · subst hk
      simp [lookupT] at h
      subst h
      exact hok.1
    · simp only [lookupT, if_neg hk] at h
      exact ih dflt k v hok.2 h

theorem OkE_of_mem : ∀ (u : TDict) (dflt : Dict) (k : String) (v : TVal),
    OkD dflt u → (k, v) ∈ u → OkE dflt k v := by
  intro u
  induction u with
  | nil => intro dflt k v _ h; cases h
  | cons hd rest ih =>
    obtain ⟨k₁, v₁⟩ := hd
    intro dflt k v hok h
    rw [OkD_cons] at hok
    rcases List.mem_cons.mp h with h | h
    · rw [Prod.mk.injEq] at h
      obtain ⟨h₁, h₂⟩ := h
      subst h₁
      subst h₂
      exact hok.1
    · exact ih dflt k v hok.2 h

theorem OkD_setKeyT : ∀ (u : TDict) (dflt : Dict) (k : String) (v : TVal),
    OkD dflt u → OkE dflt k v → OkD dflt (setKeyT u k v) := by
  intro u
  induction u with
  | nil =>
    intro dflt k v _ hE
    show OkD dflt [(k, v)]
    rw [OkD_cons]
    exact ⟨hE, OkD_nil dflt⟩
  | cons hd rest ih =>
    obtain ⟨k₁, v₁⟩ := hd
    intro dflt k v hok hE
    rw [OkD_cons] at hok
    by_cases hk : k₁ = k
    · subst hk
      simp only [setKeyT, if_pos rfl]
      show OkD dflt ((k₁, v) :: rest)
      rw [OkD_cons]
      exact ⟨hE, hok.2⟩
    · simp only [setKeyT, if_neg hk]
      show OkD dflt ((k₁, v₁) :: setKeyT rest k v)
      rw [OkD_cons]
      exact ⟨hok.1, ih dflt k v hok.2 hE⟩

theorem OkD_eraseKeyT : ∀ (u : TDict) (dflt : Dict) (k : String),
    OkD dflt u → OkD dflt (eraseKeyT u k) := by
  intro u
  induction u with
  | nil => intro dflt k _; exact OkD_nil dflt
  | cons hd rest ih =>
    obtain ⟨k₁, v₁⟩ := hd
    intro dflt k hok
    rw [OkD_cons] at hok
    by_cases hk : k₁ = k
    · subst hk
      simp only [eraseKeyT, if_pos rfl]
      exact hok.2
    · simp only [eraseKeyT, if_neg hk]
      show OkD dflt ((k₁, v₁) :: eraseKeyT rest k)
      rw [OkD_cons]
      exact ⟨hok.1, ih dflt k hok.2⟩

theorem noShared_parts : ∀ (k : String) (v : TVal) (rest : TDict),
    noSharedD ((k, v) :: rest) = true →
    (∀ b sub, v = .td b sub → b = false ∧ noSharedD sub = true) ∧ noSharedD rest = true := by
  intro k v rest h
  cases v with
  | sc w =>
    unfold noSharedD at h
    exact ⟨fun b sub hbs => (by cases hbs), h⟩
  | td b sub =>
    unfold noSharedD at h
    simp only [Bool.and_eq_true] at h
    refine ⟨fun b₂ sub₂ hbs => ?_, h.2⟩
    rw [TVal.td.injEq] at hbs
    obtain ⟨h₁, h₂⟩ := hbs
    subst h₁
    subst h₂
    exact ⟨by simpa using h.1.1, h.1.2⟩

theorem OkD_of_noShared : ∀ (u : TDict), noSharedD u = true → ∀ dflt, OkD dflt u := by
  intro u
  induction u using noSharedD.induct with
  | case1 =>
    intro _ dflt
    exact OkD_nil dflt
  | case2 k w rest ih =>
    intro h dflt
    rw [OkD_cons]
    have hrest : noSharedD rest = true := by
      unfold noSharedD at h
      exact h
    exact ⟨OkE_sc dflt k w, ih hrest dflt⟩
  | case3 k b sub rest ih2 ih1 =>
    intro h dflt
    unfold noSharedD at h
    simp only [Bool.and_eq_true] at h
    rw [OkD_cons]
    refine ⟨?_, ih1 h.2 dflt⟩
    have hb : b = false := by simpa using h.1.1
    subst hb
    unfold OkE
    exact ⟨fun hbf => (by cases hbf), ih2 h.1.2 (childD dflt k)⟩

theorem noShared_lookupT : ∀ (u : TDict) (k : String) (b : Bool) (sub : TDict),
    noSharedD u = true → lookupT u k = some (.td b sub) →
    b = false ∧ noSharedD sub = true := by
  intro u
  induction u with
  | nil => intro k b sub _ h; simp [lookupT] at h
  | cons hd rest ih =>
    obtain ⟨k₁, v₁⟩ := hd
    intro k b sub hns h
    have hp := noShared_parts k₁ v₁ rest hns
    by_cases hk : k₁ = k
    · subst hk
      simp [lookupT] at h
      exact hp.1 b sub h
    · simp only [lookupT, if_neg hk] at h
      exact ih k b sub hp.2 h


theorem nodup_keys_of_wfD : ∀ (d : Dict), wfD d = true → (keys d).Nodup := by
  intro d
  induction d with
  | nil => intro _; simp [keys]
  | cons hd rest ih =>
    obtain ⟨k, v⟩ := hd
    intro h
    have h₁ := wfD_cons_key h
    have h₂ := wfD_cons_rest h
    simp only [keys, List.map_cons, List.nodup_cons]
    exact ⟨by simpa [keys] using h₁, by simpa [keys] using ih h₂⟩

theorem lookup_of_mem_nodup : ∀ (d : Dict) (k : String) (v : JValue),
    (keys d).Nodup → (k, v) ∈ d → lookup d k = some v := by
  intro d
  induction d with
  | nil => intro k v _ h; cases h
  | cons hd rest ih =>
    obtain ⟨k₁, v₁⟩ := hd
    intro k v hnd hm
    simp only [keys, List.map_cons, List.nodup_cons] at hnd
    rcases List.mem_cons.mp hm with h | h
    · rw [Prod.mk.injEq] at h
      obtain ⟨h₁, h₂⟩ := h
      subst h₁
      subst h₂
      simp [lookup]
    · by_cases hk : k₁ = k
      · subst hk
        exfalso
        apply hnd.1
        simp only [List.mem_map]
        exact ⟨(k₁, v), h, rfl⟩
      · simp only [lookup, if_neg hk]
        exact ih k v (by simpa [keys] using hnd.2) h

theorem lookupT_of_mem_nodup : ∀ (u : TDict) (k : String) (v : TVal),
    (u.map Prod.fst).Nodup → (k, v) ∈ u → lookupT u k = some v := by
  intro u
  induction u with
  | nil => intro k v _ h; cases h
  | cons hd rest ih =>
    obtain ⟨k₁, v₁⟩ := hd
    intro k v hnd hm
    simp only [List.map_cons, List.nodup_cons] at hnd
    rcases List.mem_cons.mp hm with h | h
    · rw [Prod.mk.injEq] at h
      obtain ⟨h₁, h₂⟩ := h
      subst h₁
      subst h₂
      simp [lookupT]
    · by_cases hk : k₁ = k
      · subst hk
        exfalso
        apply hnd.1
        simp only [List.mem_map]
        exact ⟨(k₁, v), h, rfl⟩
      · simp only [lookupT, if_neg hk]
        exact ih k v hnd.2 h

/-! ### The tagged loops are no-ops on (aliases of) default subtrees

When the user node is the very `DEF_CFG` sub-object at its path (so its
plain value equals the default subtree), the add phase finds every key
present and the remove phase finds nothing extra: nothing is written, no
`touched`, no raise. -/

theorem tank_noop : ∀ (n : Nat) (dflt : Dict), sizeOf dflt < n → wfD dflt = true →
    ∀ (sub : TDict), wfT sub = true → stripD sub = dflt →
    ∀ (dl : Dict), (∀ e, e ∈ dl → e ∈ dflt) → ∀ fl,
    ∃ fl₂, tank dl sub fl true = ⟨sub, fl₂, false, false⟩ := by
  intro n
  induction n with
  | zero => intro dflt h; omega
  | succ n ihn =>
    intro dflt hsz hwf sub hwfT hstrip dl
    induction dl with
    | nil =>
      intro _ fl
      exact ⟨fl, by simp [tank]⟩
    | cons e dl ihdl =>
      intro hsubset fl
      obtain ⟨k, v⟩ := e
      have hmem : (k, v) ∈ dflt := hsubset _ (List.mem_cons_self _ _)
      have hnd : (keys dflt).Nodup := nodup_keys_of_wfD dflt hwf
      have hlkd : lookup dflt k = some v := lookup_of_mem_nodup dflt k v hnd hmem
      have hlks : some v = (lookupT sub k).map stripV := by
        rw [← lookup_stripD, hstrip, hlkd]
      have hsubset₂ : ∀ e, e ∈ dl → e ∈ dflt :=
        fun e he => hsubset e (List.mem_cons_of_mem _ he)
      cases v with
      | dict d =>
        cases htv : lookupT sub k with
        | none =>
          rw [htv] at hlks
          simp at hlks
        | some tv =>
          rw [htv] at hlks
          have hlks₂ : JValue.dict d = stripV tv := by simpa using hlks
          cases tv with
          | sc w =>
            exfalso
            have hwv := wfTV_of_lookupT sub k _ hwfT htv
            rw [show stripV (TVal.sc w) = w from rfl] at hlks₂
            rw [← hlks₂] at hwv
            simp [wfTV, isDict] at hwv
          | td b ud =>
            rw [show stripV (TVal.td b ud) = JValue.dict (stripD ud) from rfl,
              JValue.dict.injEq] at hlks₂
            have hwfud : wfT ud = true := by
              have := wfTV_of_lookupT sub k _ hwfT htv
              simpa [wfTV] using this
            have hwfd₂ : wfD d = true := wf_lookup_dict hwf hlkd
            have hszd : sizeOf d < n := by
              have hlt := List.sizeOf_lt_of_mem hmem
              simp at hlt
              omega
            obtain ⟨fl₃, hc⟩ := ihn d hszd hwfd₂ ud hwfud hlks₂.symm d (fun e he => he) true
            obtain ⟨fl₄, hr⟩ := ihdl hsubset₂ fl₃
            have hset : setKeyT sub k (.td b ud) = sub := setKeyT_self_of_lookupT sub k _ htv
            refine ⟨fl₄, ?_⟩
            simp only [tank, htv]
            rw [Bool.true_or, hc]
            simp [hset, hr]
      | str s =>
        cases htv : lookupT sub k with
        | none =>
          rw [htv] at hlks
          simp at hlks
        | some tv =>
          obtain ⟨fl₄, hr⟩ := ihdl hsubset₂ fl
          refine ⟨fl₄, ?_⟩
          simp only [tank, htv, Option.isSome_some, if_true]
          exact hr
      | int m =>
        cases htv : lookupT sub k with
        | none =>
          rw [htv] at hlks
          simp at hlks
        | some tv =>
          obtain ⟨fl₄, hr⟩ := ihdl hsubset₂ fl
          refine ⟨fl₄, ?_⟩
          simp only [tank, htv, Option.isSome_some, if_true]
          exact hr
      | bool bb =>
        cases htv : lookupT sub k with
        | none =>
          rw [htv] at hlks
          simp at hlks
        | some tv =>
          obtain ⟨fl₄, hr⟩ := ihdl hsubset₂ fl
          refine ⟨fl₄, ?_⟩
          simp only [tank, htv, Option.isSome_some, if_true]
          exact hr
      | list xs =>
        cases htv : lookupT sub k with
        | none =>
          rw [htv] at hlks
          simp at hlks
        | some tv =>
          obtain ⟨fl₄, hr⟩ := ihdl hsubset₂ fl
          refine ⟨fl₄, ?_⟩
          simp only [tank, htv, Option.isSome_some, if_true]
          exact hr

theorem trd_noop : ∀ (n : Nat) (dflt : Dict), sizeOf dflt < n → wfD dflt = true →
    ∀ (sub : TDict), wfT sub = true → stripD sub = dflt →
    ∀ (snap : TDict), (∀ e, e ∈ snap → e ∈ sub) → ∀ fl,
    ∃ fl₂, trd dflt snap sub fl true = ⟨sub, fl₂, false, false⟩ := by
  intro n
  induction n with
  | zero => intro dflt h; omega
  | succ n ihn =>
    intro dflt hsz hwf sub hwfT hstrip snap
    induction snap with
    | nil =>
      intro _ fl
      exact ⟨fl, by simp [trd]⟩
    | cons e snap ihsnap =>
      intro hsubset fl
      obtain ⟨k, tv⟩ := e
      have hmem : (k, tv) ∈ sub := hsubset _ (List.mem_cons_self _ _)
      have hmemD : (k, stripV tv) ∈ dflt := by
        rw [← hstrip]
        exact mem_stripD sub k tv hmem
      have hnd : (keys dflt).Nodup := nodup_keys_of_wfD dflt hwf
      have hndT : (sub.map Prod.fst).Nodup := by
        rw [← keys_stripD, hstrip]
        exact hnd
      have hlkd : lookup dflt k = some (stripV tv) :=
        lookup_of_mem_nodup dflt k _ hnd hmemD
      have htv : lookupT sub k = some tv := lookupT_of_mem_nodup sub k tv hndT hmem
      have hsubset₂ : ∀ e, e ∈ snap → e ∈ sub :=
        fun e he => hsubset e (List.mem_cons_of_mem _ he)
      cases tv with
      | td b vd =>
        rw [show stripV (TVal.td b vd) = JValue.dict (stripD vd) from rfl] at hlkd
        have hwfvd : wfT vd = true := by
          have := wfTV_of_lookupT sub k _ hwfT htv
          simpa [wfTV] using this
        have hwfd₂ : wfD (stripD vd) = true := wf_lookup_dict hwf hlkd
        have hszd : sizeOf (stripD vd) < n := by
          have hmemD₂ := hmemD
          rw [show stripV (TVal.td b vd) = JValue.dict (stripD vd) from rfl] at hmemD₂
          have hlt := List.sizeOf_lt_of_mem hmemD₂
          simp at hlt
          omega
        obtain ⟨fl₃, hc⟩ := ihn (stripD vd) hszd hwfd₂ vd hwfvd rfl vd (fun e he => he) false
        obtain ⟨fl₄, hr⟩ := ihsnap hsubset₂ fl₃
        have hset : setKeyT sub k (.td b vd) = sub := setKeyT_self_of_lookupT sub k _ htv
        refine ⟨fl₄, ?_⟩
        simp only [trd, hlkd]
        rw [Bool.true_or, hc]
        simp [hset, hr]
      | sc w =>
        rw [show stripV (TVal.sc w) = w from rfl] at hlkd
        obtain ⟨fl₄, hr⟩ := ihsnap hsubset₂ fl
        refine ⟨fl₄, ?_⟩
        simp only [trd, hlkd, Option.isSome_some, if_true]
        exact hr


theorem wfTV_of_mem : ∀ (u : TDict) (k : String) (v : TVal),
    wfT u = true → (k, v) ∈ u → wfTV v = true := by
  intro u
  induction u with
  | nil => intro k v _ h; cases h
  | cons hd rest ih =>
    obtain ⟨k₁, v₁⟩ := hd
    intro k v hw hm
    have hparts : wfTV v₁ = true ∧ wfT rest = true := by
      cases v₁ with
      | sc w =>
        unfold wfT at hw
        simp only [Bool.and_eq_true] at hw
        exact ⟨by simpa [wfTV] using hw.1, hw.2⟩
      | td b sub =>
        unfold wfT at hw
        simp only [Bool.and_eq_true] at hw
        exact ⟨by simpa [wfTV] using hw.1, hw.2⟩
    rcases List.mem_cons.mp hm with h | h
    · rw [Prod.mk.injEq] at h
      obtain ⟨h₁, h₂⟩ := h
      subst h₁
      subst h₂
      exact hparts.1
    · exact ih k v hparts.2 h

theorem sizeOf_lookup_dict : ∀ (d : Dict) (k : String) (dd : Dict),
    lookup d k = some (.dict dd) → sizeOf dd < sizeOf d := by
  intro d
  induction d with
  | nil => intro k dd h; simp [lookup] at h
  | cons hd rest ih =>
    obtain ⟨k₁, v₁⟩ := hd
    intro k dd h
    by_cases hk : k₁ = k
    · subst hk
      simp [lookup] at h
      subst h
      simp
      omega
    · simp only [lookup, if_neg hk] at h
      have := ih k dd h
      simp
      omega

/-! ### The tagged loops preserve the sharing invariant and never touch -/

theorem trdScalar_master : ∀ (w : JValue) (snap : TDict) (d₀ : Dict) (live : TDict) (fl : Bool),
    wfT live = true → OkD d₀ live →
    wfT (trdScalar w snap live fl false).tree = true
    ∧ OkD d₀ (trdScalar w snap live fl false).tree
    ∧ (trdScalar w snap live fl false).touched = false := by
  intro w snap
  induction snap with
  | nil => intro d₀ live fl hw hok; exact ⟨hw, hok, rfl⟩
  | cons e snap ih =>
    intro d₀ live fl hw hok
    obtain ⟨k, v⟩ := e
    cases v with
    | td b sub => exact ⟨hw, hok, rfl⟩
    | sc x =>
      cases hpc : pyContains w k with
      | none =>
        simp only [trdScalar, hpc]
        exact ⟨hw, hok, trivial⟩
      | some bv =>
        cases bv with
        | true =>
          simp only [trdScalar, hpc]
          exact ih d₀ live fl hw hok
        | false =>
          have hE := ih d₀ (eraseKeyT live k) true
            (wfT_eraseKeyT live k hw) (OkD_eraseKeyT live d₀ k hok)
          simp only [trdScalar, hpc]
          exact ⟨hE.1, hE.2.1, by simp [hE.2.2]⟩

theorem tank_master : ∀ (n : Nat) (dflt : Dict), sizeOf dflt < n → wfD dflt = true →
    ∀ (dl : Dict), (∀ e, e ∈ dl → e ∈ dflt) →
    ∀ (sub : TDict) (fl : Bool), wfT sub = true → OkD dflt sub →
    wfT (tank dl sub fl false).tree = true
    ∧ OkD dflt (tank dl sub fl false).tree
    ∧ (tank dl sub fl false).touched = false := by
  intro n
  induction n with
  | zero => intro dflt h; omega
  | succ n ihn =>
    intro dflt hsz hwf dl
    induction dl with
    | nil =>
      intro _ sub fl hw hok
      simp only [tank]
      exact ⟨hw, hok, trivial⟩
    | cons e dl ihdl =>
      intro hsubset sub fl hw hok
      obtain ⟨k, v⟩ := e
      have hmem : (k, v) ∈ dflt := hsubset _ (List.mem_cons_self _ _)
      have hnd := nodup_keys_of_wfD dflt hwf
      have hlkd : lookup dflt k = some v := lookup_of_mem_nodup dflt k v hnd hmem
      have hsubset₂ : ∀ e, e ∈ dl → e ∈ dflt :=
        fun e he => hsubset e (List.mem_cons_of_mem _ he)
      cases v with
      | dict d =>
        have hchild : childD dflt k = d := by unfold childD; rw [hlkd]
        cases htv : lookupT sub k with
        | none =>
          have hE : OkE dflt k (.td true (embedD d)) := by
            unfold OkE
            refine ⟨fun _ => ⟨d, hlkd, strip_embedD d⟩, ?_⟩
            rw [hchild]
            exact OkD_of_noShared _ (noShared_embedD d) d
          have hw₂ := wfT_setKeyT sub k (.td true (embedD d)) hw
            (by simpa [wfTV] using wfT_embedD d)
          have hok₂ := OkD_setKeyT sub dflt k _ hok hE
          have hR := ihdl hsubset₂ (setKeyT sub k (.td true (embedD d))) false hw₂ hok₂
          simp only [tank, htv]
          exact ⟨hR.1, hR.2.1, by simp [hR.2.2]⟩
        | some tv =>
          cases tv with
          | sc w =>
            by_cases hsc : ankScalar d w = true
            · simp only [tank, htv, hsc, if_true]
              exact ihdl hsubset₂ sub true hw hok
            · simp only [tank, htv, if_neg hsc]
              exact ⟨hw, hok, trivial⟩
          | td b ud =>
            have hwfud : wfT ud = true := by
              have := wfTV_of_lookupT sub k _ hw htv
              simpa [wfTV] using this
            have hE := OkE_of_lookupT sub dflt k _ hok htv
            unfold OkE at hE
            cases b with
            | true =>
              obtain ⟨dd, hdd, hstr⟩ := hE.1 rfl
              rw [hlkd, Option.some_inj, JValue.dict.injEq] at hdd
              subst hdd
              obtain ⟨fl₃, hc⟩ := tank_noop (sizeOf d + 1) d (Nat.lt_succ_self _)
                (wf_lookup_dict hwf hlkd) ud hwfud hstr d (fun e he => he) true
              have hset : setKeyT sub k (.td true ud) = sub :=
                setKeyT_self_of_lookupT sub k _ htv
              have hR := ihdl hsubset₂ sub fl₃ hw hok
              simp only [tank, htv, Bool.false_or]
              rw [hc]
              simp only [hset]
              exact ⟨by simpa using hR.1, by simpa using hR.2.1, by simp [hR.2.2]⟩
            | false =>
              have hokud : OkD d ud := by rw [← hchild]; exact hE.2
              have hszd : sizeOf d < n := by
                have hlt := List.sizeOf_lt_of_mem hmem
                simp at hlt
                omega
              have hC := ihn d hszd (wf_lookup_dict hwf hlkd) d (fun e he => he) ud true
                hwfud hokud
              have hwC : wfTV (.td false (tank d ud true false).tree) = true := by
                simpa [wfTV] using hC.1
              have hEC : OkE dflt k (.td false (tank d ud true false).tree) := by
                unfold OkE
                refine ⟨fun hb => (by cases hb), ?_⟩
                rw [hchild]
                exact hC.2.1
              have hw₂ := wfT_setKeyT sub k _ hw hwC
              have hok₂ := OkD_setKeyT sub dflt k _ hok hEC
              cases hce : (tank d ud true false).err with
              | true =>
                simp only [tank, htv, Bool.false_or, hce, if_true]
                exact ⟨hw₂, hok₂, hC.2.2⟩
              | false =>
                have hR := ihdl hsubset₂ (setKeyT sub k (.td false (tank d ud true false).tree))
                  (tank d ud true false).flag hw₂ hok₂
                simp only [tank, htv, Bool.false_or, hce, Bool.false_eq_true, if_false]
                exact ⟨hR.1, hR.2.1, by simp [hC.2.2, hR.2.2]⟩
      | str s =>
        cases htv : lookupT sub k with
        | some tv =>
          simp only [tank, htv, Option.isSome_some, if_true]
          exact ihdl hsubset₂ sub fl hw hok
        | none =>
          have hw₂ := wfT_setKeyT sub k (.sc (JValue.str s)) hw rfl
          have hok₂ := OkD_setKeyT sub dflt k (.sc (JValue.str s)) hok (OkE_sc dflt k (JValue.str s))
          have hR := ihdl hsubset₂ _ false hw₂ hok₂
          simp only [tank, htv, Option.isSome_none, Bool.false_eq_true, if_false]
          exact ⟨hR.1, hR.2.1, by simp [hR.2.2]⟩
      | int m =>
        cases htv : lookupT sub k with
        | some tv =>
          simp only [tank, htv, Option.isSome_some, if_true]
          exact ihdl hsubset₂ sub fl hw hok
        | none =>
          have hw₂ := wfT_setKeyT sub k (.sc (JValue.int m)) hw rfl
          have hok₂ := OkD_setKeyT sub dflt k (.sc (JValue.int m)) hok (OkE_sc dflt k (JValue.int m))
          have hR := ihdl hsubset₂ _ false hw₂ hok₂
          simp only [tank, htv, Option.isSome_none, Bool.false_eq_true, if_false]
          exact ⟨hR.1, hR.2.1, by simp [hR.2.2]⟩
      | bool bb =>
        cases htv : lookupT sub k with
        | some tv =>
          simp only [tank, htv, Option.isSome_some, if_true]
          exact ihdl hsubset₂ sub fl hw hok
        | none =>
          have hw₂ := wfT_setKeyT sub k (.sc (JValue.bool bb)) hw rfl
          have hok₂ := OkD_setKeyT sub dflt k (.sc (JValue.bool bb)) hok (OkE_sc dflt k (JValue.bool bb))
          have hR := ihdl hsubset₂ _ false hw₂ hok₂
          simp only [tank, htv, Option.isSome_none, Bool.false_eq_true, if_false]
          exact ⟨hR.1, hR.2.1, by simp [hR.2.2]⟩
      | list xs =>
        cases htv : lookupT sub k with
        | some tv =>
          simp only [tank, htv, Option.isSome_some, if_true]
          exact ihdl hsubset₂ sub fl hw hok
        | none =>
          have hw₂ := wfT_setKeyT sub k (.sc (JValue.list xs)) hw rfl
          have hok₂ := OkD_setKeyT sub dflt k (.sc (JValue.list xs)) hok (OkE_sc dflt k (JValue.list xs))
          have hR := ihdl hsubset₂ _ false hw₂ hok₂
          simp only [tank, htv, Option.isSome_none, Bool.false_eq_true, if_false]
          exact ⟨hR.1, hR.2.1, by simp [hR.2.2]⟩


theorem trd_master : ∀ (n : Nat) (dflt : Dict), sizeOf dflt < n → wfD dflt = true →
    ∀ (snap : TDict), (∀ k tv, (k, tv) ∈ snap → OkE dflt k tv ∧ wfTV tv = true) →
    ∀ (live : TDict) (fl : Bool), wfT live = true → OkD dflt live →
    wfT (trd dflt snap live fl false).tree = true
    ∧ OkD dflt (trd dflt snap live fl false).tree
    ∧ (trd dflt snap live fl false).touched = false := by
  intro n
  induction n with
  | zero => intro dflt h; omega
  | succ n ihn =>
    intro dflt hsz hwf snap
    induction snap with
    | nil =>
      intro _ live fl hw hok
      simp only [trd]
      exact ⟨hw, hok, trivial⟩
    | cons e snap ihsnap =>
      intro hsnapH live fl hw hok
      obtain ⟨k, tv⟩ := e
      have hsnapE := hsnapH k tv (List.mem_cons_self _ _)
      have hsnap₂ : ∀ k₂ tv₂, (k₂, tv₂) ∈ snap → OkE dflt k₂ tv₂ ∧ wfTV tv₂ = true :=
        fun k₂ tv₂ h => hsnapH k₂ tv₂ (List.mem_cons_of_mem _ h)
      cases tv with
      | sc w =>
        cases hlk : lookup dflt k with
        | some x =>
          simp only [trd, hlk, Option.isSome_some, if_true]
          exact ihsnap hsnap₂ live fl hw hok
        | none =>
          have hR := ihsnap hsnap₂ (eraseKeyT live k) true
            (wfT_eraseKeyT live k hw) (OkD_eraseKeyT live dflt k hok)
          simp only [trd, hlk, Option.isSome_none, Bool.false_eq_true, if_false]
          exact ⟨hR.1, hR.2.1, by simp [hR.2.2]⟩
      | td b vd =>
        have hE := hsnapE.1
        unfold OkE at hE
        have hwfvd : wfT vd = true := by simpa [wfTV] using hsnapE.2
        cases hlk : lookup dflt k with
        | none =>
          simp only [trd, hlk]
          exact ⟨hw, hok, trivial⟩
        | some x =>
          cases x with
          | dict dd =>
            have hchild : childD dflt k = dd := by unfold childD; rw [hlk]
            cases b with
            | true =>
              obtain ⟨dd₂, hdd₂, hstr⟩ := hE.1 rfl
              rw [hlk, Option.some_inj, JValue.dict.injEq] at hdd₂
              subst hdd₂
              obtain ⟨fl₃, hc⟩ := trd_noop (sizeOf dd + 1) dd (Nat.lt_succ_self _)
                (wf_lookup_dict hwf hlk) vd hwfvd hstr vd (fun e he => he) false
              have hwC : wfTV (.td true vd) = true := by simpa [wfTV] using hwfvd
              have hEC : OkE dflt k (.td true vd) := by
                unfold OkE
                refine ⟨fun _ => ⟨dd, hlk, hstr⟩, ?_⟩
                rw [hchild]
                rw [← hchild]
                exact hE.2
              have hw₂ := wfT_setKeyT live k _ hw hwC
              have hok₂ := OkD_setKeyT live dflt k _ hok hEC
              have hR := ihsnap hsnap₂ (setKeyT live k (.td true vd)) fl₃ hw₂ hok₂
              simp only [trd, hlk, Bool.false_or]
              rw [hc]
              exact ⟨by simpa using hR.1, by simpa using hR.2.1, by simp [hR.2.2]⟩
            | false =>
              have hokvd : OkD dd vd := by rw [← hchild]; exact hE.2
              have hszd : sizeOf dd < n := by
                have := sizeOf_lookup_dict dflt k dd hlk
                omega
              have hsnapC : ∀ k₂ tv₂, (k₂, tv₂) ∈ vd → OkE dd k₂ tv₂ ∧ wfTV tv₂ = true :=
                fun k₂ tv₂ h => ⟨OkE_of_mem vd dd k₂ tv₂ hokvd h, wfTV_of_mem vd k₂ tv₂ hwfvd h⟩
              have hC := ihn dd hszd (wf_lookup_dict hwf hlk) vd hsnapC vd false hwfvd hokvd
              have hwC : wfTV (.td false (trd dd vd vd false false).tree) = true := by
                simpa [wfTV] using hC.1
              have hEC : OkE dflt k (.td false (trd dd vd vd false false).tree) := by
                unfold OkE
                refine ⟨fun hbf => (by cases hbf), ?_⟩
                rw [hchild]
                exact hC.2.1
              have hw₂ := wfT_setKeyT live k _ hw hwC
              have hok₂ := OkD_setKeyT live dflt k _ hok hEC
              cases hce : (trd dd vd vd false false).err with
              | true =>
                simp only [trd, hlk, Bool.false_or, hce, if_true]
                exact ⟨hw₂, hok₂, hC.2.2⟩
              | false =>
                have hR := ihsnap hsnap₂ (setKeyT live k (.td false (trd dd vd vd false false).tree))
                  (trd dd vd vd false false).flag hw₂ hok₂
                simp only [trd, hlk, Bool.false_or, hce, Bool.false_eq_true, if_false]
                exact ⟨hR.1, hR.2.1, by simp [hC.2.2, hR.2.2]⟩
          | str s =>
            have hb : b = false := by
              cases b with
              | false => rfl
              | true =>
                obtain ⟨dd₂, hdd₂, _⟩ := hE.1 rfl
                rw [hlk] at hdd₂
                rw [Option.some_inj] at hdd₂
                cases hdd₂
            subst hb
            have hchild : childD dflt k = [] := by
              unfold childD
              rw [hlk]
            have hokvd : OkD ([] : Dict) vd := by rw [← hchild]; exact hE.2
            have hC := trdScalar_master (JValue.str s) vd [] vd false hwfvd hokvd
            have hwC : wfTV (.td false (trdScalar (JValue.str s) vd vd false false).tree) = true := by
              simpa [wfTV] using hC.1
            have hEC : OkE dflt k (.td false (trdScalar (JValue.str s) vd vd false false).tree) := by
              unfold OkE
              refine ⟨fun hbf => (by cases hbf), ?_⟩
              rw [hchild]
              exact hC.2.1
            have hw₂ := wfT_setKeyT live k _ hw hwC
            have hok₂ := OkD_setKeyT live dflt k _ hok hEC
            cases hce : (trdScalar (JValue.str s) vd vd false false).err with
            | true =>
              simp only [trd, hlk, Bool.false_or, hce, if_true]
              exact ⟨hw₂, hok₂, hC.2.2⟩
            | false =>
              have hR := ihsnap hsnap₂ (setKeyT live k (.td false (trdScalar (JValue.str s) vd vd false false).tree))
                (trdScalar (JValue.str s) vd vd false false).flag hw₂ hok₂
              simp only [trd, hlk, Bool.false_or, hce, Bool.false_eq_true, if_false]
              exact ⟨hR.1, hR.2.1, by simp [hC.2.2, hR.2.2]⟩
          | int m =>
            have hb : b = false := by
              cases b with
              | false => rfl
              | true =>
                obtain ⟨dd₂, hdd₂, _⟩ := hE.1 rfl
                rw [hlk] at hdd₂
                rw [Option.some_inj] at hdd₂
                cases hdd₂
            subst hb
            have hchild : childD dflt k = [] := by
              unfold childD
              rw [hlk]
            have hokvd : OkD ([] : Dict) vd := by rw [← hchild]; exact hE.2
            have hC := trdScalar_master (JValue.int m) vd [] vd false hwfvd hokvd
            have hwC : wfTV (.td false (trdScalar (JValue.int m) vd vd false false).tree) = true := by
              simpa [wfTV] using hC.1
            have hEC : OkE dflt k (.td false (trdScalar (JValue.int m) vd vd false false).tree) := by
              unfold OkE
              refine ⟨fun hbf => (by cases hbf), ?_⟩
              rw [hchild]
              exact hC.2.1
            have hw₂ := wfT_setKeyT live k _ hw hwC
            have hok₂ := OkD_setKeyT live dflt k _ hok hEC
            cases hce : (trdScalar (JValue.int m) vd vd false false).err with
            | true =>
              simp only [trd, hlk, Bool.false_or, hce, if_true]
              exact ⟨hw₂, hok₂, hC.2.2⟩
            | false =>
              have hR := ihsnap hsnap₂ (setKeyT live k (.td false (trdScalar (JValue.int m) vd vd false false).tree))
                (trdScalar (JValue.int m) vd vd false false).flag hw₂ hok₂
              simp only [trd, hlk, Bool.false_or, hce, Bool.false_eq_true, if_false]
              exact ⟨hR.1, hR.2.1, by simp [hC.2.2, hR.2.2]⟩
          | bool bb2 =>
            have hb : b = false := by
              cases b with
              | false => rfl
              | true =>
                obtain ⟨dd₂, hdd₂, _⟩ := hE.1 rfl
                rw [hlk] at hdd₂
                rw [Option.some_inj] at hdd₂
                cases hdd₂
            subst hb
            have hchild : childD dflt k = [] := by
              unfold childD
              rw [hlk]
            have hokvd : OkD ([] : Dict) vd := by rw [← hchild]; exact hE.2
            have hC := trdScalar_master (JValue.bool bb2) vd [] vd false hwfvd hokvd
            have hwC : wfTV (.td false (trdScalar (JValue.bool bb2) vd vd false false).tree) = true := by
              simpa [wfTV] using hC.1
            have hEC : OkE dflt k (.td false (trdScalar (JValue.bool bb2) vd vd false false).tree) := by
              unfold OkE
              refine ⟨fun hbf => (by cases hbf), ?_⟩
              rw [hchild]
              exact hC.2.1
            have hw₂ := wfT_setKeyT live k _ hw hwC
            have hok₂ := OkD_setKeyT live dflt k _ hok hEC
            cases hce : (trdScalar (JValue.bool bb2) vd vd false false).err with
            | true =>
              simp only [trd, hlk, Bool.false_or, hce, if_true]
              exact ⟨hw₂, hok₂, hC.2.2⟩
            | false =>
              have hR := ihsnap hsnap₂ (setKeyT live k (.td false (trdScalar (JValue.bool bb2) vd vd false false).tree))
                (trdScalar (JValue.bool bb2) vd vd false false).flag hw₂ hok₂
              simp only [trd, hlk, Bool.false_or, hce, Bool.false_eq_true, if_false]
              exact ⟨hR.1, hR.2.1, by simp [hC.2.2, hR.2.2]⟩
          | list xs =>
            have hb : b = false := by
              cases b with
              | false => rfl
              | true =>
                obtain ⟨dd₂, hdd₂, _⟩ := hE.1 rfl
                rw [hlk] at hdd₂
                rw [Option.some_inj] at hdd₂
                cases hdd₂
            subst hb
            have hchild : childD dflt k = [] := by
              unfold childD
              rw [hlk]
            have hokvd : OkD ([] : Dict) vd := by rw [← hchild]; exact hE.2
            have hC := trdScalar_master (JValue.list xs) vd [] vd false hwfvd hokvd
            have hwC : wfTV (.td false (trdScalar (JValue.list xs) vd vd false false).tree) = true := by
              simpa [wfTV] using hC.1
            have hEC : OkE dflt k (.td false (trdScalar (JValue.list xs) vd vd false false).tree) := by
              unfold OkE
              refine ⟨fun hbf => (by cases hbf), ?_⟩
              rw [hchild]
              exact hC.2.1
            have hw₂ := wfT_setKeyT live k _ hw hwC
            have hok₂ := OkD_setKeyT live dflt k _ hok hEC
            cases hce : (trdScalar (JValue.list xs) vd vd false false).err with
            | true =>
              simp only [trd, hlk, Bool.false_or, hce, if_true]
              exact ⟨hw₂, hok₂, hC.2.2⟩
            | false =>
              have hR := ihsnap hsnap₂ (setKeyT live k (.td false (trdScalar (JValue.list xs) vd vd false false).tree))
                (trdScalar (JValue.list xs) vd vd false false).flag hw₂ hok₂
              simp only [trd, hlk, Bool.false_or, hce, Bool.false_eq_true, if_false]
              exact ⟨hR.1, hR.2.1, by simp [hC.2.2, hR.2.2]⟩


theorem wfT_cons : ∀ (k : String) (tv : TVal) (rest : TDict),
    wfTV tv = true → wfT rest = true → wfT ((k, tv) :: rest) = true := by
  intro k tv rest h₁ h₂
  cases tv with
  | sc v =>
    unfold wfT
    simp only [Bool.and_eq_true]
    exact ⟨by simpa [wfTV] using h₁, h₂⟩
  | td b sub =>
    unfold wfT
    simp only [Bool.and_eq_true]
    exact ⟨by simpa [wfTV] using h₁, h₂⟩

theorem okE_pull : ∀ (u : TDict) (k k₂ : String) (d₂ : Dict) (d₀ : TVal),
    wfT u = true → OkD DEF_CFG u → lookup DEF_CFG k = none → childD d₂ k₂ = [] →
    wfTV d₀ = true → OkE d₂ k₂ d₀ →
    wfTV (getT u k d₀) = true ∧ OkE d₂ k₂ (getT u k d₀) := by
  intro u k k₂ d₂ d₀ hw hok hnone hch₂ hw₀ hok₀
  unfold getT
  cases hl : lookupT u k with
  | none => exact ⟨hw₀, hok₀⟩
  | some tv =>
    have hwtv := wfTV_of_lookupT u k tv hw hl
    have hE := OkE_of_lookupT u DEF_CFG k tv hok hl
    refine ⟨hwtv, ?_⟩
    show OkE d₂ k₂ tv
    cases tv with
    | sc w => exact OkE_sc _ _ _
    | td b sub =>
      unfold OkE at hE
      have hb : b = false := by
        cases b with
        | false => rfl
        | true =>
          obtain ⟨dd, hdd, _⟩ := hE.1 rfl
          rw [hnone] at hdd
          cases hdd
      subst hb
      have hsub : OkD ([] : Dict) sub := by
        have h₃ := hE.2
        rwa [show childD DEF_CFG k = [] by unfold childD; rw [hnone]] at h₃
      unfold OkE
      refine ⟨fun h => (by cases h), ?_⟩
      rw [hch₂]
      exact hsub

theorem tspecial_master : ∀ (u : TDict), wfT u = true → OkD DEF_CFG u →
    wfT (tspecial u).1 = true ∧ OkD DEF_CFG (tspecial u).1 := by
  intro u hw hok
  unfold tspecial
  cases hcv : lookupT u "config_version" with
  | some v =>
    simp only [Option.isNone_some, Bool.false_eq_true, if_false]
    exact ⟨hw, hok⟩
  | none =>
    simp only [Option.isNone_none, if_pos]
    have h₁ := okE_pull u "api_key" "token" (childD DEF_CFG "bot")
      (.sc (.str "")) hw hok rfl rfl rfl (OkE_sc _ _ _)
    have h₂ := okE_pull u "whitelisted_users" "whitelisted_users" (childD DEF_CFG "bot")
      (.sc (.list [])) hw hok rfl rfl rfl (OkE_sc _ _ _)
    have h₃ := okE_pull u "state_notifications" "state_notifications" (childD DEF_CFG "bot")
      (.sc (.bool true)) hw hok rfl rfl rfl (OkE_sc _ _ _)
    have h₄ := okE_pull u "enable_file_transfer" "enable_file_transfer" (childD DEF_CFG "bot")
      (.sc (.bool true)) hw hok rfl rfl rfl (OkE_sc _ _ _)
    have hwL : wfT [("token", getT u "api_key" (.sc (.str ""))),
        ("whitelisted_users", getT u "whitelisted_users" (.sc (.list []))),
        ("state_notifications", getT u "state_notifications" (.sc (.bool true))),
        ("enable_file_transfer", getT u "enable_file_transfer" (.sc (.bool true)))] = true :=
      wfT_cons _ _ _ h₁.1 (wfT_cons _ _ _ h₂.1 (wfT_cons _ _ _ h₃.1
        (wfT_cons _ _ _ h₄.1 (by simp [wfT]))))
    have hokL : OkD (childD DEF_CFG "bot")
        [("token", getT u "api_key" (.sc (.str ""))),
         ("whitelisted_users", getT u "whitelisted_users" (.sc (.list []))),
         ("state_notifications", getT u "state_notifications" (.sc (.bool true))),
         ("enable_file_transfer", getT u "enable_file_transfer" (.sc (.bool true)))] :=
      (OkD_cons _ _ _ _).mpr ⟨h₁.2, (OkD_cons _ _ _ _).mpr ⟨h₂.2,
        (OkD_cons _ _ _ _).mpr ⟨h₃.2, (OkD_cons _ _ _ _).mpr ⟨h₄.2, OkD_nil _⟩⟩⟩⟩
    have hEB : OkE DEF_CFG "bot" (.td false
        [("token", getT u "api_key" (.sc (.str ""))),
         ("whitelisted_users", getT u "whitelisted_users" (.sc (.list []))),
         ("state_notifications", getT u "state_notifications" (.sc (.bool true))),
         ("enable_file_transfer", getT u "enable_file_transfer" (.sc (.bool true)))]) := by
      unfold OkE
      exact ⟨fun h => (by cases h), hokL⟩
    exact ⟨wfT_setKeyT u "bot" _ hw hwL, OkD_setKeyT u DEF_CFG "bot" _ hok hEB⟩

theorem tcc_master : ∀ (u : TDict), wfT u = true → OkD DEF_CFG u →
    wfT (tconfig_check u).tree = true ∧ OkD DEF_CFG (tconfig_check u).tree
    ∧ (tconfig_check u).touched = false := by
  intro u hw hok
  obtain ⟨hwp, hokp⟩ := tspecial_master u hw hok
  have hsnap : ∀ k tv, (k, tv) ∈ (tspecial u).1 → OkE DEF_CFG k tv ∧ wfTV tv = true :=
    fun k tv hm => ⟨OkE_of_mem _ _ _ _ hokp hm, wfTV_of_mem _ _ _ hwp hm⟩
  have hwfD : wfD DEF_CFG = true := wfD_eval _ _ _ (Nat.lt_succ_self _) rfl
  have hR := trd_master (sizeOf DEF_CFG + 1) DEF_CFG (Nat.lt_succ_self _) hwfD
    (tspecial u).1 hsnap (tspecial u).1 false hwp hokp
  unfold tconfig_check
  cases herr : (trd DEF_CFG (tspecial u).1 (tspecial u).1 false false).err with
  | true =>
    simp only [herr, if_pos]
    exact ⟨hR.1, hR.2.1, hR.2.2⟩
  | false =>
    have hA := tank_master (sizeOf DEF_CFG + 1) DEF_CFG (Nat.lt_succ_self _) hwfD
      DEF_CFG (fun e he => he)
      (trd DEF_CFG (tspecial u).1 (tspecial u).1 false false).tree true hR.1 hR.2.1
    simp only [herr, Bool.false_eq_true, if_false]
    exact ⟨hA.1, hA.2.1, by simp [hR.2.2, hA.2.2]⟩


theorem InvA_getStepA : ∀ (s : AliasState), InvA s → InvA (getStepA s) := by
  intro s h
  unfold InvA at h ⊢
  unfold getStepA
  by_cases hm : isModifiedA s = true
  · rw [if_pos hm]
    exact ⟨h.1, wfT_embedD _, OkD_of_noShared _ (noShared_embedD _) _⟩
  · rw [if_neg hm]
    exact h

theorem InvA_writeCacheA : ∀ (s : AliasState) (adv : Nat), InvA s → InvA (writeCacheA s adv) := by
  intro s adv h
  unfold InvA at h ⊢
  exact ⟨h.1, h.2.1, h.2.2⟩

theorem InvA_setCacheKey : ∀ (s : AliasState) (k : String) (v : TVal),
    InvA s → wfTV v = true → OkE DEF_CFG k v →
    InvA { s with cache := setKeyT s.cache k v } := by
  intro s k v h hwv hev
  unfold InvA at h ⊢
  exact ⟨h.1, wfT_setKeyT _ _ _ h.2.1 hwv, OkD_setKeyT _ _ _ _ h.2.2 hev⟩

theorem InvA_updInstallA : ∀ (s : AliasState) (adv : Nat), InvA s → InvA (updInstallA s adv) := by
  intro s adv h
  have h₁ := InvA_getStepA s h
  unfold updInstallA
  refine InvA_writeCacheA _ adv (InvA_setCacheKey (getStepA s) "systemd_service" _ h₁ ?_ ?_)
  · show wfT [("version", .sc (.int service_version))] = true
    simp [wfT, isDict]
  · unfold OkE
    refine ⟨fun h => (by cases h), ?_⟩
    show OkD [("version", JValue.int (-1))] [("version", .sc (.int service_version))]
    exact (OkD_cons _ _ _ _).mpr ⟨OkE_sc _ _ _, OkD_nil _⟩

theorem InvA_updRemoveA : ∀ (s : AliasState) (adv : Nat), InvA s → InvA (updRemoveA s adv) := by
  intro s adv h
  have h₁ := InvA_getStepA s h
  unfold updRemoveA
  refine InvA_writeCacheA _ adv (InvA_setCacheKey (getStepA s) "systemd_service" _ h₁ ?_ ?_)
  · show wfT (embedD [("version", JValue.int (-1))]) = true
    exact wfT_embedD _
  · unfold OkE
    refine ⟨fun _ => ⟨[("version", JValue.int (-1))], rfl, strip_embedD _⟩, ?_⟩
    exact OkD_of_noShared _ (noShared_embedD _) _

theorem lookupT_updInstallA : ∀ (s : AliasState) (adv : Nat),
    lookupT (updInstallA s adv).cache "systemd_service"
      = some (.td false [("version", .sc (.int service_version))]) := by
  intro s adv
  show lookupT (setKeyT (getStepA s).cache "systemd_service" _) "systemd_service" = _
  exact lookupT_setKeyT_self _ _ _

theorem installA_true_shape : ∀ (s : AliasState) (io : InstallIO) (adv : Nat),
    (installA s io adv).2 = true →
    (installA s io adv).1 = updInstallA { s with unitF := true } adv := by
  intro s io adv h
  unfold installA at h ⊢
  by_cases hu : s.unitF = true
  · rw [if_pos hu] at h
    cases h
  · rw [if_neg hu] at h ⊢
    cases io with
    | templateOpenFails => cases h
    | finalOpenFails => cases h
    | failAfterOpen part => cases h
    | ok => rfl

theorem getStep_no_shared_key : ∀ (s : AliasState) (k : String),
    (∀ b ss, lookupT s.cache k = some (.td b ss) → b = false) →
    ∀ b ss, lookupT (getStepA s).cache k = some (.td b ss) → b = false := by
  intro s k hs b ss h
  unfold getStepA at h
  by_cases hm : isModifiedA s = true
  · rw [if_pos hm] at h
    exact (noShared_lookupT _ _ _ _ (noShared_embedD _) h).1
  · rw [if_neg hm] at h
    exact hs b ss h

theorem InvA_updUpgradeA : ∀ (s : AliasState) (adv : Nat), InvA s →
    (∀ b ss, lookupT (getStepA s).cache "systemd_service" = some (.td b ss) → b = false) →
    InvA (updUpgradeA s adv) := by
  intro s adv h hns
  have h₁ := InvA_getStepA s h
  unfold InvA at h₁
  simp only [updUpgradeA]
  cases hl : lookupT (getStepA s).cache "systemd_service" with
  | none => exact ⟨h₁.1, h₁.2.1, h₁.2.2⟩
  | some tv =>
    cases tv with
    | sc w => exact ⟨h₁.1, h₁.2.1, h₁.2.2⟩
    | td b ss =>
      have hb := hns b ss hl
      subst hb
      have hss : wfT ss = true := wfTV_of_lookupT _ _ _ h₁.2.1 hl
      have hEss := OkE_of_lookupT _ DEF_CFG _ _ h₁.2.2 hl
      unfold OkE at hEss
      refine InvA_writeCacheA _ adv ?_
      unfold InvA
      refine ⟨by simp [h₁.1], ?_, ?_⟩
      · refine wfT_setKeyT _ _ _ h₁.2.1 ?_
        show wfT (setKeyT ss "version" (.sc (.int service_version))) = true
        exact wfT_setKeyT _ _ _ hss (by simp [wfTV, isDict])
      · refine OkD_setKeyT _ _ _ _ h₁.2.2 ?_
        unfold OkE
        refine ⟨fun h => (by cases h), ?_⟩
        exact OkD_setKeyT _ _ _ _ hEss.2 (OkE_sc _ _ _)


theorem InvA_installA : ∀ (s : AliasState) (io : InstallIO) (adv : Nat),
    InvA s → InvA (installA s io adv).1 := by
  intro s io adv h
  unfold installA
  by_cases hu : s.unitF = true
  · rw [if_pos hu]
    exact h
  · rw [if_neg hu]
    cases io with
    | templateOpenFails =>
      unfold InvA at h ⊢
      exact ⟨h.1, h.2.1, h.2.2⟩
    | finalOpenFails =>
      unfold InvA at h ⊢
      exact ⟨h.1, h.2.1, h.2.2⟩
    | failAfterOpen part =>
      unfold InvA at h ⊢
      exact ⟨h.1, h.2.1, h.2.2⟩
    | ok =>
      have h₂ : InvA { s with unitF := true } := by
        unfold InvA at h ⊢
        exact ⟨h.1, h.2.1, h.2.2⟩
      exact InvA_updInstallA _ adv h₂

theorem InvA_removeA : ∀ (s : AliasState) (f : Bool) (adv : Nat),
    InvA s → InvA (removeA s f adv).1 := by
  intro s f adv h
  unfold removeA
  by_cases hu : s.unitF = true
  · rw [if_pos hu]
    by_cases hf : f = true
    · rw [if_pos hf]
      exact h
    · rw [if_neg hf]
      have h₂ : InvA { s with unitF := false } := by
        unfold InvA at h ⊢
        exact ⟨h.1, h.2.1, h.2.2⟩
      exact InvA_updRemoveA _ adv h₂
  · rw [if_neg hu]
    exact h

theorem InvA_reconcileA : ∀ (s : AliasState) (adv : Nat), InvA s → InvA (reconcileA s adv) := by
  intro s adv h
  have h₁ := InvA_getStepA s h
  unfold InvA at h₁
  have hcc := tcc_master (getStepA s).cache h₁.2.1 h₁.2.2
  have hs₂ : InvA { getStepA s with
                    cache := (tconfig_check (getStepA s).cache).tree,
                    touched := (getStepA s).touched || (tconfig_check (getStepA s).cache).touched } := by
    unfold InvA
    exact ⟨by simp [h₁.1, hcc.2.2], hcc.1, hcc.2.1⟩
  simp only [reconcileA]
  by_cases he : (tconfig_check (getStepA s).cache).err = true
  · rw [if_pos he]
    unfold InvA at hs₂ ⊢
    exact ⟨hs₂.1, hs₂.2.1, hs₂.2.2⟩
  · rw [if_neg he]
    by_cases hw : (!(tconfig_check (getStepA s).cache).up
        || (tconfig_check (getStepA s).cache).dep
        || (tconfig_check (getStepA s).cache).sp) = true
    · rw [if_pos hw]
      exact InvA_writeCacheA _ adv hs₂
    · rw [if_neg hw]
      exact hs₂

theorem InvA_upgradeA : ∀ (s : AliasState) (c f : Bool) (io : InstallIO) (a₁ a₂ a₃ : Nat),
    InvA s → InvA (upgradeA s c f io a₁ a₂ a₃) := by
  intro s c f io a₁ a₂ a₃ h
  simp only [upgradeA]
  by_cases hu : s.unitF = true
  · rw [if_pos hu]
    have h₁ := InvA_getStepA s h
    cases hv : readVersionA (getStepA s).cache with
    | none =>
      unfold InvA at h₁ ⊢
      exact ⟨h₁.1, h₁.2.1, h₁.2.2⟩
    | some v =>
      simp only []
      by_cases hc : v < service_version ∧ c = true
      · rw [if_pos hc]
        have hp := InvA_removeA (getStepA s) f a₁ h₁
        cases hp2 : (removeA (getStepA s) f a₁).2 with
        | false =>
          simp only [Bool.false_eq_true, if_false]
          exact hp
        | true =>
          rw [if_pos rfl]
          have hq := InvA_installA (removeA (getStepA s) f a₁).1 io a₂ hp
          cases hq2 : (installA (removeA (getStepA s) f a₁).1 io a₂).2 with
          | false =>
            simp only [Bool.false_eq_true, if_false]
            exact hq
          | true =>
            rw [if_pos rfl]
            refine InvA_updUpgradeA _ a₃ hq ?_
            refine getStep_no_shared_key _ _ ?_
            intro b ss hlk
            rw [installA_true_shape _ io a₂ hq2] at hlk
            rw [lookupT_updInstallA] at hlk
            simp only [Option.some_inj, TVal.td.injEq] at hlk
            exact hlk.1.symm
      · rw [if_neg hc]
        exact h₁
  · rw [if_neg hu]
    exact h

theorem InvA_stepA : ∀ (s : AliasState) (op : AOp), InvA s → InvA (stepA s op) := by
  intro s op h
  unfold stepA
  by_cases hd : s.dead = true
  · rw [if_pos hd]
    exact h
  · rw [if_neg hd]
    cases op with
    | get => exact InvA_getStepA s h
    | write d adv =>
      unfold InvA at h ⊢
      exact ⟨h.1, h.2.1, h.2.2⟩
    | reconcile adv => exact InvA_reconcileA s adv h
    | install io adv => exact InvA_installA s io adv h
    | remove f adv => exact InvA_removeA s f adv h
    | upgrade c f io a₁ a₂ a₃ => exact InvA_upgradeA s c f io a₁ a₂ a₃ h

theorem InvA_runA : ∀ (ops : List AOp) (s : AliasState), InvA s → InvA (runA s ops) := by
  intro ops
  induction ops with
  | nil =>
    intro s h
    simpa [runA] using h
  | cons op ops ih =>
    intro s h
    simp only [runA]
    exact ih _ (InvA_stepA s op h)

/-- C4: `DEF_CFG` is immutable at runtime.  In the aliasing model every
node of the cached document that is — by Python reference semantics — the
very `DEF_CFG` sub-object at its schema path carries a `shared` tag, and
`touched` records every in-place write performed through such a shared
object.  For every initial backing file, every initial unit-file status and
every sequence of `TM_Config` / systemd-service operations (reconcile, get,
write, install, remove, upgrade, with arbitrary failure modes and file-time
advances), no operation ever writes through a `DEF_CFG` object, so the
shipped default schema stays deep-equal to its initial value. -/
theorem claim_C4 : ∀ (d₀ : Dict) (u₀ : Bool) (ops : List AOp),
    (runA (initA d₀ u₀) ops).touched = false := by
  intro d₀ u₀ ops
  have h0 : InvA (initA d₀ u₀) := by
    unfold InvA initA
    refine ⟨rfl, by simp [wfT], OkD_nil _⟩
  have h₂ := InvA_runA ops _ h0
  unfold InvA at h₂
  exact h₂.1

end Telemonitor
